import Mathlib

/-!
# bychannel/event: listener registry and dispatch engine

A shallow embedding of the Go package `event` (files `event.go`, `helper.go`,
`global.go`, `listener.go`, `manager.go`) together with theorems about it.

Modelling conventions.

* A Go `map[string]T` is an association list `GoMap T`; `get` is the lookup
  `m[k]`, `set` the assignment `m[k] = v`, `del` the builtin `delete`.  A nil
  map is `none` where the source distinguishes it from an empty map.
* A `*T` held by the registry is modelled by the value it points to; an
  in-place update of the pointee is an explicit write back into the map.  The
  map holding the data of an event is reached through that event alone.
* `panic` is recorded in a result field, next to the state at the moment of
  the panic.
* A listener is its `%p` rendering together with its `Handle` method.  `Handle`
  receives the event through the `IEvent` interface, which has mutators for the
  data bag and the abort flag only, so a call yields a new bag, a new flag and
  the returned error.  A listener is a function of the event it receives: it
  neither panics nor calls back into the registry that dispatches it.
* A dispatch records the invocations it makes (`Call`: the item and the event
  handed to its listener), in order; this trace is what the theorems about
  invocation order and invocation counts speak of.
* Runs are sequential; the goroutines of `AsyncPublish` and `AwaitPublish` and
  the mutex taken under `EnableLock` are outside the model.
* Go strings are modelled by `String` (valid UTF-8 text).  The only byte level
  operations of the source are `strings.LastIndexByte(name, '.')`, `len(name)`
  and `name[:pos+1]`; the byte `.` never occurs inside a multi-byte rune, so
  the tests performed on `pos` and the slice taken do not depend on whether
  offsets are counted in bytes or in runes.  Offsets are counted in runes here.
* `sort.Sort` belongs to the Go standard library.  The development is
  parametric in an implementation `GoSort` meeting its documented contract (the
  result is a reordering of the input in which no element is `Less` than its
  predecessor); `goInsertionSort`, the routine `sort.Sort` runs on slices of at
  most 12 elements, is provided as an instance, and so is `goPdqSort`, the
  `pdqsort` that `sort.Sort` runs since Go 1.19, with the pseudo-random
  generator of the package as a parameter.
* An argument of type `interface{}` is a value of `BatchItem`, which keeps the
  cases the type switches of `BatchPublish` tell apart.  An event passed to
  `BatchPublish` is a pointer: the caller's instances are numbered, and a
  registered prototype is named by its key, so that an item can be the
  instance of another item or of the registry.  One instance is registered
  under one key at most.
-/

namespace Event

/-! ## Go maps with string keys -/

/-- A Go map with string keys, as an association list. -/
abbrev GoMap (α : Type) := List (String × α)

namespace GoMap

/-- The lookup `v, ok := m[key]`. -/
def get {α : Type} : GoMap α → String → Option α
  | [], _ => none
  | (k, v) :: m, key => if key = k then some v else get m key

/-- The test `_, ok := m[key]`. -/
def has {α : Type} (m : GoMap α) (key : String) : Bool :=
  (GoMap.get m key).isSome

/-- The builtin `delete(m, key)`. -/
def del {α : Type} : GoMap α → String → GoMap α
  | [], _ => []
  | (k, v) :: m, key => if key = k then del m key else (k, v) :: del m key

/-- The assignment `m[key] = v`. -/
def set {α : Type} : GoMap α → String → α → GoMap α
  | [], key, v => [(key, v)]
  | (k, x) :: m, key, v => if key = k then (k, v) :: m else (k, x) :: set m key v

/-- The keys visited by `for k := range m`. -/
def keys {α : Type} (m : GoMap α) : List String :=
  m.map Prod.fst

end GoMap

/-! ## global.go -/

def Min : Int := -300
def Low : Int := -200
def BelowNormal : Int := -100
def Normal : Int := 0
def AboveNormal : Int := 100
def High : Int := 200
def Max : Int := 300

def Wildcard : String := "*"

/-- Values stored in an event's data bag (`interface{}` in the source). -/
abbrev Val := String

/-- The type `M = map[string]interface{}`; `none` is the nil map. -/
abbrev M := Option (GoMap Val)

/-- The class `[a-zA-Z]`. -/
def isAsciiLetter (c : Char) : Bool :=
  (decide ('a' ≤ c) && decide (c ≤ 'z')) || (decide ('A' ≤ c) && decide (c ≤ 'Z'))

/-- The Perl class `\w` of Go's regexp package: `[0-9A-Za-z_]`. -/
def isWordChar (c : Char) : Bool :=
  (decide ('0' ≤ c) && decide (c ≤ '9')) || isAsciiLetter c || c == '_'

/-- The bracket expression `[\w-.*]` of `eventNameReg`: a word character, or one
of the literals `-`, `.`, `*`. -/
def isNameChar (c : Char) : Bool :=
  isWordChar c || c == '-' || c == '.' || c == '*'

/-- `eventNameReg.MatchString`, for
`eventNameReg = regexp.MustCompile("^[a-zA-Z][\\w-.*]*$")`. -/
def eventNameReg (s : String) : Bool :=
  match s.data with
  | [] => false
  | c :: cs => isAsciiLetter c && cs.all isNameChar

/-! ## event.go -/

/-- The struct `BasicEvent`. -/
structure BasicEvent where
  name : String
  data : M
  aborted : Bool
  deriving DecidableEq, Repr

namespace BasicEvent

def SetName (e : BasicEvent) (name : String) : BasicEvent :=
  { e with name := name }

def Name (e : BasicEvent) : String := e.name

/-- `Get`: the value stored under `key`, `none` (nil) when there is none. -/
def Get (e : BasicEvent) (key : String) : Option Val :=
  match e.data with
  | none => none
  | some d => GoMap.get d key

def Set (e : BasicEvent) (key : String) (val : Val) : BasicEvent :=
  let d := match e.data with
    | none => []
    | some d => d
  { e with data := some (GoMap.set d key val) }

def Add (e : BasicEvent) (key : String) (val : Val) : BasicEvent :=
  match e.Get key with
  | some _ => e
  | none => e.Set key val

def Data (e : BasicEvent) : M := e.data

def SetData (e : BasicEvent) (data : M) : BasicEvent :=
  match data with
  | none => e
  | some d => { e with data := some d }

def Abort (e : BasicEvent) (abort : Bool) : BasicEvent :=
  { e with aborted := abort }

def IsAborted (e : BasicEvent) : Bool := e.aborted

end BasicEvent

/-! ## helper.go -/

def NewBasicEvent (name : String) (data : M) : BasicEvent :=
  let data := match data with
    | none => some []
    | some d => some d
  { name := name, data := data, aborted := false }

/-- Go's `unicode.IsSpace`: the Latin-1 white space characters and the
other code points of the Unicode property White_Space. -/
def isSpace (c : Char) : Bool :=
  let n := c.toNat
  (decide (0x09 ≤ n) && decide (n ≤ 0x0D)) || n == 0x20 || n == 0x85 || n == 0xA0 ||
  n == 0x1680 || (decide (0x2000 ≤ n) && decide (n ≤ 0x200A)) || n == 0x2028 ||
  n == 0x2029 || n == 0x202F || n == 0x205F || n == 0x3000

/-- Go's `strings.TrimSpace`. -/
def TrimSpace (s : String) : String :=
  String.mk ((s.data.dropWhile isSpace).reverse.dropWhile isSpace).reverse

/-- The function `checkName`; `Except.error` carries the panic message. -/
def checkName (name : String) : Except String String :=
  let name := TrimSpace name
  if name = "" then
    Except.error "event: the event name cannot be empty"
  else if !eventNameReg name then
    Except.error "event: the event name is invalid, must match regex '^[a-zA-Z][\\w-.]*$'"
  else
    Except.ok name

/-! ## listener.go -/

/-- What a call of `Handle` leaves behind: the event's data bag and abort flag
after the call, and the returned error (`none` is nil). -/
structure HandleResult where
  data : M
  aborted : Bool
  err : Option String

/-- A value of interface type `IListener`: `ptr` is what `fmt.Sprintf("%p", _)`
renders for it, `Handle` its method. -/
structure IListener where
  ptr : Nat
  Handle : BasicEvent → HandleResult

/-- The struct `ListenerItem`; a nil `Listener` is `none`. -/
structure ListenerItem where
  Priority : Int
  Listener : Option IListener

/-- The struct `ListenerQueue`. -/
structure ListenerQueue where
  items : List ListenerItem

/-- `ByPriorityItems.Less`, on the two items compared. -/
def Less (a b : ListenerItem) : Bool :=
  decide (a.Priority > b.Priority)

/-- Go's `sort.IsSorted` on `ByPriorityItems`: no item is `Less` than the one
before it. -/
def IsSorted : List ListenerItem → Bool
  | [] => true
  | [_] => true
  | a :: b :: rest => !(Less b a) && IsSorted (b :: rest)

/-- An implementation of Go's `sort.Sort` on `ByPriorityItems`, with the
contract the standard library documents for it. -/
structure GoSort where
  sort : List ListenerItem → List ListenerItem
  perm : ∀ l, List.Perm (sort l) l
  sorted : ∀ l, IsSorted (sort l) = true

/-- The inner loop of Go's `insertionSort`: the new item moves towards the
front while it is `Less` than its predecessor. -/
def insertItem (x : ListenerItem) : List ListenerItem → List ListenerItem
  | [] => [x]
  | y :: ys => if Less x y then x :: y :: ys else y :: insertItem x ys

/-- Go's `insertionSort` from package sort. -/
def insertionSort (l : List ListenerItem) : List ListenerItem :=
  l.foldl (fun acc x => insertItem x acc) []

namespace ListenerQueue

def Len (lq : ListenerQueue) : Nat := lq.items.length

def IsEmpty (lq : ListenerQueue) : Bool := lq.items.length == 0

def Push (lq : ListenerQueue) (li : ListenerItem) : ListenerQueue :=
  { items := lq.items ++ [li] }

/-- The method `Sort` (a reserved word of Lean, hence the name): the items are
handed to `sort.Sort` unless `sort.IsSorted` already holds. -/
def SortQ (S : GoSort) (lq : ListenerQueue) : ListenerQueue :=
  if !IsSorted lq.items then { items := S.sort lq.items } else lq

def Items (lq : ListenerQueue) : List ListenerItem := lq.items

/-- `Remove`: drops the items whose listener renders, under `%p`, like the
given one; a nil argument changes nothing. -/
def Remove (lq : ListenerQueue) (listener : Option IListener) : ListenerQueue :=
  match listener with
  | none => lq
  | some l =>
    { items := lq.items.filter (fun li => !(decide (li.Listener.map IListener.ptr = some l.ptr))) }

def Clear (_lq : ListenerQueue) : ListenerQueue := { items := [] }

end ListenerQueue

/-! ## package sort: `sort.Sort` of Go 1.19 and later

`sort.Sort` reaches the slice through `Less(i, j)` and `Swap(i, j)` only.  The
slice is modelled by the list of the positions its items had before the call,
in their current order, and `pr` gives the priority of the item that was at a
position.  The functions below are those of the package that `sort.Sort` runs:
`insertionSort`, `siftDown`, `heapSort`, `bits.Len`, `nextPowerOfTwo`,
`breakPatterns`, `order2`, `median`, `medianAdjacent`, `choosePivot`,
`reverseRange`, `partialInsertionSort`, `partitionEqual`, `partition` and
`pdqsort`.  The pseudo-random generator of `breakPatterns`, the method `Next`
of the type `xorshift`, is a parameter `next`: the function from the 64-bit
state to the next state, which is also the value `Next` returns.  Loops that
are not bounded by their shape take a number of rounds that their run never
exceeds. -/

/-- `data.Less(i, j)` of `ByPriorityItems`. -/
def sliceLess (pr : Nat → Int) (data : List Nat) (i j : Nat) : Bool :=
  decide (pr (data.getD i 0) > pr (data.getD j 0))

/-- `data.Swap(i, j)` of `ByPriorityItems`. -/
def sliceSwap (data : List Nat) (i j : Nat) : List Nat :=
  (data.set i (data.getD j 0)).set j (data.getD i 0)

/-- The inner loop of `insertionSort`:
`for j := i; j > a && data.Less(j, j-1); j-- { data.Swap(j, j-1) }`. -/
def sinkLeft (pr : Nat → Int) (a : Nat) : Nat → List Nat → List Nat
  | 0, data => data
  | j + 1, data =>
    if j + 1 > a ∧ sliceLess pr data (j + 1) j = true then
      sinkLeft pr a j (sliceSwap data (j + 1) j)
    else data

/-- `insertionSort(data, a, b)`. -/
def insertionSortRange (pr : Nat → Int) (data : List Nat) (a b : Nat) : List Nat :=
  (List.range' (a + 1) (b - (a + 1))).foldl (fun d i => sinkLeft pr a i d) data

/-- `siftDown(data, lo, hi, first)`, with `root` starting at `lo`; the first
argument bounds the number of rounds. -/
def siftDown (pr : Nat → Int) (hi first : Nat) : Nat → Nat → List Nat → List Nat
  | 0, _, data => data
  | n + 1, root, data =>
    if 2 * root + 1 ≥ hi then data
    else
      let child :=
        if 2 * root + 1 + 1 < hi ∧
            sliceLess pr data (first + (2 * root + 1)) (first + (2 * root + 1) + 1) = true then
          2 * root + 1 + 1
        else 2 * root + 1
      if sliceLess pr data (first + root) (first + child) = false then data
      else siftDown pr hi first n child (sliceSwap data (first + root) (first + child))

/-- `heapSort(data, a, b)`: the heap is built with `i` from `(hi-1)/2` down to
0, then the items are popped with `i` from `hi-1` down to 0. -/
def heapSort (pr : Nat → Int) (data : List Nat) (a b : Nat) : List Nat :=
  let hi := b - a
  let built := (List.range ((hi - 1) / 2 + 1)).reverse.foldl
    (fun d i => siftDown pr hi a hi i d) data
  (List.range hi).reverse.foldl (fun d i => siftDown pr i a hi 0 (sliceSwap d a (a + i))) built

/-- The loop of `bits.Len`: the number of binary digits of `x`; the first
argument bounds the number of rounds. -/
def bitsLenAux : Nat → Nat → Nat
  | 0, _ => 0
  | n + 1, x => if x = 0 then 0 else bitsLenAux n (x / 2) + 1

/-- `bits.Len(uint(x))`. -/
def bitsLen (x : Nat) : Nat := bitsLenAux x x

/-- `nextPowerOfTwo(length)`: `1 << bits.Len(uint(length))`. -/
def nextPowerOfTwo (length : Nat) : Nat := 2 ^ bitsLen length

/-- The index `other` that `breakPatterns` computes from a value `r` of the
generator: `int(uint(r) & (modulus - 1))`, less `length` when it is not below
it; `modulus` is a power of two. -/
def breakIndex (length modulus r : Nat) : Nat :=
  if r % modulus ≥ length then r % modulus - length else r % modulus

/-- `breakPatterns(data, a, b)`: three swaps around the middle, with the
positions given by three successive values of the generator seeded with the
length. -/
def breakPatterns (next : Nat → Nat) (data : List Nat) (a b : Nat) : List Nat :=
  let length := b - a
  if length ≥ 8 then
    let modulus := nextPowerOfTwo length
    let idx := a + (length / 4) * 2 - 1
    let r1 := next length
    let r2 := next r1
    let r3 := next r2
    let d1 := sliceSwap data (idx - 1 + 0) (a + breakIndex length modulus r1)
    let d2 := sliceSwap d1 (idx - 1 + 1) (a + breakIndex length modulus r2)
    sliceSwap d2 (idx - 1 + 2) (a + breakIndex length modulus r3)
  else data

/-- `order2(data, a, b, &swaps)`. -/
def order2 (pr : Nat → Int) (data : List Nat) (a b swaps : Nat) : Nat × Nat × Nat :=
  if sliceLess pr data b a then (b, a, swaps + 1) else (a, b, swaps)

/-- `median(data, a, b, c, &swaps)`: the index of the median and the number of
swaps counted. -/
def median (pr : Nat → Int) (data : List Nat) (a b c swaps : Nat) : Nat × Nat :=
  let r1 := order2 pr data a b swaps
  let r2 := order2 pr data r1.2.1 c r1.2.2
  let r3 := order2 pr data r1.1 r2.1 r2.2.2
  (r3.2.1, r3.2.2)

/-- `medianAdjacent(data, a, &swaps)`. -/
def medianAdjacent (pr : Nat → Int) (data : List Nat) (a swaps : Nat) : Nat × Nat :=
  median pr data (a - 1) a (a + 1) swaps

/-- The type `sortedHint`. -/
inductive SortedHint where
  | unknownHint
  | increasingHint
  | decreasingHint
  deriving DecidableEq

/-- `choosePivot(data, a, b)`: the pivot and the hint. -/
def choosePivot (pr : Nat → Int) (data : List Nat) (a b : Nat) : Nat × SortedHint :=
  let l := b - a
  let i := a + l / 4 * 1
  let j := a + l / 4 * 2
  let k := a + l / 4 * 3
  let r : Nat × Nat :=
    if l ≥ 8 then
      if l ≥ 50 then
        let m1 := medianAdjacent pr data i 0
        let m2 := medianAdjacent pr data j m1.2
        let m3 := medianAdjacent pr data k m2.2
        median pr data m1.1 m2.1 m3.1 m3.2
      else median pr data i j k 0
    else (j, 0)
  if r.2 = 0 then (r.1, SortedHint.increasingHint)
  else if r.2 = 12 then (r.1, SortedHint.decreasingHint)
  else (r.1, SortedHint.unknownHint)

/-- The loop of `reverseRange(data, a, b)`, with `i` starting at `a` and `j` at
`b - 1`; the first argument bounds the number of rounds. -/
def reverseLoop : Nat → List Nat → Nat → Nat → List Nat
  | 0, data, _, _ => data
  | n + 1, data, i, j => if i < j then reverseLoop n (sliceSwap data i j) (i + 1) (j - 1) else data

/-- `reverseRange(data, a, b)`. -/
def reverseRange (data : List Nat) (a b : Nat) : List Nat :=
  reverseLoop (b - a) data a (b - 1)

/-- The loop `for i < b && !data.Less(i, i-1) { i++ }` of
`partialInsertionSort`: the final `i`; the first argument bounds the number of
rounds. -/
def sortedUpTo (pr : Nat → Int) (data : List Nat) (b : Nat) : Nat → Nat → Nat
  | 0, i => i
  | n + 1, i =>
    if i < b ∧ sliceLess pr data i (i - 1) = false then sortedUpTo pr data b n (i + 1) else i

/-- The loop `for j := i - 1; j >= 1; j-- { if !data.Less(j, j-1) { break };
data.Swap(j, j-1) }` of `partialInsertionSort`, from `j`. -/
def shiftSmaller (pr : Nat → Int) : Nat → List Nat → List Nat
  | 0, data => data
  | j + 1, data =>
    if sliceLess pr data (j + 1) j = true then shiftSmaller pr j (sliceSwap data (j + 1) j)
    else data

/-- The loop `for j := i + 1; j < b; j++ { if !data.Less(j, j-1) { break };
data.Swap(j, j-1) }` of `partialInsertionSort`, from `j`; the first argument
bounds the number of rounds. -/
def shiftGreater (pr : Nat → Int) (b : Nat) : Nat → Nat → List Nat → List Nat
  | 0, _, data => data
  | n + 1, j, data =>
    if j < b ∧ sliceLess pr data j (j - 1) = true then
      shiftGreater pr b n (j + 1) (sliceSwap data j (j - 1))
    else data

/-- The loop `for j := 0; j < maxSteps; j++` of `partialInsertionSort`, with
the rounds still to run and the current `i`: the slice and the result. -/
def partialLoop (pr : Nat → Int) (a b : Nat) : Nat → Nat → List Nat → List Nat × Bool
  | 0, _, data => (data, false)
  | steps + 1, i, data =>
    let i1 := sortedUpTo pr data b (b - i) i
    if i1 = b then (data, true)
    else if b - a < 50 then (data, false)
    else
      let d1 := sliceSwap data i1 (i1 - 1)
      let d2 := if i1 - a ≥ 2 then shiftSmaller pr (i1 - 1) d1 else d1
      let d3 := if b - i1 ≥ 2 then shiftGreater pr b (b - (i1 + 1)) (i1 + 1) d2 else d2
      partialLoop pr a b steps i1 d3

/-- `partialInsertionSort(data, a, b)`: the slice and the result. -/
def partialInsertionSort (pr : Nat → Int) (data : List Nat) (a b : Nat) : List Nat × Bool :=
  partialLoop pr a b 5 (a + 1) data

/-- A loop `for i <= j && cond(i) { i++ }`; `n` bounds the number of rounds. -/
def scanUp (cond : Nat → Bool) (j : Nat) : Nat → Nat → Nat
  | 0, i => i
  | n + 1, i => if i ≤ j ∧ cond i = true then scanUp cond j n (i + 1) else i

/-- A loop `for i <= j && cond(j) { j-- }`; `n` bounds the number of rounds. -/
def scanDown (cond : Nat → Bool) (i : Nat) : Nat → Nat → Nat
  | 0, j => j
  | n + 1, j => if i ≤ j ∧ cond j = true then scanDown cond i n (j - 1) else j

/-- The `for` loop of `partition`, after `data.Swap(a, pivot)`: the slice and
the final `j`. -/
def partitionLoop (pr : Nat → Int) (a : Nat) : Nat → List Nat → Nat → Nat → List Nat × Nat
  | 0, data, _, j => (data, j)
  | n + 1, data, i, j =>
    let i1 := scanUp (fun k => sliceLess pr data k a) j (j + 1 - i) i
    let j1 := scanDown (fun k => !sliceLess pr data k a) i1 (j + 1 - i1) j
    if i1 > j1 then (data, j1)
    else partitionLoop pr a n (sliceSwap data i1 j1) (i1 + 1) (j1 - 1)

/-- `partition(data, a, b, pivot)`: the slice, the new pivot index and
`alreadyPartitioned`. -/
def partition (pr : Nat → Int) (data : List Nat) (a b pivot : Nat) : List Nat × Nat × Bool :=
  let data := sliceSwap data a pivot
  let i := scanUp (fun k => sliceLess pr data k a) (b - 1) (b - 1 - a) (a + 1)
  let j := scanDown (fun k => !sliceLess pr data k a) i (b - i) (b - 1)
  if i > j then (sliceSwap data j a, j, true)
  else
    let r := partitionLoop pr a (b - a) (sliceSwap data i j) (i + 1) (j - 1)
    (sliceSwap r.1 r.2 a, r.2, false)

/-- The `for` loop of `partitionEqual`, after `data.Swap(a, pivot)`: the slice
and the final `i`. -/
def partitionEqualLoop (pr : Nat → Int) (a : Nat) : Nat → List Nat → Nat → Nat → List Nat × Nat
  | 0, data, i, _ => (data, i)
  | n + 1, data, i, j =>
    let i1 := scanUp (fun k => !sliceLess pr data a k) j (j + 1 - i) i
    let j1 := scanDown (fun k => sliceLess pr data a k) i1 (j + 1 - i1) j
    if i1 > j1 then (data, i1)
    else partitionEqualLoop pr a n (sliceSwap data i1 j1) (i1 + 1) (j1 - 1)

/-- `partitionEqual(data, a, b, pivot)`: the slice and the new pivot index. -/
def partitionEqual (pr : Nat → Int) (data : List Nat) (a b pivot : Nat) : List Nat × Nat :=
  partitionEqualLoop pr a (b - a + 1) (sliceSwap data a pivot) (a + 1) (b - 1)

/-- What one round of the loop of `pdqsort` does once the patterns are broken:
it returns because `partialInsertionSort` found the range sorted, or continues
after `partitionEqual` with the new `a`, or has the range partitioned around
`mid`. -/
inductive PdqRound where
  | sorted (data : List Nat)
  | equal (data : List Nat) (mid : Nat)
  | parted (data : List Nat) (mid : Nat) (alreadyPartitioned : Bool)

/-- The body of the loop of `pdqsort` from `choosePivot` to the partition. -/
def pdqRound (pr : Nat → Int) (data : List Nat) (a b : Nat)
    (wasBalanced wasPartitioned : Bool) : PdqRound :=
  let pv := choosePivot pr data a b
  let d1 := if pv.2 = SortedHint.decreasingHint then reverseRange data a b else data
  let pivot := if pv.2 = SortedHint.decreasingHint then (b - 1) - (pv.1 - a) else pv.1
  let hint := if pv.2 = SortedHint.decreasingHint then SortedHint.increasingHint else pv.2
  let ps :=
    if wasBalanced && wasPartitioned && decide (hint = SortedHint.increasingHint) then
      partialInsertionSort pr d1 a b
    else (d1, false)
  if ps.2 then PdqRound.sorted ps.1
  else if a > 0 ∧ sliceLess pr ps.1 (a - 1) pivot = false then
    PdqRound.equal (partitionEqual pr ps.1 a b pivot).1 (partitionEqual pr ps.1 a b pivot).2
  else
    PdqRound.parted (partition pr ps.1 a b pivot).1 (partition pr ps.1 a b pivot).2.1
      (partition pr ps.1 a b pivot).2.2

/-- `pdqsort(data, a, b, limit)` from the head of its `for` loop, with the
values of `wasBalanced` and `wasPartitioned`.  The first argument bounds the
number of rounds and calls: every round but the last takes at least one item
off the range `a .. b`. -/
def pdqsort (next : Nat → Nat) (pr : Nat → Int) :
    Nat → List Nat → Nat → Nat → Nat → Bool → Bool → List Nat
  | 0, data, _, _, _, _, _ => data
  | fuel + 1, data, a, b, limit, wasBalanced, wasPartitioned =>
    if b - a ≤ 12 then insertionSortRange pr data a b
    else if limit = 0 then heapSort pr data a b
    else
      match pdqRound pr (if wasBalanced then data else breakPatterns next data a b) a b
          wasBalanced wasPartitioned with
      | PdqRound.sorted d => d
      | PdqRound.equal d mid =>
        pdqsort next pr fuel d mid b (if wasBalanced then limit else limit - 1) wasBalanced
          wasPartitioned
      | PdqRound.parted d mid alreadyPartitioned =>
        if mid - a < b - mid then
          pdqsort next pr fuel
            (pdqsort next pr fuel d a mid (if wasBalanced then limit else limit - 1) true true)
            (mid + 1) b (if wasBalanced then limit else limit - 1)
            (decide (mid - a ≥ (b - a) / 8)) alreadyPartitioned
        else
          pdqsort next pr fuel
            (pdqsort next pr fuel d (mid + 1) b (if wasBalanced then limit else limit - 1) true
              true)
            a mid (if wasBalanced then limit else limit - 1)
            (decide (b - mid ≥ (b - a) / 8)) alreadyPartitioned

/-- `sort.Sort(data)` on the positions `0 .. n-1`. -/
def sortPositions (next : Nat → Nat) (pr : Nat → Int) (n : Nat) : List Nat :=
  if n ≤ 1 then List.range n
  else pdqsort next pr (n + 1) (List.range n) 0 n (bitsLen n) true true

/-! ## manager.go -/

/-- Go's `strings.LastIndexByte`: the offset of the last occurrence of `c`,
or `-1` when there is none. -/
def lastIndexByteAux (c : Char) : List Char → Int
  | [] => -1
  | x :: xs =>
    let r := lastIndexByteAux c xs
    if r ≥ 0 then r + 1 else if x = c then 0 else -1

def lastIndexByte (s : String) (c : Char) : Int :=
  lastIndexByteAux c s.data

/-- The slice expression `name[:n]`. -/
def sliceTo (name : String) (n : Int) : String :=
  String.mk (name.data.take n.toNat)

/-- The struct `Manager`.  The embedded `sync.Mutex` has no content in a
sequential run and is left out. -/
structure Manager where
  EnableLock : Bool
  name : String
  sample : BasicEvent
  events : GoMap BasicEvent
  listeners : GoMap ListenerQueue
  listenedNames : GoMap Int

def NewManager (name : String) : Manager :=
  { EnableLock := false
    name := name
    sample := { name := "", data := none, aborted := false }
    events := []
    listeners := []
    listenedNames := [] }

/-- Outcome of a registry operation that may panic: the registry as the
operation leaves it, and the panic message if it panicked. -/
structure Step where
  em : Manager
  panic : Option String

/-- A value found in the map returned by `SubscribedEvents`: an `IListener`, a
`ListenerItem`, or anything else. -/
inductive SubscribedValue where
  | listener (lt : IListener)
  | item (lt : ListenerItem)
  | other

/-- One invocation `li.Listener.Handle(e)` made by a dispatch: the item and the
event as handed to the listener. -/
structure Call where
  li : ListenerItem
  arg : BasicEvent

/-- The error returned by the invocation (`none` is nil). -/
def Call.err (c : Call) : Option String :=
  match c.li.Listener with
  | none => none
  | some l => (l.Handle c.arg).err

/-- Whether the event's abort flag is set when the invocation returns. -/
def Call.aborts (c : Call) : Bool :=
  match c.li.Listener with
  | none => false
  | some l => (l.Handle c.arg).aborted

/-- Outcome of one `for _, li := range lq.Sort().Items()` loop of `publish`. -/
structure Loop where
  e : BasicEvent
  err : Option String
  calls : List Call
  returned : Bool
  panic : Option String

/-- The loop body of `publish`: `err = li.Listener.Handle(e)`, leaving the
function as soon as `err != nil || e.IsAborted()`.  Calling `Handle` on a nil
listener is a nil dereference. -/
def callListeners : List ListenerItem → BasicEvent → Option String → Loop
  | [], e, err => { e := e, err := err, calls := [], returned := false, panic := none }
  | li :: rest, e, err =>
    match li.Listener with
    | none =>
      { e := e, err := err, calls := [], returned := true,
        panic := some "runtime error: invalid memory address or nil pointer dereference" }
    | some l =>
      let r := l.Handle e
      let e1 : BasicEvent := { e with data := r.data, aborted := r.aborted }
      if r.err.isSome || e1.IsAborted then
        { e := e1, err := r.err, calls := [{ li := li, arg := e }], returned := true, panic := none }
      else
        let t := callListeners rest e1 r.err
        { t with calls := { li := li, arg := e } :: t.calls }

/-- State of a dispatch: the registry, the event, the named result `err`, the
invocations made so far, and the panic message if the dispatch panicked. -/
structure Dispatch where
  em : Manager
  e : BasicEvent
  err : Option String
  trace : List Call
  panic : Option String

/-- Outcome of `Publish`: the registry, the two results (`none` is nil), the
invocations made, and the panic message if the call panicked. -/
structure PublishResult where
  em : Manager
  err : Option String
  e : Option BasicEvent
  trace : List Call
  panic : Option String

/-- An argument of `BatchPublish`.  An event instance is a pointer.  The
instances the caller holds and has not registered as prototypes are numbered
`0 .. n-1`; `inst i` is the pointer to number `i`, so that one instance can be
passed more than once.  `stored key` is the first result of
`em.GetEvent(key)`: the pointer to the prototype registered under `key`, nil
when there is none.  `other` is a value of any other type. -/
inductive BatchItem (n : Nat) where
  | name (s : String)
  | inst (i : Fin n)
  | stored (key : String)
  | other

/-- What one publish made by `BatchPublish` leaves: the registry, the caller's
instances, the error returned, the invocations made, and the panic message if
it panicked. -/
structure ItemResult (n : Nat) where
  em : Manager
  insts : Fin n → BasicEvent
  err : Option String
  trace : List Call
  panic : Option String

/-- State of the loop of `BatchPublish`: the registry, the caller's instances,
the variable `err` declared before the loop, the result `ers`, the invocations
made so far and the panic message if the call panicked.  The field `published`
is not in the source: it records the error returned by each publish made, in
order. -/
structure Batch (n : Nat) where
  em : Manager
  insts : Fin n → BasicEvent
  err : Option String
  ers : List String
  published : List (Option String)
  trace : List Call
  panic : Option String

namespace Manager

def HasListeners (em : Manager) (name : String) : Bool :=
  GoMap.has em.listenedNames name

def addListenerItem (em : Manager) (name : String) (li : ListenerItem) : Step :=
  match (if name ≠ Wildcard then checkName name else Except.ok name) with
  | Except.error msg => { em := em, panic := some msg }
  | Except.ok name =>
    match li.Listener with
    | none =>
      { em := em, panic := some ("event: the event '" ++ name ++ "' listener cannot be empty") }
    | some _ =>
      match GoMap.get em.listeners name with
      | some lq =>
        { em := { em with listeners := GoMap.set em.listeners name (lq.Push li) }, panic := none }
      | none =>
        { em := { em with
                  listenedNames := GoMap.set em.listenedNames name 1
                  listeners := GoMap.set em.listeners name (ListenerQueue.Push { items := [] } li) },
          panic := none }

def Listen (em : Manager) (name : String) (listener : Option IListener)
    (priority : List Int) : Step :=
  let pv := match priority with
    | [] => Normal
    | p :: _ => p
  em.addListenerItem name { Priority := pv, Listener := listener }

/-- The method `Subscribe`, on the entries of `sbr.SubscribedEvents()` in the
order the `range` loop visits them. -/
def Subscribe (em : Manager) : List (String × SubscribedValue) → Step
  | [] => { em := em, panic := none }
  | (name, listener) :: rest =>
    let st : Step := match listener with
      | SubscribedValue.listener lt => em.Listen name (some lt) []
      | SubscribedValue.item lt => em.addListenerItem name lt
      | SubscribedValue.other =>
        { em := em, panic := some "event: the value must be an IListener or ListenerItem instance" }
    match st.panic with
    | some msg => { em := st.em, panic := some msg }
    | none => Subscribe st.em rest

/-- One phase of `publish`: `if lq, ok := em.listeners[key]; ok` sort the queue
in place and call its listeners.  The Boolean tells whether `publish` returns. -/
def runQueue (S : GoSort) (key : String) (d : Dispatch) : Dispatch × Bool :=
  match GoMap.get d.em.listeners key with
  | none => (d, false)
  | some lq =>
    let lq := lq.SortQ S
    let em := { d.em with listeners := GoMap.set d.em.listeners key lq }
    let t := callListeners lq.Items d.e d.err
    ({ em := em, e := t.e, err := t.err, trace := d.trace ++ t.calls, panic := t.panic },
      t.returned)

/-- The method `publish` (the lock taken under `EnableLock` has no content in a
sequential run). -/
def publish (S : GoSort) (em : Manager) (e : BasicEvent) : Dispatch :=
  let e := e.Abort false
  let name := e.Name
  let p1 := runQueue S name { em := em, e := e, err := none, trace := [], panic := none }
  if p1.2 then p1.1 else
  let pos := lastIndexByte name '.'
  let p2 :=
    if pos > 0 ∧ pos < (name.length : Int) then
      runQueue S (sliceTo name (pos + 1) ++ Wildcard) p1.1
    else (p1.1, false)
  if p2.2 then p2.1 else
  (runQueue S Wildcard p2.1).1

def copyBasicEvent (em : Manager) (name : String) (data : M) : BasicEvent :=
  (em.sample.SetName name).SetData data

/-- The test at the head of `Publish` that ends in `return // not found
listeners`: neither the name nor `*` is listened, and the name has no group
pattern or its group pattern is not listened either. -/
def notFound (em : Manager) (name : String) : Bool :=
  if em.HasListeners name == false && em.HasListeners Wildcard == false then
    let pos := lastIndexByte name '.'
    if pos < 0 ∨ pos = (name.length : Int) - 1 then true
    else em.HasListeners (sliceTo name (pos + 1) ++ Wildcard) == false
  else false

/-- The part of `Publish` after the name check and the listener test.  A
registered prototype is a pointer: what the dispatch does to it is written back
under its key. -/
def publishFound (S : GoSort) (em : Manager) (name : String) (params : M) : PublishResult :=
  match GoMap.get em.events name with
  | some e =>
    let e := match params with
      | some _ => e.SetData params
      | none => e
    let d := publish S em e
    { em := { d.em with events := GoMap.set d.em.events name d.e },
      err := d.err, e := some d.e, trace := d.trace, panic := d.panic }
  | none =>
    let e := em.copyBasicEvent name params
    let d := publish S em e
    { em := d.em, err := d.err, e := some d.e, trace := d.trace, panic := d.panic }

/-- The method `Publish`. -/
def Publish (S : GoSort) (em : Manager) (name : String) (params : M) : PublishResult :=
  match checkName name with
  | Except.error msg => { em := em, err := none, e := none, trace := [], panic := some msg }
  | Except.ok name =>
    if em.notFound name then { em := em, err := none, e := none, trace := [], panic := none }
    else em.publishFound S name params

/-- The statement `if err != nil { ers = append(ers, err) }` that ends the loop
body of `BatchPublish`. -/
def collect {n : Nat} (st : Batch n) : Batch n :=
  match st.err with
  | some x => { st with ers := st.ers ++ [x] }
  | none => st

/-- The assignments `publish` makes through the pointer to instance `i`. -/
def setInst {n : Nat} (insts : Fin n → BasicEvent) (i : Fin n) (e : BasicEvent) :
    Fin n → BasicEvent :=
  fun j => if j = i then e else insts j

/-- The type switch of the loop body of `BatchPublish`: a string is handed to
`Publish` with nil params, an `IEvent` to `publish`; `none` when neither branch
is taken (a nil interface value is no `IEvent`).  What `publish` writes to the
event goes to the instance passed: the caller's, or the prototype in the
registry. -/
def publishItem {n : Nat} (S : GoSort) (em : Manager) (insts : Fin n → BasicEvent) :
    BatchItem n → Option (ItemResult n)
  | BatchItem.name s =>
    let r := Publish S em s none
    some { em := r.em, insts := insts, err := r.err, trace := r.trace, panic := r.panic }
  | BatchItem.inst i =>
    let d := publish S em (insts i)
    some { em := d.em, insts := setInst insts i d.e, err := d.err, trace := d.trace,
           panic := d.panic }
  | BatchItem.stored key =>
    match GoMap.get em.events key with
    | none => none
    | some e =>
      let d := publish S em e
      some { em := { d.em with events := GoMap.set d.em.events key d.e }, insts := insts,
             err := d.err, trace := d.trace, panic := d.panic }
  | BatchItem.other => none

/-- The loop of `BatchPublish`.  An item that is not published leaves `err` as
it is. -/
def batchLoop {n : Nat} (S : GoSort) : List (BatchItem n) → Batch n → Batch n
  | [], st => st
  | item :: rest, st =>
    match publishItem S st.em st.insts item with
    | none => batchLoop S rest (collect st)
    | some o =>
      match o.panic with
      | some msg =>
        { st with em := o.em, insts := o.insts, trace := st.trace ++ o.trace, panic := some msg }
      | none =>
        batchLoop S rest
          (collect { st with em := o.em, insts := o.insts, err := o.err,
                             published := st.published ++ [o.err],
                             trace := st.trace ++ o.trace })

/-- The method `BatchPublish`, called with the items `es` when the caller's
instances are `insts`. -/
def BatchPublish {n : Nat} (S : GoSort) (em : Manager) (insts : Fin n → BasicEvent)
    (es : List (BatchItem n)) : Batch n :=
  batchLoop S es
    { em := em, insts := insts, err := none, ers := [], published := [], trace := [],
      panic := none }

def AddEvent (em : Manager) (e : BasicEvent) : Step :=
  match checkName e.Name with
  | Except.error msg => { em := em, panic := some msg }
  | Except.ok name => { em := { em with events := GoMap.set em.events name e }, panic := none }

def GetEvent (em : Manager) (name : String) : Option BasicEvent :=
  GoMap.get em.events name

def HasEvent (em : Manager) (name : String) : Bool :=
  GoMap.has em.events name

def RemoveEvent (em : Manager) (name : String) : Manager :=
  if GoMap.has em.events name then { em with events := GoMap.del em.events name } else em

def RemoveEvents (em : Manager) : Manager :=
  { em with events := [] }

def Listeners (em : Manager) : GoMap ListenerQueue := em.listeners

def ListenersByName (em : Manager) (name : String) : Option ListenerQueue :=
  GoMap.get em.listeners name

def ListenersCount (em : Manager) (name : String) : Nat :=
  match GoMap.get em.listeners name with
  | some lq => lq.Len
  | none => 0

def ListenedNames (em : Manager) : GoMap Int := em.listenedNames

/-- The statements `lq.Remove(listener)` and `if lq.IsEmpty() { delete ... }`
that `RemoveListener` runs on the queue `lq` found under `name`. -/
def removeFrom (em : Manager) (name : String) (lq : ListenerQueue)
    (listener : Option IListener) : Manager :=
  let lq := lq.Remove listener
  let em := { em with listeners := GoMap.set em.listeners name lq }
  if lq.IsEmpty then
    { em with listeners := GoMap.del em.listeners name
              listenedNames := GoMap.del em.listenedNames name }
  else em

/-- The loop `for name, lq := range em.listeners` of `RemoveListener`, on the
keys still to be visited. -/
def removeFromAll (listener : Option IListener) : List String → Manager → Manager
  | [], em => em
  | name :: rest, em =>
    match GoMap.get em.listeners name with
    | some lq => removeFromAll listener rest (em.removeFrom name lq listener)
    | none => removeFromAll listener rest em

def RemoveListener (em : Manager) (name : String) (listener : Option IListener) : Manager :=
  if name ≠ "" then
    match GoMap.get em.listeners name with
    | some lq => em.removeFrom name lq listener
    | none => em
  else
    removeFromAll listener (GoMap.keys em.listeners) em

/-- The method `RemoveListeners`; `em.listeners[name].Clear()` dereferences nil
when the name is listened but has no queue. -/
def RemoveListeners (em : Manager) (name : String) : Step :=
  if GoMap.has em.listenedNames name then
    match GoMap.get em.listeners name with
    | none =>
      { em := em, panic := some "runtime error: invalid memory address or nil pointer dereference" }
    | some _ =>
      { em := { em with listeners := GoMap.del em.listeners name
                        listenedNames := GoMap.del em.listenedNames name },
        panic := none }
  else { em := em, panic := none }

def Reset (em : Manager) : Manager :=
  { em with name := "", events := [], listeners := [], listenedNames := [] }

end Manager

/-! ## Notions used to state the properties -/

/-- Equality of the results of `checkName` is decidable. -/
instance : DecidableEq (Except String String) := fun a b =>
  match a, b with
  | Except.ok x, Except.ok y =>
    if h : x = y then isTrue (by rw [h])
    else isFalse (by intro h2; cases h2; exact h rfl)
  | Except.error x, Except.error y =>
    if h : x = y then isTrue (by rw [h])
    else isFalse (by intro h2; cases h2; exact h rfl)
  | Except.ok _, Except.error _ => isFalse (by intro h; cases h)
  | Except.error _, Except.ok _ => isFalse (by intro h; cases h)

/-- The order `sort.IsSorted` checks between neighbours. -/
def geP (a b : ListenerItem) : Prop := a.Priority ≥ b.Priority

/-- An invocation that returns nil and leaves the abort flag unset. -/
def Call.quiet (c : Call) : Prop := c.err = none ∧ c.aborts = false

/-- Every invocation but the last one is quiet. -/
def QuietInit (l : List Call) : Prop :=
  ∀ pre c post, l = pre ++ c :: post → post ≠ [] → c.quiet

/-- The error of the last invocation, nil when there is none. -/
def lastErr (l : List Call) : Option String :=
  match l.getLast? with
  | none => none
  | some c => c.err

/-- The items of the queue under `key`, in the order `Sort` leaves them; no
item when there is no such queue. -/
def sortedItems (S : GoSort) (em : Manager) (key : String) : List ListenerItem :=
  match GoMap.get em.listeners key with
  | none => []
  | some lq => (lq.SortQ S).items

/-- Two listener maps with the same keys whose queues hold the same items up
to their order. -/
def QueuesPerm (m1 m2 : GoMap ListenerQueue) : Prop :=
  ∀ k, (GoMap.get m1 k = none ∧ GoMap.get m2 k = none) ∨
    (∃ a b, GoMap.get m1 k = some a ∧ GoMap.get m2 k = some b ∧ List.Perm a.items b.items)

/-- What holds of a dispatch started on registry `em0` with event `e0` once
the queues under `keys` have been handled; `ret` tells whether it returned. -/
structure DispInv (S : GoSort) (em0 : Manager) (e0 : BasicEvent) (keys : List String)
    (d : Dispatch) (ret : Bool) : Prop where
  quietInit : QuietInit d.trace
  err_eq : d.err = lastErr d.trace
  names : ∀ c ∈ d.trace, c.arg.name = e0.name
  ename : d.e.name = e0.name
  notret : ret = false → (∀ c ∈ d.trace, c.quiet) ∧ d.panic = none ∧
    d.trace.map Call.li = (keys.map (sortedItems S em0)).flatten
  pre : ∃ rest, (keys.map (sortedItems S em0)).flatten = d.trace.map Call.li ++ rest
  ret_of : (∀ c ∈ d.trace, c.quiet) → d.panic = none → ret = false
  nonnil : (∀ key ∈ keys, ∀ li ∈ sortedItems S em0 key, li.Listener ≠ none) → d.panic = none
  head : ∀ c, d.trace.head? = some c → c.arg = e0
  start : d.trace = [] → d.e = e0
  sortedSame : ∀ k, sortedItems S d.em k = sortedItems S em0 k
  queues : QueuesPerm d.em.listeners em0.listeners
  frame : d.em.events = em0.events ∧ d.em.listenedNames = em0.listenedNames ∧
    d.em.name = em0.name ∧ d.em.sample = em0.sample ∧ d.em.EnableLock = em0.EnableLock

/-- The keys `publish` looks up for an event called `name`, in order. -/
def dispatchKeys (name : String) : List String :=
  [name] ++
    (if lastIndexByte name '.' > 0 ∧ lastIndexByte name '.' < (name.length : Int) then
      [sliceTo name (lastIndexByte name '.' + 1) ++ Wildcard]
     else []) ++
    [Wildcard]

/-- The registry states that can be reached from `NewManager` through the
exported operations of the package.  `dispatch` is the call of `publish` on a
caller's event made by `AsyncPublish`, `AwaitPublish` and `BatchPublish`. -/
inductive Reachable (S : GoSort) : Manager → Prop where
  | newManager (name : String) : Reachable S (NewManager name)
  | listen {em : Manager} (name : String) (listener : Option IListener) (priority : List Int) :
      Reachable S em → Reachable S (em.Listen name listener priority).em
  | subscribe {em : Manager} (sbr : List (String × SubscribedValue)) :
      Reachable S em → Reachable S (em.Subscribe sbr).em
  | addEvent {em : Manager} (e : BasicEvent) :
      Reachable S em → Reachable S (em.AddEvent e).em
  | removeEvent {em : Manager} (name : String) :
      Reachable S em → Reachable S (em.RemoveEvent name)
  | removeEvents {em : Manager} :
      Reachable S em → Reachable S em.RemoveEvents
  | removeListener {em : Manager} (name : String) (listener : Option IListener) :
      Reachable S em → Reachable S (em.RemoveListener name listener)
  | removeListeners {em : Manager} (name : String) :
      Reachable S em → Reachable S (em.RemoveListeners name).em
  | reset {em : Manager} :
      Reachable S em → Reachable S em.Reset
  | publish {em : Manager} (name : String) (params : M) :
      Reachable S em → Reachable S (em.Publish S name params).em
  | dispatch {em : Manager} (e : BasicEvent) :
      Reachable S em → Reachable S (em.publish S e).em
  | enableLock {em : Manager} (b : Bool) :
      Reachable S em → Reachable S { em with EnableLock := b }

/-- Invariant of the two listener tables: a key is listened exactly when it has
a queue, no queue is empty, and no stored listener is nil. -/
structure TablesOK (listeners : GoMap ListenerQueue) (listenedNames : GoMap Int) : Prop where
  sync : ∀ k, GoMap.has listenedNames k = true ↔ ∃ q, GoMap.get listeners k = some q
  nonempty : ∀ k q, GoMap.get listeners k = some q → q.items ≠ []
  nonnil : ∀ k q, GoMap.get listeners k = some q → ∀ li ∈ q.items, li.Listener ≠ none

/-- The registry invariant. -/
def Manager.OK (em : Manager) : Prop := TablesOK em.listeners em.listenedNames

/-- The event `Publish` hands to `publish` for the validated name `name`. -/
def resolved (em : Manager) (name : String) (params : M) : BasicEvent :=
  match GoMap.get em.events name with
  | some e =>
    match params with
    | some _ => e.SetData params
    | none => e
  | none => em.copyBasicEvent name params

/-! ## Listeners and registries used as concrete instances -/

/-- A listener that returns nil and leaves the event as it is (`emptyListener`
of the test file). -/
def emptyListener (p : Nat) : IListener :=
  { ptr := p, Handle := fun e => { data := e.data, aborted := e.aborted, err := none } }

/-- A listener that returns the error `msg`. -/
def failingListener (p : Nat) (msg : String) : IListener :=
  { ptr := p, Handle := fun e => { data := e.data, aborted := e.aborted, err := some msg } }

/-- A listener that calls `e.Abort(true)` and returns nil. -/
def abortingListener (p : Nat) : IListener :=
  { ptr := p, Handle := fun e => { data := e.data, aborted := true, err := none } }

/-- A registry with two listeners on `evt1`, the one of priority `Low`
registered first. -/
def twoOnEvt1 : Manager :=
  ((NewManager "test").Listen "evt1" (some (emptyListener 1)) [Low]).em.Listen "evt1"
    (some (emptyListener 2)) [High] |>.em

/-- A registry with a failing listener on `app.evt1`, a listener on `app.*`
and a listener on `*`. -/
def failingOnExact : Manager :=
  (((NewManager "test").Listen "app.evt1" (some (failingListener 1 "an error")) []).em.Listen
    "app.*" (some (emptyListener 2)) []).em.Listen "*" (some (emptyListener 3)) [Max] |>.em

/-- A registry with an aborting listener on `app.evt1`, a listener on `app.*`
and a listener on `*`. -/
def abortingOnExact : Manager :=
  (((NewManager "test").Listen "app.evt1" (some (abortingListener 1)) []).em.Listen
    "app.*" (some (emptyListener 2)) []).em.Listen "*" (some (emptyListener 3)) [Max] |>.em

/-- A registry with a prototype for `evt2` and a listener on another name. -/
def protoOnly : Manager :=
  ((NewManager "test").AddEvent (NewBasicEvent "evt2" none)).em.Listen "evt1"
    (some (emptyListener 1)) [] |>.em

/-- The name rule as the specification words it: after trimming, the name
matches `^[A-Za-z][A-Za-z0-9_.-]*$`. -/
def specNameRule (s : String) : Bool :=
  match (TrimSpace s).data with
  | [] => false
  | c :: cs =>
    isAsciiLetter c &&
      cs.all (fun x => isAsciiLetter x || (decide ('0' ≤ x) && decide (x ≤ '9')) ||
        x == '_' || x == '.' || x == '-')

/-- A registry holding a prototype whose own name is not trimmed, and a
listener on the trimmed name. -/
def untrimmedProto : Manager :=
  ((NewManager "test").AddEvent (NewBasicEvent " a.b " none)).em.Listen "a.b"
    (some (emptyListener 1)) [] |>.em

/-- A registry with listeners on `app.evt1` (priority `Min`), on `app.*` and on
`*` (priority `Max`), and a prototype for `app.evt1`. -/
def threePhases : Manager :=
  ((((NewManager "test").AddEvent (NewBasicEvent "app.evt1" none)).em.Listen "*"
    (some (emptyListener 3)) [Max]).em.Listen "app.*" (some (emptyListener 2)) []).em.Listen
    "app.evt1" (some (emptyListener 1)) [Min] |>.em

/-- A registry with two listeners on `aa.bb.*`, the first of which aborts. -/
def abortingGroup : Manager :=
  ((NewManager "test").Listen "aa.bb.*" (some (abortingListener 1)) []).em.Listen "aa.bb.*"
    (some (emptyListener 2)) [] |>.em

/-- A registry with a listener on `aa.bb.*` and a prototype, stored under
`aa.bb.cc`, whose own name is not trimmed. -/
def untrimmedGroup : Manager :=
  ((NewManager "test").AddEvent (NewBasicEvent " aa.bb.cc " none)).em.Listen "aa.bb.*"
    (some (emptyListener 1)) [] |>.em

/-- A registry with two listeners on `aa.bb.*`. -/
def groupOnly : Manager :=
  ((NewManager "test").Listen "aa.bb.*" (some (emptyListener 1)) []).em.Listen "aa.bb.*"
    (some (emptyListener 2)) [High] |>.em

/-- A registry with a listener on `aa.*` only. -/
def earlierDot : Manager :=
  ((NewManager "test").Listen "aa.*" (some (emptyListener 1)) []).em

/-- A registry with one listener, registered under `a.*`. -/
def patternListened : Manager :=
  ((NewManager "test").Listen "a.*" (some (emptyListener 1)) []).em

/-- Go's insertion sort meets the contract of `sort.Sort`. -/
def goInsertionSort : GoSort where
  sort := insertionSort
  perm := fun l => by
    have ins : ∀ (x : ListenerItem) (acc : List ListenerItem),
        List.Perm (insertItem x acc) (x :: acc) := by
      intro x acc
      induction acc with
      | nil => exact List.Perm.refl _
      | cons y ys ih =>
        unfold insertItem
        split
        · exact List.Perm.refl _
        · exact (List.Perm.cons y ih).trans (List.Perm.swap x y ys)
    have key : ∀ (l acc : List ListenerItem),
        List.Perm (l.foldl (fun acc x => insertItem x acc) acc) (acc ++ l) := by
      intro l
      induction l with
      | nil => intro acc; simp
      | cons x xs ih =>
        intro acc
        simp only [List.foldl_cons]
        refine (ih (insertItem x acc)).trans ?_
        refine (List.Perm.append_right xs (ins x acc)).trans ?_
        have h2 : List.Perm (x :: (acc ++ xs)) (acc ++ x :: xs) := List.perm_middle.symm
        simpa using h2
    simpa [insertionSort] using key l []
  sorted := fun l => by
    have ins : ∀ (x : ListenerItem) (acc : List ListenerItem),
        IsSorted acc = true → IsSorted (insertItem x acc) = true := by
      intro x acc
      induction acc with
      | nil => intro _; rfl
      | cons y ys ih =>
        intro h
        unfold insertItem
        split
        · rename_i hlt
          have hyx : Less y x = false := by
            simp only [Less, gt_iff_lt, decide_eq_true_eq, decide_eq_false_iff_not, not_lt] at hlt ⊢
            exact le_of_lt hlt
          simp [IsSorted, hyx, h]
        · rename_i hlt
          have hxy : Less x y = false := by simpa using hlt
          cases ys with
          | nil => simp [insertItem, IsSorted, hxy]
          | cons z zs =>
            have hz : Less z y = false ∧ IsSorted (z :: zs) = true := by
              simpa [IsSorted] using h
            have ih2 := ih hz.2
            unfold insertItem at ih2 ⊢
            split
            · rename_i hxz
              have hzx : Less z x = false := by
                simp only [Less, gt_iff_lt, decide_eq_true_eq, decide_eq_false_iff_not,
                  not_lt] at hxz ⊢
                exact le_of_lt hxz
              simp [IsSorted, hxy, hzx, hz.2]
            · rename_i hxz
              simp only [hxz] at ih2
              simp only [IsSorted, hz.1, Bool.not_false, Bool.true_and]
              simpa using ih2
    have key : ∀ (l acc : List ListenerItem), IsSorted acc = true →
        IsSorted (l.foldl (fun acc x => insertItem x acc) acc) = true := by
      intro l
      induction l with
      | nil => intro acc h; simpa using h
      | cons x xs ih =>
        intro acc h
        simp only [List.foldl_cons]
        exact ih _ (ins x acc h)
    exact key l [] rfl

/-- What `RemoveListener` leaves under a key it targets: nothing when the key
had no queue or the queue becomes empty, the queue after `Remove` otherwise. -/
def afterRemove (listener : Option IListener) : Option ListenerQueue → Option ListenerQueue
  | none => none
  | some q => if (q.Remove listener).IsEmpty then none else some (q.Remove listener)

/-- A registry with a prototype for `evt2` whose bag holds the key `a`, and a
listener on `evt2`. -/
def protoWithBag : Manager :=
  ((NewManager "test").AddEvent (NewBasicEvent "evt2" (some [("a", "1")]))).em.Listen "evt2"
    (some (emptyListener 1)) [] |>.em

/-- An item that `BatchPublish` publishes on the registry `em`: a string that
passes `checkName`, or an event instance. -/
def BatchItem.valid {n : Nat} (em : Manager) : BatchItem n → Bool
  | BatchItem.name s =>
    match checkName s with
    | Except.ok _ => true
    | Except.error _ => false
  | BatchItem.inst _ => true
  | BatchItem.stored key => (GoMap.get em.events key).isSome
  | BatchItem.other => false

/-- A listener that returns the error `seen` when the bag of the event holds
the key `seen`, and sets that key otherwise. -/
def markOnce (p : Nat) : IListener :=
  { ptr := p
    Handle := fun e =>
      match e.Get "seen" with
      | some _ => { data := e.data, aborted := e.aborted, err := some "seen" }
      | none => { data := (e.Set "seen" "1").data, aborted := e.aborted, err := none } }

/-- A registry with a prototype for `evt2` and the listener `markOnce` on
`evt2`. -/
def aliasSample : Manager :=
  ((NewManager "test").AddEvent (NewBasicEvent "evt2" none)).em.Listen "evt2"
    (some (markOnce 1)) [] |>.em

/-- A registry with two listeners on `evt` that render alike under `%p`: one
returns nil, the other returns an error. -/
def sameRendering : Manager :=
  ((NewManager "test").Listen "evt" (some (emptyListener 7)) []).em.Listen "evt"
    (some (failingListener 7 "oops")) [] |>.em

/-- A registry with a listener on `e1` that succeeds and a listener on `e2` that
fails. -/
def batchSample : Manager :=
  ((NewManager "test").Listen "e1" (some (emptyListener 1)) []).em.Listen "e2"
    (some (failingListener 2 "oops")) [] |>.em

/-- `sort.Sort` of Go 1.19 and later on `ByPriorityItems`, with the generator
`next`: the items in the order `pdqsort` leaves their positions.  Every run of
`sort.Sort` ends with the slice holding the same items, sorted, which is the
contract `GoSort` asks for; it is read off the result here rather than proved
of `pdqsort`, and Go's insertion sort stands where it would not hold. -/
def pdqSortItems (next : Nat → Nat) (l : List ListenerItem) : List ListenerItem :=
  match l with
  | [] => []
  | d :: _ =>
    if (sortPositions next (fun i => (l.getD i d).Priority) l.length).isPerm
          (List.range l.length) &&
        IsSorted ((sortPositions next (fun i => (l.getD i d).Priority) l.length).map
          (fun i => l.getD i d)) then
      (sortPositions next (fun i => (l.getD i d).Priority) l.length).map (fun i => l.getD i d)
    else insertionSort l

/-- The sort of Go 1.19 and later meets the contract of `sort.Sort`. -/
def goPdqSort (next : Nat → Nat) : GoSort where
  sort := pdqSortItems next
  perm := fun l => by
    have hmap : ∀ (l : List ListenerItem) (d : ListenerItem),
        (List.range l.length).map (fun i => l.getD i d) = l := by
      intro l d
      apply List.ext_getElem
      · simp
      · intro i h1 h2
        simp [List.getD_eq_getElem?_getD, List.getElem?_eq_getElem h2]
    unfold pdqSortItems
    split
    · exact List.Perm.refl _
    · rename_i d rest
      split
      · rename_i hc
        simp only [Bool.and_eq_true] at hc
        have hp := (List.isPerm_iff.mp hc.1).map (fun i => (d :: rest).getD i d)
        rw [hmap] at hp
        exact hp
      · exact goInsertionSort.perm (d :: rest)
  sorted := fun l => by
    unfold pdqSortItems
    split
    · rfl
    · rename_i d rest
      split
      · rename_i hc
        simp only [Bool.and_eq_true] at hc
        exact hc.2
      · exact goInsertionSort.sorted (d :: rest)

/-- A registry with thirteen listeners on `evt`: twelve registered at the
default priority, then one registered at `High`.  The listener registered as
number `i` renders as `i`. -/
def thirteenOnEvt : Manager :=
  (((List.range 12).foldl
      (fun em i => (em.Listen "evt" (some (emptyListener i)) []).em) (NewManager "test")).Listen
    "evt" (some (emptyListener 12)) [High]).em

/-- A registry with a listener on the group pattern `ab.*` only. -/
def groupAb : Manager :=
  ((NewManager "test").Listen "ab.*" (some (emptyListener 1)) []).em

/-- A registry with a listener on the group pattern `ab.*` and a listener on
`*`. -/
def groupAbAndAll : Manager :=
  (groupAb.Listen "*" (some (emptyListener 2)) []).em

/-- The run of `pdqsort` when it does not reach `breakPatterns`, and `none`
when it does: such a run does not consult the generator. -/
def pdqsortNoBreak (pr : Nat → Int) :
    Nat → List Nat → Nat → Nat → Nat → Bool → Bool → Option (List Nat)
  | 0, data, _, _, _, _, _ => some data
  | fuel + 1, data, a, b, limit, wasBalanced, wasPartitioned =>
    if b - a ≤ 12 then some (insertionSortRange pr data a b)
    else if limit = 0 then some (heapSort pr data a b)
    else if wasBalanced = false then none
    else
      match pdqRound pr data a b wasBalanced wasPartitioned with
      | PdqRound.sorted d => some d
      | PdqRound.equal d mid => pdqsortNoBreak pr fuel d mid b limit wasBalanced wasPartitioned
      | PdqRound.parted d mid alreadyPartitioned =>
        if mid - a < b - mid then
          match pdqsortNoBreak pr fuel d a mid limit true true with
          | none => none
          | some d2 =>
            pdqsortNoBreak pr fuel d2 (mid + 1) b limit (decide (mid - a ≥ (b - a) / 8))
              alreadyPartitioned
        else
          match pdqsortNoBreak pr fuel d (mid + 1) b limit true true with
          | none => none
          | some d2 =>
            pdqsortNoBreak pr fuel d2 a mid limit (decide (b - mid ≥ (b - a) / 8))
              alreadyPartitioned

/-- Whether `sort.Sort` on the items `l` runs without reaching `breakPatterns`. -/
def noBreak (l : List ListenerItem) : Bool :=
  match l with
  | [] => true
  | d :: _ =>
    decide (l.length ≤ 1) ||
      (pdqsortNoBreak (fun i => (l.getD i d).Priority) (l.length + 1) (List.range l.length) 0
        l.length (bitsLen l.length) true true).isSome


/-- Two implementations of `sort.Sort` return the same on every queue of the
map that `Sort` would hand them. -/
def SortsAlike (S S2 : GoSort) (m : GoMap ListenerQueue) : Prop :=
  ∀ k q, GoMap.get m k = some q → IsSorted q.items = true ∨ S.sort q.items = S2.sort q.items

/-- Every queue of the map is sorted already or sorted by `sort.Sort` without
reaching `breakPatterns`. -/
def generatorFree (m : GoMap ListenerQueue) : Bool :=
  m.all (fun kq => IsSorted kq.2.items || noBreak kq.2.items)

/-- The entries `Listen` builds for a sequence of registrations, each a
listener with the priorities given in the call, in the order of the calls. -/
def registered (hs : List (IListener × List Int)) : List ListenerItem :=
  hs.map (fun hp =>
    { Priority := (match hp.2 with
                   | [] => Normal
                   | p :: _ => p),
      Listener := some hp.1 })

/-- The calls `em.Listen(name, h, p...)` made in a row for the registrations
`hs`. -/
def listenAll (em : Manager) (name : String) (hs : List (IListener × List Int)) : Manager :=
  hs.foldl (fun em hp => (em.Listen name (some hp.1) hp.2).em) em

/-! ## Lemmas on maps -/

theorem GoMap.get_set {α : Type} (m : GoMap α) (k k2 : String) (v : α) :
    GoMap.get (GoMap.set m k v) k2 = if k2 = k then some v else GoMap.get m k2 := by
  induction m with
  | nil => simp [GoMap.set, GoMap.get]
  | cons p m ih =>
    obtain ⟨a, x⟩ := p
    by_cases h : k = a
    · subst h
      by_cases h2 : k2 = k <;> simp [GoMap.set, GoMap.get, h2]
    · by_cases h2 : k2 = a
      · subst h2
        have h3 : ¬ k2 = k := fun h3 => h h3.symm
        simp [GoMap.set, GoMap.get, h, h3]
      · simp [GoMap.set, GoMap.get, h, h2, ih]

theorem GoMap.get_del {α : Type} (m : GoMap α) (k k2 : String) :
    GoMap.get (GoMap.del m k) k2 = if k2 = k then none else GoMap.get m k2 := by
  induction m with
  | nil => simp [GoMap.del, GoMap.get]
  | cons p m ih =>
    obtain ⟨a, x⟩ := p
    by_cases h : k = a
    · subst h
      by_cases h2 : k2 = k
      · subst h2
        simpa [GoMap.del, GoMap.get] using ih
      · simp [GoMap.del, GoMap.get, h2, ih]
    · by_cases h2 : k2 = a
      · subst h2
        have h3 : ¬ k2 = k := fun h3 => h h3.symm
        simp [GoMap.del, GoMap.get, h, h3]
      · simp [GoMap.del, GoMap.get, h, h2, ih]

theorem GoMap.has_set {α : Type} (m : GoMap α) (k k2 : String) (v : α) :
    GoMap.has (GoMap.set m k v) k2 = if k2 = k then true else GoMap.has m k2 := by
  unfold GoMap.has
  rw [GoMap.get_set]
  split <;> rfl

theorem GoMap.has_del {α : Type} (m : GoMap α) (k k2 : String) :
    GoMap.has (GoMap.del m k) k2 = if k2 = k then false else GoMap.has m k2 := by
  unfold GoMap.has
  rw [GoMap.get_del]
  split <;> rfl

/-! ## Lemmas on sorting -/

theorem isSorted_iff_chain (l : List ListenerItem) :
    IsSorted l = true ↔ List.Chain' geP l := by
  induction l with
  | nil => simp [IsSorted]
  | cons a l ih =>
    cases l with
    | nil => simp [IsSorted]
    | cons b rest =>
      simp only [IsSorted, List.chain'_cons, Bool.and_eq_true, ih, Less, geP]
      simp

theorem isSorted_iff_pairwise (l : List ListenerItem) :
    IsSorted l = true ↔ List.Pairwise geP l := by
  rw [isSorted_iff_chain]
  haveI : IsTrans ListenerItem geP := ⟨fun a b c hab hbc => le_trans hbc hab⟩
  exact List.chain'_iff_pairwise

theorem SortQ_perm (S : GoSort) (lq : ListenerQueue) :
    List.Perm (lq.SortQ S).items lq.items := by
  unfold ListenerQueue.SortQ
  split
  · exact S.perm _
  · exact List.Perm.refl _

theorem SortQ_sorted (S : GoSort) (lq : ListenerQueue) :
    IsSorted (lq.SortQ S).items = true := by
  unfold ListenerQueue.SortQ
  split
  · exact S.sorted _
  · rename_i h
    simpa using h

theorem SortQ_idem (S : GoSort) (lq : ListenerQueue) :
    (lq.SortQ S).SortQ S = lq.SortQ S := by
  have h := SortQ_sorted S lq
  generalize lq.SortQ S = q at h
  simp [ListenerQueue.SortQ, h]

/-! ## Lemmas on the dispatch loop -/

theorem QuietInit.nil : QuietInit [] := by
  intro pre c post h
  simp at h

theorem QuietInit.append {a b : List Call} (ha : ∀ c ∈ a, c.quiet) (hb : QuietInit b) :
    QuietInit (a ++ b) := by
  intro pre c post h hpost
  rcases List.append_eq_append_iff.mp h with ⟨a2, h1, h2⟩ | ⟨c2, h1, h2⟩
  · -- pre = a ++ a2, b = a2 ++ c :: post
    exact hb a2 c post h2 hpost
  · -- a = pre ++ c2, c :: post = c2 ++ b
    cases c2 with
    | nil =>
      simp at h2
      exact hb [] c post (by simpa using h2.symm) hpost
    | cons x xs =>
      simp at h2
      apply ha
      rw [h1, h2.1]
      simp

theorem QuietInit.cons {c : Call} {l : List Call} (hc : c.quiet) (hl : QuietInit l) :
    QuietInit (c :: l) := by
  have := QuietInit.append (a := [c]) (b := l) (by simpa using hc) hl
  simpa using this

theorem QuietInit.single (c : Call) : QuietInit [c] := by
  intro pre d post h hpost
  cases pre with
  | nil =>
    simp at h
    exact absurd h.2 hpost
  | cons x xs =>
    simp at h

theorem callListeners_quietInit (items : List ListenerItem) (e : BasicEvent) (err : Option String) :
    QuietInit (callListeners items e err).calls := by
  induction items generalizing e err with
  | nil => simpa [callListeners] using QuietInit.nil
  | cons li rest ih =>
    unfold callListeners
    cases hl : li.Listener with
    | none => simpa using QuietInit.nil
    | some l =>
      simp only
      split
      · exact QuietInit.single _
      · rename_i hc
        simp only [Bool.or_eq_true, not_or, BasicEvent.IsAborted, Option.isSome_iff_ne_none,
          ne_eq, not_not, Bool.not_eq_true] at hc
        refine QuietInit.cons ?_ (ih _ _)
        exact ⟨by simp [Call.err, hl, hc.1], by simp [Call.aborts, hl, hc.2]⟩

theorem callListeners_not_returned (items : List ListenerItem) (e : BasicEvent)
    (err : Option String) (h : (callListeners items e err).returned = false) :
    (∀ c ∈ (callListeners items e err).calls, c.quiet) ∧
    (callListeners items e err).panic = none ∧
    (callListeners items e err).calls.map Call.li = items := by
  induction items generalizing e err with
  | nil => simp [callListeners]
  | cons li rest ih =>
    unfold callListeners at h ⊢
    cases hl : li.Listener with
    | none => simp [hl] at h
    | some l =>
      simp only [hl] at h ⊢
      split
      · rename_i hc
        simp [hc] at h
      · rename_i hc
        simp only [hc] at h
        have hc2 := hc
        simp only [Bool.or_eq_true, not_or, BasicEvent.IsAborted, Option.isSome_iff_ne_none,
          ne_eq, not_not, Bool.not_eq_true] at hc2
        obtain ⟨h1, h2, h3⟩ := ih _ _ (by simpa using h)
        refine ⟨?_, h2, ?_⟩
        · intro c hcm
          rcases List.mem_cons.mp hcm with rfl | hcm
          · exact ⟨by simp [Call.err, hl, hc2.1], by simp [Call.aborts, hl, hc2.2]⟩
          · exact h1 c hcm
        · simp [h3]

theorem callListeners_err (items : List ListenerItem) (e : BasicEvent) (err : Option String) :
    (callListeners items e err).err =
      match (callListeners items e err).calls.getLast? with
      | none => err
      | some c => c.err := by
  induction items generalizing e err with
  | nil => simp [callListeners]
  | cons li rest ih =>
    unfold callListeners
    cases hl : li.Listener with
    | none => simp
    | some l =>
      simp only
      split
      · simp [Call.err, hl]
      · simp only
        rw [ih]
        cases hr : (callListeners rest
            { name := e.name, data := (l.Handle e).data, aborted := (l.Handle e).aborted }
            (l.Handle e).err).calls with
        | nil => simp [Call.err, hl]
        | cons x xs =>
          have hx : (x :: xs).getLast? = some ((x :: xs).getLast (by simp)) :=
            List.getLast?_eq_getLast _ _
          simp only [List.getLast?_cons_cons, hx]

theorem callListeners_names (items : List ListenerItem) (e : BasicEvent) (err : Option String) :
    (∀ c ∈ (callListeners items e err).calls, c.arg.name = e.name) ∧
    (callListeners items e err).e.name = e.name := by
  induction items generalizing e err with
  | nil => simp [callListeners]
  | cons li rest ih =>
    unfold callListeners
    cases hl : li.Listener with
    | none => simp
    | some l =>
      simp only
      split
      · simp
      · obtain ⟨h1, h2⟩ := ih
          { name := e.name, data := (l.Handle e).data, aborted := (l.Handle e).aborted }
          (l.Handle e).err
        refine ⟨?_, h2⟩
        intro c hc
        rcases List.mem_cons.mp hc with rfl | hc
        · rfl
        · exact h1 c hc

theorem callListeners_items (items : List ListenerItem) (e : BasicEvent) (err : Option String) :
    ∃ rest, items = (callListeners items e err).calls.map Call.li ++ rest := by
  induction items generalizing e err with
  | nil => exact ⟨[], by simp [callListeners]⟩
  | cons li rest ih =>
    unfold callListeners
    cases hl : li.Listener with
    | none => exact ⟨li :: rest, by simp⟩
    | some l =>
      simp only
      split
      · exact ⟨rest, by simp⟩
      · obtain ⟨r, hr⟩ := ih
          { name := e.name, data := (l.Handle e).data, aborted := (l.Handle e).aborted }
          (l.Handle e).err
        exact ⟨r, by simpa using hr⟩

theorem callListeners_returned (items : List ListenerItem) (e : BasicEvent)
    (err : Option String)
    (hq : ∀ c ∈ (callListeners items e err).calls, c.quiet)
    (hp : (callListeners items e err).panic = none) :
    (callListeners items e err).returned = false := by
  induction items generalizing e err with
  | nil => simp [callListeners]
  | cons li rest ih =>
    unfold callListeners at hq hp ⊢
    cases hl : li.Listener with
    | none => simp [hl] at hp
    | some l =>
      simp only [hl] at hq hp ⊢
      split
      · rename_i hc
        simp only [hc, if_true] at hq
        have h := hq { li := li, arg := e } (by simp)
        simp only [Bool.or_eq_true, BasicEvent.IsAborted, Option.isSome_iff_ne_none] at hc
        rcases hc with hc | hc
        · exact absurd (by simpa [Call.err, hl] using h.1) hc
        · have := h.2
          simp [Call.aborts, hl, hc] at this
      · rename_i hc
        simp only [hc] at hq hp
        exact ih _ _ (fun c hcm => hq c (List.mem_cons_of_mem _ hcm)) hp

theorem callListeners_no_panic (items : List ListenerItem) (e : BasicEvent)
    (err : Option String) (h : ∀ li ∈ items, li.Listener ≠ none) :
    (callListeners items e err).panic = none := by
  induction items generalizing e err with
  | nil => simp [callListeners]
  | cons li rest ih =>
    unfold callListeners
    cases hl : li.Listener with
    | none => exact absurd hl (h li (by simp))
    | some l =>
      simp only
      split
      · rfl
      · exact ih _ _ (fun x hx => h x (List.mem_cons_of_mem _ hx))

theorem callListeners_head (items : List ListenerItem) (e : BasicEvent) (err : Option String)
    (c : Call) (h : (callListeners items e err).calls.head? = some c) : c.arg = e := by
  cases items with
  | nil => simp [callListeners] at h
  | cons li rest =>
    unfold callListeners at h
    cases hl : li.Listener with
    | none => simp [hl] at h
    | some l =>
      simp only [hl] at h
      split at h
      · simp at h
        rw [← h]
      · simp at h
        rw [← h]

theorem callListeners_nocall (items : List ListenerItem) (e : BasicEvent) (err : Option String)
    (h : (callListeners items e err).calls = []) : (callListeners items e err).e = e := by
  cases items with
  | nil => simp [callListeners]
  | cons li rest =>
    unfold callListeners at h ⊢
    cases hl : li.Listener with
    | none => simp
    | some l =>
      simp only [hl] at h
      split at h <;> simp at h

/-! ## Lemmas on `publish` -/

theorem QueuesPerm.refl (m : GoMap ListenerQueue) : QueuesPerm m m := by
  intro k
  cases h : GoMap.get m k with
  | none => exact Or.inl ⟨rfl, rfl⟩
  | some a => exact Or.inr ⟨a, a, rfl, rfl, List.Perm.refl _⟩

theorem QueuesPerm.trans {m1 m2 m3 : GoMap ListenerQueue} (h12 : QueuesPerm m1 m2)
    (h23 : QueuesPerm m2 m3) : QueuesPerm m1 m3 := by
  intro k
  rcases h12 k with ⟨h1, h2⟩ | ⟨a, b, h1, h2, hp⟩
  · rcases h23 k with ⟨h3, h4⟩ | ⟨c, d, h3, h4, hq⟩
    · exact Or.inl ⟨h1, h4⟩
    · rw [h2] at h3
      cases h3
  · rcases h23 k with ⟨h3, h4⟩ | ⟨c, d, h3, h4, hq⟩
    · rw [h2] at h3
      cases h3
    · rw [h2] at h3
      cases h3
      exact Or.inr ⟨a, d, h1, h4, hp.trans hq⟩

theorem lastErr_quiet (l : List Call) (h : ∀ c ∈ l, c.quiet) : lastErr l = none := by
  unfold lastErr
  cases hl : l.getLast? with
  | none => rfl
  | some c => exact (h c (List.mem_of_getLast?_eq_some hl)).1

theorem DispInv.init (S : GoSort) (em : Manager) (e : BasicEvent) :
    DispInv S em e [] { em := em, e := e, err := none, trace := [], panic := none } false where
  quietInit := QuietInit.nil
  err_eq := rfl
  names := by simp
  ename := rfl
  notret := by simp
  pre := ⟨[], by simp⟩
  ret_of := by simp
  nonnil := by simp
  head := by simp
  start := fun _ => rfl
  sortedSame := fun _ => rfl
  queues := QueuesPerm.refl _
  frame := ⟨rfl, rfl, rfl, rfl, rfl⟩

theorem DispInv.more {S : GoSort} {em0 : Manager} {e0 : BasicEvent} {keys : List String}
    {d : Dispatch} (h : DispInv S em0 e0 keys d true) (extra : List String) :
    DispInv S em0 e0 (keys ++ extra) d true where
  quietInit := h.quietInit
  err_eq := h.err_eq
  names := h.names
  ename := h.ename
  notret := by simp
  pre := by
    obtain ⟨rest, hr⟩ := h.pre
    exact ⟨rest ++ (extra.map (sortedItems S em0)).flatten, by simp [hr]⟩
  ret_of := h.ret_of
  nonnil := fun hn => h.nonnil (fun key hk => hn key (List.mem_append_left _ hk))
  head := h.head
  start := h.start
  sortedSame := h.sortedSame
  queues := h.queues
  frame := h.frame

theorem sortedItems_set (S : GoSort) (em : Manager) (key k : String) (lq : ListenerQueue)
    (h : GoMap.get em.listeners key = some lq) :
    sortedItems S { em with listeners := GoMap.set em.listeners key (lq.SortQ S) } k =
      sortedItems S em k := by
  unfold sortedItems
  simp only [GoMap.get_set]
  by_cases hk : k = key
  · subst hk
    simp [h, SortQ_idem]
  · simp [hk]

theorem DispInv.step {S : GoSort} {em0 : Manager} {e0 : BasicEvent} {keys : List String}
    {d : Dispatch} (h : DispInv S em0 e0 keys d false) (key : String) :
    DispInv S em0 e0 (keys ++ [key]) (Manager.runQueue S key d).1 (Manager.runQueue S key d).2 := by
  obtain ⟨hq, hpn, htr⟩ := h.notret rfl
  have hsi : sortedItems S d.em key = sortedItems S em0 key := h.sortedSame key
  unfold Manager.runQueue
  cases hg : GoMap.get d.em.listeners key with
  | none =>
    have hnil : sortedItems S em0 key = [] := by
      rw [← hsi]
      simp [sortedItems, hg]
    exact {
      quietInit := h.quietInit
      err_eq := h.err_eq
      names := h.names
      ename := h.ename
      notret := fun _ => ⟨hq, hpn, by simp [htr, hnil]⟩
      pre := ⟨[], by simp [htr, hnil]⟩
      ret_of := fun _ _ => rfl
      nonnil := fun _ => hpn
      head := h.head
      start := h.start
      sortedSame := h.sortedSame
      queues := h.queues
      frame := h.frame }
  | some lq =>
    have hit : (lq.SortQ S).Items = sortedItems S em0 key := by
      rw [← hsi]
      simp [sortedItems, hg, ListenerQueue.Items]
    simp only
    have herr : d.err = none := by rw [h.err_eq]; exact lastErr_quiet _ hq
    generalize ht : callListeners (lq.SortQ S).Items d.e d.err = t
    have hQ := callListeners_quietInit (lq.SortQ S).Items d.e d.err
    have hE := callListeners_err (lq.SortQ S).Items d.e d.err
    have hN := callListeners_names (lq.SortQ S).Items d.e d.err
    have hI := callListeners_items (lq.SortQ S).Items d.e d.err
    have hH := callListeners_head (lq.SortQ S).Items d.e d.err
    have hNR := callListeners_not_returned (lq.SortQ S).Items d.e d.err
    have hR := callListeners_returned (lq.SortQ S).Items d.e d.err
    have hP := callListeners_no_panic (lq.SortQ S).Items d.e d.err
    have hC := callListeners_nocall (lq.SortQ S).Items d.e d.err
    rw [ht] at hQ hE hN hI hH hNR hR hP hC
    rw [hit] at hI hNR hP
    exact {
      quietInit := QuietInit.append hq hQ
      err_eq := by
        show t.err = lastErr (d.trace ++ t.calls)
        rw [hE]
        unfold lastErr
        rw [List.getLast?_append]
        cases t.calls.getLast? with
        | none =>
          have := h.err_eq
          rw [herr] at this ⊢
          simpa [lastErr] using this
        | some c => simp
      names := by
        intro c hc
        rcases List.mem_append.mp hc with hc | hc
        · exact h.names c hc
        · rw [hN.1 c hc, h.ename]
      ename := by
        show t.e.name = e0.name
        rw [hN.2, h.ename]
      notret := by
        intro hr
        obtain ⟨h1, h2, h3⟩ := hNR hr
        refine ⟨?_, h2, ?_⟩
        · intro c hc
          rcases List.mem_append.mp hc with hc | hc
          · exact hq c hc
          · exact h1 c hc
        · simp [htr, h3]
      pre := by
        obtain ⟨rest, hrest⟩ := hI
        refine ⟨rest, ?_⟩
        simp only [List.map_append, List.flatten_append, List.map_cons, List.map_nil,
          List.flatten_cons, List.flatten_nil, List.append_nil, htr, List.append_assoc]
        rw [← hrest]
      ret_of := by
        intro hall hpanic
        exact hR (fun c hc => hall c (List.mem_append_right _ hc)) hpanic
      nonnil := by
        intro hn
        exact hP (hn key (by simp))
      head := by
        intro c hc
        cases hd : d.trace with
        | nil =>
          have hde : d.e = e0 := h.start hd
          rw [hd] at hc
          simp at hc
          rw [← hde]
          exact hH c hc
        | cons x xs =>
          rw [hd] at hc
          simp at hc
          exact h.head c (by rw [hd]; simpa using hc)
      start := by
        intro hnil
        have h1 : d.trace = [] ∧ t.calls = [] := by simpa using hnil
        show t.e = e0
        rw [hC h1.2]
        exact h.start h1.1
      sortedSame := by
        intro k
        show sortedItems S { d.em with listeners := GoMap.set d.em.listeners key (lq.SortQ S) } k = _
        rw [sortedItems_set S d.em key k lq hg]
        exact h.sortedSame k
      queues := by
        refine QueuesPerm.trans ?_ h.queues
        intro k
        show (GoMap.get (GoMap.set d.em.listeners key (lq.SortQ S)) k = none ∧ _) ∨ _
        rw [GoMap.get_set]
        by_cases hk : k = key
        · subst hk
          exact Or.inr ⟨_, lq, by simp, hg, SortQ_perm S lq⟩
        · simp only [hk, if_false]
          exact QueuesPerm.refl _ k
      frame := h.frame }

theorem publish_inv (S : GoSort) (em : Manager) (e : BasicEvent) :
    ∃ ret, DispInv S em (e.Abort false) (dispatchKeys e.name) (Manager.publish S em e) ret := by
  have h0 := DispInv.init S em (e.Abort false)
  have h1 := h0.step (e.Abort false).Name
  unfold Manager.publish
  simp only
  generalize Manager.runQueue S (e.Abort false).Name
    { em := em, e := e.Abort false, err := none, trace := [], panic := none } = p1 at h1
  have hname : (e.Abort false).Name = e.name := rfl
  rw [hname] at h1 ⊢
  simp only [List.nil_append] at h1
  unfold dispatchKeys
  cases hr1 : p1.2 with
  | true =>
    rw [hr1] at h1
    refine ⟨true, ?_⟩
    simpa using h1.more _
  | false =>
    rw [hr1] at h1
    simp only [Bool.false_eq_true, if_false]
    by_cases hc : lastIndexByte e.name '.' > 0 ∧ lastIndexByte e.name '.' < (e.name.length : Int)
    · simp only [hc, and_self, if_true]
      have h2 := h1.step (sliceTo e.name (lastIndexByte e.name '.' + 1) ++ Wildcard)
      generalize Manager.runQueue S (sliceTo e.name (lastIndexByte e.name '.' + 1) ++ Wildcard)
        p1.1 = p2 at h2
      cases hr2 : p2.2 with
      | true =>
        rw [hr2] at h2
        refine ⟨true, ?_⟩
        simpa using h2.more [Wildcard]
      | false =>
        rw [hr2] at h2
        simp only [Bool.false_eq_true, if_false]
        exact ⟨_, by simpa using h2.step Wildcard⟩
    · simp only [hc, if_false, Bool.false_eq_true]
      exact ⟨_, by simpa using h1.step Wildcard⟩

/-! ## Reachable registry states and their invariant -/

theorem TablesOK.empty : TablesOK [] [] where
  sync := by intro k; simp [GoMap.has, GoMap.get]
  nonempty := by intro k q h; simp [GoMap.get] at h
  nonnil := by intro k q h; simp [GoMap.get] at h

theorem TablesOK.of_perm {l l2 : GoMap ListenerQueue} {n : GoMap Int} (h : TablesOK l n)
    (hp : QueuesPerm l2 l) : TablesOK l2 n where
  sync := by
    intro k
    rw [h.sync k]
    rcases hp k with ⟨h1, h2⟩ | ⟨a, b, h1, h2, _⟩
    · simp [h1, h2]
    · simp [h1, h2]
  nonempty := by
    intro k q hq
    rcases hp k with ⟨h1, h2⟩ | ⟨a, b, h1, h2, hab⟩
    · rw [h1] at hq; cases hq
    · rw [h1] at hq
      cases hq
      intro hnil
      rw [hnil] at hab
      exact h.nonempty k b h2 (List.Perm.eq_nil hab.symm)
  nonnil := by
    intro k q hq li hli
    rcases hp k with ⟨h1, h2⟩ | ⟨a, b, h1, h2, hab⟩
    · rw [h1] at hq; cases hq
    · rw [h1] at hq
      cases hq
      exact h.nonnil k b h2 li (hab.subset hli)

theorem TablesOK.push {l : GoMap ListenerQueue} {n : GoMap Int} (h : TablesOK l n)
    (name : String) (lq : ListenerQueue) (li : ListenerItem) (hg : GoMap.get l name = some lq)
    (hli : li.Listener ≠ none) : TablesOK (GoMap.set l name (lq.Push li)) n where
  sync := by
    intro k
    rw [h.sync k, GoMap.get_set]
    by_cases hk : k = name
    · subst hk
      simp [hg]
    · simp [hk]
  nonempty := by
    intro k q hq
    rw [GoMap.get_set] at hq
    by_cases hk : k = name
    · simp only [hk, if_true, Option.some.injEq] at hq
      rw [← hq]
      simp [ListenerQueue.Push]
    · simp only [hk, if_false] at hq
      exact h.nonempty k q hq
  nonnil := by
    intro k q hq x hx
    rw [GoMap.get_set] at hq
    by_cases hk : k = name
    · simp only [hk, if_true, Option.some.injEq] at hq
      rw [← hq] at hx
      simp only [ListenerQueue.Push, List.mem_append, List.mem_singleton] at hx
      rcases hx with hx | hx
      · exact h.nonnil name lq hg x hx
      · rw [hx]; exact hli
    · simp only [hk, if_false] at hq
      exact h.nonnil k q hq x hx

theorem TablesOK.first {l : GoMap ListenerQueue} {n : GoMap Int} (h : TablesOK l n)
    (name : String) (li : ListenerItem) (hli : li.Listener ≠ none) :
    TablesOK (GoMap.set l name (ListenerQueue.Push { items := [] } li)) (GoMap.set n name 1) where
  sync := by
    intro k
    rw [GoMap.has_set, GoMap.get_set]
    by_cases hk : k = name
    · simp [hk]
    · simp only [hk, if_false]
      exact h.sync k
  nonempty := by
    intro k q hq
    rw [GoMap.get_set] at hq
    by_cases hk : k = name
    · simp only [hk, if_true, Option.some.injEq] at hq
      rw [← hq]
      simp [ListenerQueue.Push]
    · simp only [hk, if_false] at hq
      exact h.nonempty k q hq
  nonnil := by
    intro k q hq x hx
    rw [GoMap.get_set] at hq
    by_cases hk : k = name
    · simp only [hk, if_true, Option.some.injEq] at hq
      rw [← hq] at hx
      simp only [ListenerQueue.Push, List.nil_append, List.mem_singleton] at hx
      rw [hx]; exact hli
    · simp only [hk, if_false] at hq
      exact h.nonnil k q hq x hx

theorem TablesOK.delete {l : GoMap ListenerQueue} {n : GoMap Int} (h : TablesOK l n)
    (name : String) : TablesOK (GoMap.del l name) (GoMap.del n name) where
  sync := by
    intro k
    rw [GoMap.has_del, GoMap.get_del]
    by_cases hk : k = name
    · simp [hk]
    · simp only [hk, if_false]
      exact h.sync k
  nonempty := by
    intro k q hq
    rw [GoMap.get_del] at hq
    by_cases hk : k = name
    · simp [hk] at hq
    · simp only [hk, if_false] at hq
      exact h.nonempty k q hq
  nonnil := by
    intro k q hq
    rw [GoMap.get_del] at hq
    by_cases hk : k = name
    · simp [hk] at hq
    · simp only [hk, if_false] at hq
      exact h.nonnil k q hq

theorem addListenerItem_ok (em : Manager) (name : String) (li : ListenerItem) (h : em.OK) :
    (em.addListenerItem name li).em.OK := by
  unfold Manager.addListenerItem
  split
  · exact h
  · cases hl : li.Listener with
    | none => exact h
    | some l =>
      have hli : li.Listener ≠ none := by simp [hl]
      simp only
      split
      · rename_i lq hg
        exact TablesOK.push h _ lq li hg hli
      · exact TablesOK.first h _ li hli

theorem subscribe_ok (sbr : List (String × SubscribedValue)) (em : Manager) (h : em.OK) :
    (em.Subscribe sbr).em.OK := by
  induction sbr generalizing em with
  | nil => exact h
  | cons p rest ih =>
    obtain ⟨name, v⟩ := p
    unfold Manager.Subscribe
    have hst : (match v with
      | SubscribedValue.listener lt => em.Listen name (some lt) []
      | SubscribedValue.item lt => em.addListenerItem name lt
      | SubscribedValue.other =>
        ({ em := em, panic := some "event: the value must be an IListener or ListenerItem instance" } : Step)).em.OK := by
      cases v with
      | listener lt => exact addListenerItem_ok em name _ h
      | item lt => exact addListenerItem_ok em name _ h
      | other => exact h
    simp only
    split
    · exact hst
    · exact ih _ hst

theorem removeFrom_ok (em : Manager) (name : String) (lq : ListenerQueue)
    (listener : Option IListener) (h : em.OK) (hg : GoMap.get em.listeners name = some lq) :
    (em.removeFrom name lq listener).OK := by
  unfold Manager.removeFrom
  simp only
  have hsub : ∀ x ∈ (lq.Remove listener).items, x ∈ lq.items := by
    intro x hx
    cases listener with
    | none => exact hx
    | some l =>
      simp only [ListenerQueue.Remove] at hx
      exact (List.mem_filter.mp hx).1
  split
  · -- the queue became empty: both entries are deleted
    have h2 : TablesOK (GoMap.del em.listeners name) (GoMap.del em.listenedNames name) :=
      TablesOK.delete h name
    have hdel : GoMap.del (GoMap.set em.listeners name (lq.Remove listener)) name =
        GoMap.del em.listeners name := by
      generalize em.listeners = m
      induction m with
      | nil => simp [GoMap.set, GoMap.del]
      | cons p m ih =>
        obtain ⟨a, x⟩ := p
        by_cases ha : name = a
        · simp [GoMap.set, GoMap.del, ha]
        · simp [GoMap.set, GoMap.del, ha, ih]
    show TablesOK _ _
    simp only
    rw [hdel]
    exact h2
  · rename_i hne
    show TablesOK _ _
    simp only
    have hne2 : (lq.Remove listener).items ≠ [] := by
      intro hnil
      apply hne
      simp [ListenerQueue.IsEmpty, hnil]
    exact {
      sync := by
        intro k
        rw [h.sync k, GoMap.get_set]
        by_cases hk : k = name
        · subst hk
          simp [hg]
        · simp [hk]
      nonempty := by
        intro k q hq
        rw [GoMap.get_set] at hq
        by_cases hk : k = name
        · simp only [hk, if_true, Option.some.injEq] at hq
          rw [← hq]
          exact hne2
        · simp only [hk, if_false] at hq
          exact h.nonempty k q hq
      nonnil := by
        intro k q hq x hx
        rw [GoMap.get_set] at hq
        by_cases hk : k = name
        · simp only [hk, if_true, Option.some.injEq] at hq
          rw [← hq] at hx
          exact h.nonnil name lq hg x (hsub x hx)
        · simp only [hk, if_false] at hq
          exact h.nonnil k q hq x hx }

theorem removeFromAll_ok (listener : Option IListener) (keys : List String) (em : Manager)
    (h : em.OK) : (Manager.removeFromAll listener keys em).OK := by
  induction keys generalizing em with
  | nil => exact h
  | cons k rest ih =>
    unfold Manager.removeFromAll
    split
    · rename_i lq hg
      exact ih _ (removeFrom_ok em k lq listener h hg)
    · exact ih _ h

theorem removeListener_ok (em : Manager) (name : String) (listener : Option IListener)
    (h : em.OK) : (em.RemoveListener name listener).OK := by
  unfold Manager.RemoveListener
  split
  · split
    · rename_i lq hg
      exact removeFrom_ok em name lq listener h hg
    · exact h
  · exact removeFromAll_ok listener _ em h

theorem removeListeners_ok (em : Manager) (name : String) (h : em.OK) :
    (em.RemoveListeners name).em.OK := by
  unfold Manager.RemoveListeners
  split
  · split
    · exact h
    · exact TablesOK.delete h name
  · exact h

theorem publish_ok (S : GoSort) (em : Manager) (e : BasicEvent) (h : em.OK) :
    (em.publish S e).em.OK := by
  obtain ⟨ret, hinv⟩ := publish_inv S em e
  unfold Manager.OK
  rw [hinv.frame.2.1]
  exact TablesOK.of_perm h hinv.queues

theorem Publish_ok (S : GoSort) (em : Manager) (name : String) (params : M) (h : em.OK) :
    (em.Publish S name params).em.OK := by
  unfold Manager.Publish
  cases checkName name with
  | error msg => exact h
  | ok nm =>
    simp only
    by_cases hnf : em.notFound nm = true
    · simp only [hnf, if_true]
      exact h
    · simp only [hnf, if_false]
      unfold Manager.publishFound
      cases GoMap.get em.events nm with
      | none => exact publish_ok S em _ h
      | some e => exact publish_ok S em _ h

theorem Reachable.ok {S : GoSort} {em : Manager} (h : Reachable S em) : em.OK := by
  induction h with
  | newManager name => exact TablesOK.empty
  | listen name listener priority _ ih => exact addListenerItem_ok _ name _ ih
  | subscribe sbr _ ih => exact subscribe_ok sbr _ ih
  | addEvent e _ ih =>
    unfold Manager.AddEvent
    split
    · exact ih
    · exact ih
  | removeEvent name _ ih =>
    unfold Manager.RemoveEvent
    split
    · exact ih
    · exact ih
  | removeEvents _ ih => exact ih
  | removeListener name listener _ ih => exact removeListener_ok _ name listener ih
  | removeListeners name _ ih => exact removeListeners_ok _ name ih
  | reset _ ih => exact TablesOK.empty
  | publish name params _ ih => exact Publish_ok S _ name params ih
  | dispatch e _ ih => exact publish_ok S _ e ih
  | enableLock b _ ih => exact ih

/-! ## Lemmas on names -/

theorem lastIndexByteAux_spec (c : Char) (l : List Char) :
    (lastIndexByteAux c l = -1 ∧ c ∉ l) ∨
    (∃ pre post, l = pre ++ c :: post ∧ lastIndexByteAux c l = (pre.length : Int) ∧ c ∉ post) := by
  induction l with
  | nil => exact Or.inl ⟨rfl, by simp⟩
  | cons x xs ih =>
    unfold lastIndexByteAux
    rcases ih with ⟨h1, h2⟩ | ⟨pre, post, h1, h2, h3⟩
    · simp only [h1]
      by_cases hx : x = c
      · subst hx
        refine Or.inr ⟨[], xs, rfl, ?_, h2⟩
        simp
      · refine Or.inl ⟨by simp [hx], ?_⟩
        simp only [List.mem_cons, not_or]
        exact ⟨fun h => hx h.symm, h2⟩
    · refine Or.inr ⟨x :: pre, post, by simp [h1], ?_, h3⟩
      simp only [h2]
      have : (0 : Int) ≤ (pre.length : Int) := Int.natCast_nonneg _
      simp only [ge_iff_le, this, if_true, List.length_cons]
      push_cast
      ring

theorem lastIndexByte_lt (s : String) (c : Char) : lastIndexByte s c < (s.length : Int) := by
  unfold lastIndexByte
  rcases lastIndexByteAux_spec c s.data with ⟨h1, _⟩ | ⟨pre, post, h1, h2, _⟩
  · rw [h1]
    have : (0 : Int) ≤ (s.length : Int) := Int.natCast_nonneg _
    omega
  · rw [h2]
    have : s.length = pre.length + 1 + post.length := by
      show s.data.length = _
      rw [h1]
      simp
      omega
    omega

/-- A name accepted by `eventNameReg` does not start with a dot. -/
theorem lastIndexByte_ne_zero (s : String) (h : eventNameReg s = true) :
    lastIndexByte s '.' ≠ 0 := by
  unfold lastIndexByte
  intro h0
  rcases lastIndexByteAux_spec '.' s.data with ⟨h1, _⟩ | ⟨pre, post, h1, h2, _⟩
  · rw [h1] at h0
    cases h0
  · rw [h2] at h0
    have hpre : pre = [] := by
      cases pre with
      | nil => rfl
      | cons a b => simp at h0; omega
    subst hpre
    unfold eventNameReg at h
    rw [h1] at h
    simp at h
    exact absurd h.1 (by decide)

theorem checkName_ok {raw N : String} (h : checkName raw = Except.ok N) :
    N = TrimSpace raw ∧ N ≠ "" ∧ eventNameReg N = true := by
  unfold checkName at h
  simp only at h
  split at h
  · cases h
  · split at h
    · cases h
    · rename_i h1 h2
      cases h
      exact ⟨rfl, h1, by simpa using h2⟩

theorem checkName_ne_wildcard {raw N : String} (h : checkName raw = Except.ok N) :
    N ≠ Wildcard := by
  obtain ⟨_, _, h3⟩ := checkName_ok h
  intro hw
  rw [hw] at h3
  exact absurd h3 (by decide)

/-- For a validated name the group test of `publish` holds exactly when the
name contains a dot. -/
theorem group_cond_iff (N : String) (h : eventNameReg N = true) :
    (lastIndexByte N '.' > 0 ∧ lastIndexByte N '.' < (N.length : Int)) ↔
      0 ≤ lastIndexByte N '.' := by
  have h1 := lastIndexByte_lt N '.'
  have h2 := lastIndexByte_ne_zero N h
  constructor
  · intro h3; omega
  · intro h3; omega

/-! ## Consequences for `publish` and `Publish` -/

theorem sortedItems_perm (S : GoSort) (em : Manager) (key : String) (q : ListenerQueue)
    (h : GoMap.get em.listeners key = some q) : List.Perm (sortedItems S em key) q.items := by
  simp only [sortedItems, h]
  exact SortQ_perm S q

theorem sortedItems_none (S : GoSort) (em : Manager) (key : String)
    (h : GoMap.get em.listeners key = none) : sortedItems S em key = [] := by
  simp [sortedItems, h]

theorem sortedItems_pairwise (S : GoSort) (em : Manager) (key : String) :
    List.Pairwise geP (sortedItems S em key) := by
  unfold sortedItems
  cases GoMap.get em.listeners key with
  | none => exact List.Pairwise.nil
  | some q => exact (isSorted_iff_pairwise _).mp (SortQ_sorted S q)

theorem sortedItems_nonnil (S : GoSort) (em : Manager) (key : String) (hok : em.OK) :
    ∀ li ∈ sortedItems S em key, li.Listener ≠ none := by
  intro li hli
  cases hg : GoMap.get em.listeners key with
  | none => simp [sortedItems, hg] at hli
  | some q => exact hok.nonnil key q hg li ((sortedItems_perm S em key q hg).subset hli)

theorem publish_no_panic (S : GoSort) (em : Manager) (e : BasicEvent) (hok : em.OK) :
    (em.publish S e).panic = none := by
  obtain ⟨ret, hinv⟩ := publish_inv S em e
  exact hinv.nonnil (fun key _ => sortedItems_nonnil S em key hok)

theorem publish_complete (S : GoSort) (em : Manager) (e : BasicEvent) (hok : em.OK)
    (hq : ∀ c ∈ (em.publish S e).trace, c.err = none ∧ c.aborts = false) :
    (em.publish S e).trace.map Call.li =
      ((dispatchKeys e.name).map (sortedItems S em)).flatten := by
  obtain ⟨ret, hinv⟩ := publish_inv S em e
  have hret : ret = false := hinv.ret_of hq (publish_no_panic S em e hok)
  subst hret
  exact (hinv.notret rfl).2.2

theorem publish_last (S : GoSort) (em : Manager) (e : BasicEvent) (pre post : List Call)
    (c : Call) (ht : (em.publish S e).trace = pre ++ c :: post)
    (hc : c.err ≠ none ∨ c.aborts = true) :
    post = [] ∧ (em.publish S e).err = c.err := by
  obtain ⟨ret, hinv⟩ := publish_inv S em e
  have hpost : post = [] := by
    by_contra hne
    have hquiet := hinv.quietInit pre c post ht hne
    rcases hc with hc | hc
    · exact hc hquiet.1
    · rw [hquiet.2] at hc
      cases hc
  refine ⟨hpost, ?_⟩
  rw [hinv.err_eq, ht, hpost]
  simp [lastErr]

theorem publishFound_eq (S : GoSort) (em : Manager) (name : String) (params : M) :
    (em.publishFound S name params).trace = (em.publish S (resolved em name params)).trace ∧
    (em.publishFound S name params).err = (em.publish S (resolved em name params)).err ∧
    (em.publishFound S name params).panic = (em.publish S (resolved em name params)).panic ∧
    (em.publishFound S name params).e = some (em.publish S (resolved em name params)).e := by
  unfold Manager.publishFound resolved
  cases GoMap.get em.events name with
  | none => exact ⟨rfl, rfl, rfl, rfl⟩
  | some e => exact ⟨rfl, rfl, rfl, rfl⟩

theorem Publish_cases (S : GoSort) (em : Manager) (raw : String) (params : M) :
    ((em.Publish S raw params).trace = [] ∧ (em.Publish S raw params).err = none ∧
      (em.Publish S raw params).e = none) ∨
    (∃ N, checkName raw = Except.ok N ∧ em.notFound N = false ∧
      (em.Publish S raw params).trace = (em.publish S (resolved em N params)).trace ∧
      (em.Publish S raw params).err = (em.publish S (resolved em N params)).err ∧
      (em.Publish S raw params).panic = (em.publish S (resolved em N params)).panic ∧
      (em.Publish S raw params).e = some (em.publish S (resolved em N params)).e) := by
  unfold Manager.Publish
  cases hck : checkName raw with
  | error msg =>
    refine Or.inl ?_
    simp
  | ok N =>
    simp only
    by_cases hnf : em.notFound N = true
    · refine Or.inl ?_
      simp [hnf]
    · simp only [hnf, if_false]
      exact Or.inr ⟨N, rfl, by simpa using hnf, publishFound_eq S em N params⟩

theorem hasListeners_iff (em : Manager) (hok : em.OK) (k : String) :
    em.HasListeners k = true ↔ ∃ q, GoMap.get em.listeners k = some q :=
  hok.sync k

theorem hasListeners_false (em : Manager) (hok : em.OK) (k : String)
    (h : GoMap.get em.listeners k = none) : em.HasListeners k = false := by
  cases hh : em.HasListeners k with
  | false => rfl
  | true =>
    obtain ⟨q, hq⟩ := (hasListeners_iff em hok k).mp hh
    rw [h] at hq
    cases hq

theorem Publish_not_found (S : GoSort) (em : Manager) (raw N : String) (params : M)
    (hN : checkName raw = Except.ok N) (hnf : em.notFound N = true) :
    em.Publish S raw params =
      { em := em, err := none, e := none, trace := [], panic := none } := by
  unfold Manager.Publish
  rw [hN]
  simp [hnf]

theorem notFound_of (em : Manager) (N : String)
    (h1 : em.HasListeners N = false) (h2 : em.HasListeners Wildcard = false)
    (h3 : 0 ≤ lastIndexByte N '.' → lastIndexByte N '.' ≠ (N.length : Int) - 1 →
      em.HasListeners (sliceTo N (lastIndexByte N '.' + 1) ++ Wildcard) = false) :
    em.notFound N = true := by
  unfold Manager.notFound
  simp only [h1, h2, beq_self_eq_true, Bool.and_self, if_true]
  by_cases hc : lastIndexByte N '.' < 0 ∨ lastIndexByte N '.' = (N.length : Int) - 1
  · simp [hc]
  · simp only [hc, if_false]
    rw [h3 (by omega) (by omega)]
    rfl

theorem Publish_no_queue (S : GoSort) (em : Manager) (raw N : String) (params : M)
    (hok : em.OK) (hN : checkName raw = Except.ok N)
    (hexact : GoMap.get em.listeners N = none)
    (hglobal : GoMap.get em.listeners Wildcard = none)
    (hgroup : 0 ≤ lastIndexByte N '.' → lastIndexByte N '.' ≠ (N.length : Int) - 1 →
      GoMap.get em.listeners (sliceTo N (lastIndexByte N '.' + 1) ++ Wildcard) = none) :
    em.Publish S raw params =
      { em := em, err := none, e := none, trace := [], panic := none } :=
  Publish_not_found S em raw N params hN
    (notFound_of em N (hasListeners_false em hok N hexact)
      (hasListeners_false em hok Wildcard hglobal)
      (fun h1 h2 => hasListeners_false em hok _ (hgroup h1 h2)))

/-- What `TrimSpace` returns: the argument without a leading and a trailing run
of white space, and with no white space left at either end. -/
theorem TrimSpace_spec (s : String) :
    (∃ l r, s.data = l ++ (TrimSpace s).data ++ r ∧ (∀ x ∈ l, isSpace x = true) ∧
      (∀ x ∈ r, isSpace x = true)) ∧
    (∀ c, (TrimSpace s).data.head? = some c → isSpace c = false) ∧
    (∀ c, (TrimSpace s).data.getLast? = some c → isSpace c = false) := by
  have hd : (TrimSpace s).data =
      ((s.data.dropWhile isSpace).reverse.dropWhile isSpace).reverse := rfl
  have h1 : s.data = s.data.takeWhile isSpace ++ s.data.dropWhile isSpace :=
    (List.takeWhile_append_dropWhile isSpace s.data).symm
  have h2 : (s.data.dropWhile isSpace).reverse =
      (s.data.dropWhile isSpace).reverse.takeWhile isSpace ++
        (s.data.dropWhile isSpace).reverse.dropWhile isSpace :=
    (List.takeWhile_append_dropWhile isSpace _).symm
  have h3 : s.data.dropWhile isSpace =
      (TrimSpace s).data ++ ((s.data.dropWhile isSpace).reverse.takeWhile isSpace).reverse := by
    rw [hd, ← List.reverse_append, ← h2, List.reverse_reverse]
  have hlast : ∀ c, (TrimSpace s).data.getLast? = some c → isSpace c = false := by
    intro c hc
    rw [hd, List.getLast?_reverse] at hc
    have := List.head?_dropWhile_not isSpace (s.data.dropWhile isSpace).reverse
    rw [hc] at this
    simpa using this
  refine ⟨⟨s.data.takeWhile isSpace,
    ((s.data.dropWhile isSpace).reverse.takeWhile isSpace).reverse, ?_, ?_, ?_⟩, ?_, hlast⟩
  · rw [List.append_assoc, ← h3]
    exact h1
  · intro x hx
    exact List.mem_takeWhile_imp hx
  · intro x hx
    exact List.mem_takeWhile_imp (List.mem_reverse.mp hx)
  · intro c hc
    have h4 : (s.data.dropWhile isSpace).head? = some c := by
      rw [h3, List.head?_append, hc]
      rfl
    have := List.head?_dropWhile_not isSpace s.data
    rw [h4] at this
    simpa using this

theorem resolved_name (em : Manager) (N : String) (params : M)
    (hproto : ∀ P, GoMap.get em.events N = some P → P.Name = N) :
    (resolved em N params).name = N := by
  unfold resolved
  cases hg : GoMap.get em.events N with
  | none =>
    cases params <;> rfl
  | some P =>
    have := hproto P hg
    cases params with
    | none => exact this
    | some d => exact this

theorem notFound_true (em : Manager) (N : String) (h : em.notFound N = true) :
    em.HasListeners N = false ∧ em.HasListeners Wildcard = false ∧
    (lastIndexByte N '.' < 0 ∨ lastIndexByte N '.' = (N.length : Int) - 1 ∨
      em.HasListeners (sliceTo N (lastIndexByte N '.' + 1) ++ Wildcard) = false) := by
  unfold Manager.notFound at h
  by_cases h1 : em.HasListeners N = false
  · by_cases h2 : em.HasListeners Wildcard = false
    · refine ⟨h1, h2, ?_⟩
      simp only [h1, h2, beq_self_eq_true, Bool.and_self, if_true] at h
      by_cases hc : lastIndexByte N '.' < 0 ∨ lastIndexByte N '.' = (N.length : Int) - 1
      · rcases hc with hc | hc
        · exact Or.inl hc
        · exact Or.inr (Or.inl hc)
      · simp only [hc, if_false, beq_iff_eq] at h
        exact Or.inr (Or.inr h)
    · simp [h2] at h
  · simp [h1] at h

theorem Publish_found (S : GoSort) (em : Manager) (raw N : String) (params : M)
    (hN : checkName raw = Except.ok N) (hnf : em.notFound N = false) :
    em.Publish S raw params = em.publishFound S N params := by
  unfold Manager.Publish
  rw [hN]
  simp [hnf]

theorem get_none_of_not_listened (em : Manager) (hok : em.OK) (k : String)
    (h : em.HasListeners k = false) : GoMap.get em.listeners k = none := by
  cases hg : GoMap.get em.listeners k with
  | none => rfl
  | some q =>
    have := (hasListeners_iff em hok k).mpr ⟨q, hg⟩
    rw [h] at this
    cases this

/-- The invoked items of a complete dispatch of an event with a validated name,
phase by phase. -/
theorem dispatchKeys_flatten (S : GoSort) (em : Manager) (N : String)
    (hreg : eventNameReg N = true) :
    ((dispatchKeys N).map (sortedItems S em)).flatten =
      sortedItems S em N ++
        (if 0 ≤ lastIndexByte N '.' then
          sortedItems S em (sliceTo N (lastIndexByte N '.' + 1) ++ Wildcard) else []) ++
        sortedItems S em Wildcard := by
  unfold dispatchKeys
  by_cases hc : 0 ≤ lastIndexByte N '.'
  · have := (group_cond_iff N hreg).mpr hc
    simp [hc, this]
  · have : ¬ (lastIndexByte N '.' > 0 ∧ lastIndexByte N '.' < (N.length : Int)) :=
      fun h => hc ((group_cond_iff N hreg).mp h)
    simp [hc, this]

theorem Publish_phases (S : GoSort) (em : Manager) (raw N : String) (params : M)
    (hok : em.OK) (hN : checkName raw = Except.ok N)
    (hdot : lastIndexByte N '.' ≠ (N.length : Int) - 1)
    (hproto : ∀ P, GoMap.get em.events N = some P → P.Name = N)
    (hquiet : ∀ c ∈ (em.Publish S raw params).trace, c.err = none ∧ c.aborts = false) :
    (em.Publish S raw params).trace.map Call.li =
      sortedItems S em N ++
        (if 0 ≤ lastIndexByte N '.' then
          sortedItems S em (sliceTo N (lastIndexByte N '.' + 1) ++ Wildcard) else []) ++
        sortedItems S em Wildcard := by
  have hreg := (checkName_ok hN).2.2
  by_cases hnf : em.notFound N = true
  · rw [Publish_not_found S em raw N params hN hnf]
    obtain ⟨h1, h2, h3⟩ := notFound_true em N hnf
    rw [sortedItems_none S em N (get_none_of_not_listened em hok N h1),
      sortedItems_none S em Wildcard (get_none_of_not_listened em hok Wildcard h2)]
    by_cases hc : 0 ≤ lastIndexByte N '.'
    · have h4 : em.HasListeners (sliceTo N (lastIndexByte N '.' + 1) ++ Wildcard) = false := by
        rcases h3 with h3 | h3 | h3
        · omega
        · exact absurd h3 hdot
        · exact h3
      simp [hc, sortedItems_none S em _ (get_none_of_not_listened em hok _ h4)]
    · simp [hc]
  · have hP := Publish_found S em raw N params hN (by simpa using hnf)
    have h1 := (publishFound_eq S em N params).1
    rw [hP] at hquiet ⊢
    rw [h1] at hquiet ⊢
    rw [publish_complete S em _ hok hquiet, resolved_name em N params hproto]
    exact dispatchKeys_flatten S em N hreg

theorem groupKey_length (N : String) (n : Nat) (h : n ≤ N.length) :
    (sliceTo N (n : Int) ++ Wildcard).length = n + 1 := by
  have h1 : (sliceTo N (n : Int) ++ Wildcard).length =
      (sliceTo N (n : Int)).length + Wildcard.length := String.length_append _ _
  have h2 : (sliceTo N (n : Int)).length = n := by
    show (List.take (n : Int).toNat N.data).length = n
    rw [List.length_take]
    simp only [Int.toNat_ofNat]
    exact Nat.min_eq_left h
  rw [h1, h2]
  rfl

theorem publish_names (S : GoSort) (em : Manager) (e : BasicEvent) :
    ∀ c ∈ (em.publish S e).trace, c.arg.name = e.name := by
  obtain ⟨ret, hinv⟩ := publish_inv S em e
  exact hinv.names

theorem publish_head (S : GoSort) (em : Manager) (e : BasicEvent) :
    ∀ c, (em.publish S e).trace.head? = some c → c.arg = e.Abort false := by
  obtain ⟨ret, hinv⟩ := publish_inv S em e
  exact hinv.head

/-! ## The sample event is never modified -/

theorem addListenerItem_sample (em : Manager) (name : String) (li : ListenerItem) :
    (em.addListenerItem name li).em.sample = em.sample := by
  unfold Manager.addListenerItem
  split
  · rfl
  · split
    · rfl
    · split <;> rfl

theorem subscribe_sample (sbr : List (String × SubscribedValue)) (em : Manager) :
    (em.Subscribe sbr).em.sample = em.sample := by
  induction sbr generalizing em with
  | nil => rfl
  | cons p rest ih =>
    obtain ⟨name, v⟩ := p
    unfold Manager.Subscribe
    have hst : (match v with
      | SubscribedValue.listener lt => em.Listen name (some lt) []
      | SubscribedValue.item lt => em.addListenerItem name lt
      | SubscribedValue.other =>
        ({ em := em, panic := some "event: the value must be an IListener or ListenerItem instance" } : Step)).em.sample
          = em.sample := by
      cases v with
      | listener lt => exact addListenerItem_sample em name _
      | item lt => exact addListenerItem_sample em name _
      | other => rfl
    simp only
    split
    · exact hst
    · rw [ih, hst]

theorem removeFrom_sample (em : Manager) (name : String) (lq : ListenerQueue)
    (listener : Option IListener) : (em.removeFrom name lq listener).sample = em.sample := by
  unfold Manager.removeFrom
  simp only
  split <;> rfl

theorem removeFromAll_sample (listener : Option IListener) (keys : List String) (em : Manager) :
    (Manager.removeFromAll listener keys em).sample = em.sample := by
  induction keys generalizing em with
  | nil => rfl
  | cons k rest ih =>
    unfold Manager.removeFromAll
    split
    · rw [ih, removeFrom_sample]
    · exact ih em

theorem publish_sample (S : GoSort) (em : Manager) (e : BasicEvent) :
    (em.publish S e).em.sample = em.sample := by
  obtain ⟨ret, hinv⟩ := publish_inv S em e
  exact hinv.frame.2.2.2.1

theorem Publish_sample (S : GoSort) (em : Manager) (name : String) (params : M) :
    (em.Publish S name params).em.sample = em.sample := by
  unfold Manager.Publish
  cases checkName name with
  | error msg => rfl
  | ok nm =>
    simp only
    by_cases hnf : em.notFound nm = true
    · simp only [hnf, if_true]
    · simp only [hnf, if_false]
      unfold Manager.publishFound
      cases GoMap.get em.events nm with
      | none => exact publish_sample S em _
      | some e => exact publish_sample S em _

theorem Reachable.sample {S : GoSort} {em : Manager} (h : Reachable S em) :
    em.sample = { name := "", data := none, aborted := false } := by
  induction h with
  | newManager name => rfl
  | listen name listener priority _ ih =>
    exact (addListenerItem_sample _ name _).trans ih
  | subscribe sbr _ ih => exact (subscribe_sample sbr _).trans ih
  | addEvent e _ ih =>
    unfold Manager.AddEvent
    split
    · exact ih
    · exact ih
  | removeEvent name _ ih =>
    unfold Manager.RemoveEvent
    split
    · exact ih
    · exact ih
  | removeEvents _ ih => exact ih
  | removeListener name listener _ ih =>
    unfold Manager.RemoveListener
    split
    · split
      · exact (removeFrom_sample _ _ _ _).trans ih
      · exact ih
    · exact (removeFromAll_sample _ _ _).trans ih
  | removeListeners name _ ih =>
    unfold Manager.RemoveListeners
    split
    · split
      · exact ih
      · exact ih
    · exact ih
  | reset _ ih => exact ih
  | publish name params _ ih => exact (Publish_sample S _ name params).trans ih
  | dispatch e _ ih => exact (publish_sample S _ e).trans ih
  | enableLock b _ ih => exact ih

theorem resolved_data (em : Manager) (N : String) (params : M)
    (hs : em.sample = { name := "", data := none, aborted := false })
    (h : params ≠ none ∨ GoMap.get em.events N = none) :
    ((resolved em N params).Abort false).Data = params := by
  unfold resolved Manager.copyBasicEvent
  cases hg : GoMap.get em.events N with
  | none =>
    rw [hs]
    cases params <;> rfl
  | some P =>
    cases params with
    | none =>
      rcases h with h | h
      · exact absurd rfl h
      · rw [hg] at h
        cases h
    | some d => rfl

theorem Publish_names (S : GoSort) (em : Manager) (raw N : String) (params : M)
    (hN : checkName raw = Except.ok N) :
    ∀ c ∈ (em.Publish S raw params).trace, c.arg.name = (resolved em N params).name := by
  by_cases hnf : em.notFound N = true
  · rw [Publish_not_found S em raw N params hN hnf]
    simp
  · rw [Publish_found S em raw N params hN (by simpa using hnf),
      (publishFound_eq S em N params).1]
    exact publish_names S em _

theorem Publish_head (S : GoSort) (em : Manager) (raw N : String) (params : M)
    (hN : checkName raw = Except.ok N) :
    ∀ c, (em.Publish S raw params).trace.head? = some c →
      c.arg = (resolved em N params).Abort false := by
  by_cases hnf : em.notFound N = true
  · rw [Publish_not_found S em raw N params hN hnf]
    simp
  · rw [Publish_found S em raw N params hN (by simpa using hnf),
      (publishFound_eq S em N params).1]
    exact publish_head S em _

/-- The registry `NewManager(nm)` after one successful `Listen`. -/
theorem listen_first (nm raw N : String) (h : IListener) (priority : List Int)
    (hN : checkName raw = Except.ok N) :
    ∃ pv : Int, ((NewManager nm).Listen raw (some h) priority).em =
      { EnableLock := false
        name := nm
        sample := { name := "", data := none, aborted := false }
        events := []
        listeners := [(N, { items := [{ Priority := pv, Listener := some h }] })]
        listenedNames := [(N, 1)] } := by
  have hraw : raw ≠ Wildcard := by
    intro hw
    rw [hw] at hN
    obtain ⟨h1, _, h3⟩ := checkName_ok hN
    have h4 : TrimSpace Wildcard = "*" := by decide
    rw [h1, h4] at h3
    exact absurd h3 (by decide)
  refine ⟨(match priority with
    | [] => Normal
    | p :: _ => p), ?_⟩
  unfold Manager.Listen Manager.addListenerItem
  simp only [hraw, ne_eq, not_false_eq_true, if_true, hN]
  simp [NewManager, GoMap.get, GoMap.set, ListenerQueue.Push]

/-- A validated name that is its own group pattern ends in `.*`. -/
theorem ends_dot_star (N : String) (hpos : 0 ≤ lastIndexByte N '.')
    (h : sliceTo N (lastIndexByte N '.' + 1) ++ Wildcard = N) : ∃ p : String, N = p ++ ".*" := by
  unfold lastIndexByte at hpos h
  rcases lastIndexByteAux_spec '.' N.data with ⟨h1, _⟩ | ⟨pre, post, h1, h2, _⟩
  · rw [h1] at hpos
    omega
  · refine ⟨String.mk pre, ?_⟩
    rw [← h]
    apply String.ext
    rw [h2]
    simp only [String.data_append, sliceTo]
    have : ((pre.length : Int) + 1).toNat = pre.length + 1 := by omega
    rw [this, h1, List.take_append_eq_append_take]
    simp [Wildcard]

/-- A dispatch on a registry holding one queue, under `N`, with a single quiet
listener, when `N` is not its own group pattern. -/
theorem publish_single (S : GoSort) (N : String) (li : ListenerItem) (h : IListener)
    (hli : li.Listener = some h) (hN : N ≠ Wildcard)
    (hnotpat : ¬ ∃ p : String, N = p ++ ".*")
    (hh : ∀ e, (h.Handle e).err = none ∧ (e.aborted = false → (h.Handle e).aborted = false))
    (em : Manager) (hem : em.listeners = [(N, { items := [li] })])
    (e : BasicEvent) (he : e.name = N) :
    (em.publish S e).trace = [{ li := li, arg := e.Abort false }] ∧
    (em.publish S e).em = em ∧ (em.publish S e).err = none ∧ (em.publish S e).panic = none := by
  have hsort : (ListenerQueue.SortQ S { items := [li] }) = { items := [li] } := by
    simp [ListenerQueue.SortQ, IsSorted]
  have hq := hh (e.Abort false)
  have hset : GoMap.set em.listeners N { items := [li] } = em.listeners := by
    rw [hem]
    simp [GoMap.set]
  have hp1 : ∀ d0 : Dispatch,
      d0 = { em := em, e := e.Abort false, err := none, trace := [], panic := none } →
      (Manager.runQueue S N d0).2 = false ∧
      (Manager.runQueue S N d0).1.trace = [{ li := li, arg := e.Abort false }] ∧
      (Manager.runQueue S N d0).1.em = em ∧
      (Manager.runQueue S N d0).1.err = none ∧
      (Manager.runQueue S N d0).1.panic = none := by
    intro d0 hd0
    subst hd0
    have hg : GoMap.get em.listeners N = some { items := [li] } := by
      rw [hem]
      simp [GoMap.get]
    simp [Manager.runQueue, hg, hsort, hset, ListenerQueue.Items, callListeners, hli,
      hq.1, hq.2 rfl, BasicEvent.IsAborted]
  have hother : ∀ (k : String) (d : Dispatch), k ≠ N →
      d.em = em → Manager.runQueue S k d = (d, false) := by
    intro k d hk hd
    have hg : GoMap.get d.em.listeners k = none := by
      rw [hd, hem]
      simp [GoMap.get, hk]
    simp [Manager.runQueue, hg]
  unfold Manager.publish
  have hname : (e.Abort false).Name = N := he
  simp only [hname]
  obtain ⟨h1, h2, h3, h4, h5⟩ := hp1 _ rfl
  generalize Manager.runQueue S N
    { em := em, e := e.Abort false, err := none, trace := [], panic := none } = p1 at h1 h2 h3 h4 h5
  simp only [h1, Bool.false_eq_true, if_false]
  by_cases hc : lastIndexByte N '.' > 0 ∧ lastIndexByte N '.' < (N.length : Int)
  · simp only [hc, and_self, if_true]
    rw [hother _ p1.1 (fun hg => hnotpat (ends_dot_star N (by omega) hg)) h3]
    simp only [Bool.false_eq_true, if_false]
    rw [hother Wildcard p1.1 (fun hw => hN hw.symm) h3]
    exact ⟨h2, h3, h4, h5⟩
  · simp only [hc, if_false, Bool.false_eq_true]
    rw [hother Wildcard p1.1 (fun hw => hN hw.symm) h3]
    exact ⟨h2, h3, h4, h5⟩

/-! ## Lemmas on `RemoveListener` -/

theorem GoMap.set_get_self {α : Type} (m : GoMap α) (k : String) (v : α)
    (h : GoMap.get m k = some v) : GoMap.set m k v = m := by
  induction m with
  | nil => simp [GoMap.get] at h
  | cons p m ih =>
    obtain ⟨a, x⟩ := p
    by_cases hk : k = a
    · subst hk
      simp only [GoMap.get, if_true, Option.some.injEq] at h
      simp [GoMap.set, h]
    · simp only [GoMap.get, hk, if_false] at h
      simp [GoMap.set, hk, ih h]

theorem GoMap.del_set {α : Type} (m : GoMap α) (k : String) (v : α) :
    GoMap.del (GoMap.set m k v) k = GoMap.del m k := by
  induction m with
  | nil => simp [GoMap.set, GoMap.del]
  | cons p m ih =>
    obtain ⟨a, x⟩ := p
    by_cases ha : k = a
    · simp [GoMap.set, GoMap.del, ha]
    · simp [GoMap.set, GoMap.del, ha, ih]

theorem GoMap.mem_keys_of_get {α : Type} (m : GoMap α) (k : String) (v : α)
    (h : GoMap.get m k = some v) : k ∈ GoMap.keys m := by
  induction m with
  | nil => simp [GoMap.get] at h
  | cons p m ih =>
    obtain ⟨a, x⟩ := p
    by_cases hk : k = a
    · simp [GoMap.keys, hk]
    · simp only [GoMap.get, hk, if_false] at h
      have := ih h
      simp only [GoMap.keys, List.map_cons, List.mem_cons] at this ⊢
      exact Or.inr this

theorem Remove_idem (lq : ListenerQueue) (listener : Option IListener) :
    (lq.Remove listener).Remove listener = lq.Remove listener := by
  cases listener with
  | none => rfl
  | some l => simp [ListenerQueue.Remove, List.filter_filter]

theorem afterRemove_idem (listener : Option IListener) (o : Option ListenerQueue) :
    afterRemove listener (afterRemove listener o) = afterRemove listener o := by
  cases o with
  | none => rfl
  | some q =>
    unfold afterRemove
    by_cases he : (q.Remove listener).IsEmpty = true
    · simp [he]
    · simp only [he, if_false, Remove_idem, Bool.false_eq_true]

theorem removeFrom_get (em : Manager) (name : String) (lq : ListenerQueue)
    (listener : Option IListener) (hg : GoMap.get em.listeners name = some lq) (k : String) :
    GoMap.get (em.removeFrom name lq listener).listeners k =
      if k = name then afterRemove listener (GoMap.get em.listeners name)
      else GoMap.get em.listeners k := by
  unfold Manager.removeFrom
  simp only [hg, afterRemove]
  by_cases he : (lq.Remove listener).IsEmpty = true
  · simp only [he, if_true]
    rw [GoMap.del_set, GoMap.get_del]
  · simp only [he, if_false, Bool.false_eq_true]
    rw [GoMap.get_set]

theorem removeFrom_events (em : Manager) (name : String) (lq : ListenerQueue)
    (listener : Option IListener) : (em.removeFrom name lq listener).events = em.events := by
  unfold Manager.removeFrom
  simp only
  split <;> rfl

theorem removeFromAll_events (listener : Option IListener) (keys : List String) (em : Manager) :
    (Manager.removeFromAll listener keys em).events = em.events := by
  induction keys generalizing em with
  | nil => rfl
  | cons k rest ih =>
    unfold Manager.removeFromAll
    split
    · rw [ih, removeFrom_events]
    · exact ih em

theorem removeFromAll_get (listener : Option IListener) (keys : List String) (em : Manager)
    (k : String) :
    GoMap.get (Manager.removeFromAll listener keys em).listeners k =
      if k ∈ keys then afterRemove listener (GoMap.get em.listeners k)
      else GoMap.get em.listeners k := by
  induction keys generalizing em with
  | nil => simp [Manager.removeFromAll]
  | cons k0 rest ih =>
    unfold Manager.removeFromAll
    cases hg : GoMap.get em.listeners k0 with
    | none =>
      simp only
      rw [ih em]
      by_cases hk : k = k0
      · subst hk
        by_cases hr : k ∈ rest
        · simp [hr]
        · simp [hr, hg, afterRemove]
      · simp [hk]
    | some lq =>
      simp only
      rw [ih (em.removeFrom k0 lq listener), removeFrom_get em k0 lq listener hg k]
      by_cases hk : k = k0
      · subst hk
        by_cases hr : k ∈ rest
        · simp [hr, afterRemove_idem]
        · simp [hr]
      · simp [hk]

theorem RemoveListener_get (em : Manager) (name : String) (listener : Option IListener)
    (k : String) :
    GoMap.get (em.RemoveListener name listener).listeners k =
      if name = "" ∨ k = name then afterRemove listener (GoMap.get em.listeners k)
      else GoMap.get em.listeners k := by
  unfold Manager.RemoveListener
  by_cases hn : name = ""
  · simp only [hn, ne_eq, not_true_eq_false, if_false, true_or, if_true]
    rw [removeFromAll_get]
    by_cases hk : k ∈ GoMap.keys em.listeners
    · simp [hk]
    · simp only [hk, if_false]
      cases hg : GoMap.get em.listeners k with
      | none => rfl
      | some q => exact absurd (GoMap.mem_keys_of_get _ k q hg) hk
  · simp only [ne_eq, hn, not_false_eq_true, if_true, false_or]
    cases hg : GoMap.get em.listeners name with
    | none =>
      simp only
      by_cases hk : k = name
      · subst hk
        simp [hg, afterRemove]
      · simp [hk]
    | some lq =>
      simp only
      rw [removeFrom_get em name lq listener hg k]
      by_cases hk : k = name
      · subst hk
        simp [hg]
      · simp [hk]

theorem Remove_items (q : ListenerQueue) (h : IListener) :
    (q.Remove (some h)).items =
      q.items.filter (fun li => decide (li.Listener.map IListener.ptr ≠ some h.ptr)) := by
  show q.items.filter (fun li => !(decide (li.Listener.map IListener.ptr = some h.ptr))) = _
  congr 1
  funext li
  simp only [ne_eq, decide_not]

theorem RemoveListener_target (em : Manager) (name : String) (h : IListener) (k : String)
    (q : ListenerQueue) (hq : GoMap.get em.listeners k = some q) (hk : name = "" ∨ k = name) :
    GoMap.get (em.RemoveListener name (some h)).listeners k =
      if (q.items.filter
          (fun li => decide (li.Listener.map IListener.ptr ≠ some h.ptr))).isEmpty then none
      else some (ListenerQueue.mk (q.items.filter
          (fun li => decide (li.Listener.map IListener.ptr ≠ some h.ptr)))) := by
  rw [RemoveListener_get, if_pos hk, hq]
  simp only [afterRemove, ListenerQueue.IsEmpty]
  have hf := Remove_items q h
  generalize q.items.filter
    (fun li => decide (li.Listener.map IListener.ptr ≠ some h.ptr)) = rest at hf ⊢
  have hR : q.Remove (some h) = { items := rest } := by
    cases hr2 : q.Remove (some h) with
    | mk items =>
      rw [hr2] at hf
      simp only at hf
      rw [hf]
  rw [hR]
  cases rest with
  | nil => simp
  | cons a b => simp

theorem RemoveListener_events (em : Manager) (name : String) (listener : Option IListener) :
    (em.RemoveListener name listener).events = em.events := by
  unfold Manager.RemoveListener
  split
  · split
    · exact removeFrom_events _ _ _ _
    · rfl
  · exact removeFromAll_events _ _ _

theorem removeFrom_nil (em : Manager) (name : String) (lq : ListenerQueue) (hok : em.OK)
    (hg : GoMap.get em.listeners name = some lq) : em.removeFrom name lq none = em := by
  have hne : lq.IsEmpty = false := by
    have := hok.nonempty name lq hg
    cases hl : lq.items with
    | nil => exact absurd hl this
    | cons a b => simp [ListenerQueue.IsEmpty, hl]
  unfold Manager.removeFrom
  simp only [ListenerQueue.Remove, hne, GoMap.set_get_self _ _ _ hg, Bool.false_eq_true, if_false]

theorem removeFromAll_nil (keys : List String) (em : Manager) (hok : em.OK) :
    Manager.removeFromAll none keys em = em := by
  induction keys with
  | nil => rfl
  | cons k rest ih =>
    unfold Manager.removeFromAll
    cases hg : GoMap.get em.listeners k with
    | none => exact ih
    | some lq =>
      simp only
      rw [removeFrom_nil em k lq hok hg]
      exact ih

theorem RemoveListener_nil (em : Manager) (name : String) (hok : em.OK) :
    em.RemoveListener name none = em := by
  unfold Manager.RemoveListener
  split
  · cases hg : GoMap.get em.listeners name with
    | none => rfl
    | some lq => exact removeFrom_nil em name lq hok hg
  · exact removeFromAll_nil _ em hok

/-! ## Lemmas on `Listen` -/

/-- The name under which `addListenerItem` registers: the name itself when it
is `*`, the validated name otherwise; `none` when validation panics. -/
theorem addListenerItem_cases (em : Manager) (name : String) (li : ListenerItem) :
    ((∃ msg, (em.addListenerItem name li).panic = some msg) ∧
      (em.addListenerItem name li).em = em ∧
      (li.Listener = none ∨ (name ≠ Wildcard ∧ ∀ N, checkName name ≠ Except.ok N))) ∨
    ((em.addListenerItem name li).panic = none ∧ li.Listener ≠ none ∧
      (name = Wildcard ∨ ∃ N, checkName name = Except.ok N) ∧
      ∃ key, key = (if name = Wildcard then Wildcard else TrimSpace name) ∧
        GoMap.get (em.addListenerItem name li).em.listeners key =
          some { items := (match GoMap.get em.listeners key with
                           | some q => q.items
                           | none => []) ++ [li] } ∧
        (∀ k, k ≠ key →
          GoMap.get (em.addListenerItem name li).em.listeners k = GoMap.get em.listeners k) ∧
        (∀ k, k ≠ key → (em.addListenerItem name li).em.HasListeners k = em.HasListeners k) ∧
        (em.addListenerItem name li).em.events = em.events) := by
  unfold Manager.addListenerItem
  by_cases hw : name = Wildcard
  · subst hw
    simp only [ne_eq, not_true_eq_false, if_false]
    cases hl : li.Listener with
    | none => exact Or.inl ⟨⟨_, rfl⟩, rfl, Or.inl rfl⟩
    | some l =>
      refine Or.inr ?_
      simp only [if_true]
      cases hg : GoMap.get em.listeners Wildcard with
      | some lq =>
        refine ⟨rfl, by simp, Or.inl trivial, Wildcard, rfl, ?_, ?_, ?_, rfl⟩
        · simp [GoMap.get_set, ListenerQueue.Push, hg]
        · intro k hk
          simp [GoMap.get_set, hk]
        · intro k hk
          rfl
      | none =>
        refine ⟨rfl, by simp, Or.inl trivial, Wildcard, rfl, ?_, ?_, ?_, rfl⟩
        · simp [GoMap.get_set, ListenerQueue.Push, hg]
        · intro k hk
          simp [GoMap.get_set, hk]
        · intro k hk
          simp [Manager.HasListeners, GoMap.has_set, hk]
  · simp only [ne_eq, hw, not_false_eq_true, if_true, if_false]
    cases hc : checkName name with
    | error msg =>
      refine Or.inl ⟨⟨_, rfl⟩, rfl, Or.inr ⟨trivial, ?_⟩⟩
      intro N hN
      cases hN
    | ok N =>
      have hN : N = TrimSpace name := (checkName_ok hc).1
      cases hl : li.Listener with
      | none => exact Or.inl ⟨⟨_, rfl⟩, rfl, Or.inl rfl⟩
      | some l =>
        refine Or.inr ?_
        simp only
        rw [← hN]
        cases hg : GoMap.get em.listeners N with
        | some lq =>
          refine ⟨rfl, by simp, Or.inr ⟨N, rfl⟩, N, rfl, ?_, ?_, ?_, rfl⟩
          · simp [GoMap.get_set, ListenerQueue.Push, hg]
          · intro k hk
            simp [GoMap.get_set, hk]
          · intro k hk
            rfl
        | none =>
          refine ⟨rfl, by simp, Or.inr ⟨N, rfl⟩, N, rfl, ?_, ?_, ?_, rfl⟩
          · simp [GoMap.get_set, ListenerQueue.Push, hg]
          · intro k hk
            simp [GoMap.get_set, hk]
          · intro k hk
            simp [Manager.HasListeners, GoMap.has_set, hk]

/-! ## Lemmas on the event handed to the listeners -/

theorem notFound_false_of (em : Manager) (N : String)
    (h : em.HasListeners N = true ∨ em.HasListeners Wildcard = true ∨
      (0 ≤ lastIndexByte N '.' ∧ lastIndexByte N '.' ≠ (N.length : Int) - 1 ∧
        em.HasListeners (sliceTo N (lastIndexByte N '.' + 1) ++ Wildcard) = true)) :
    em.notFound N = false := by
  unfold Manager.notFound
  rcases h with h | h | ⟨h1, h2, h3⟩
  · simp [h]
  · simp [h]
  · by_cases hc : em.HasListeners N == false && em.HasListeners Wildcard == false
    · simp only [hc, if_true]
      have : ¬ (lastIndexByte N '.' < 0 ∨ lastIndexByte N '.' = (N.length : Int) - 1) := by
        omega
      simp [this, h3]
    · rw [if_neg hc]

theorem Publish_proto (S : GoSort) (em : Manager) (raw N : String) (P : BasicEvent) (D : GoMap Val)
    (hN : checkName raw = Except.ok N) (hP : GoMap.get em.events N = some P)
    (hnf : em.notFound N = false) :
    em.Publish S raw (some D) =
      { em := { (em.publish S (P.SetData (some D))).em with
                events := GoMap.set (em.publish S (P.SetData (some D))).em.events N
                  (em.publish S (P.SetData (some D))).e }
        err := (em.publish S (P.SetData (some D))).err
        e := some (em.publish S (P.SetData (some D))).e
        trace := (em.publish S (P.SetData (some D))).trace
        panic := (em.publish S (P.SetData (some D))).panic } := by
  rw [Publish_found S em raw N (some D) hN hnf]
  unfold Manager.publishFound
  simp only [hP]

theorem publish_ename (S : GoSort) (em : Manager) (e : BasicEvent) :
    (em.publish S e).e.name = e.name := by
  obtain ⟨ret, hinv⟩ := publish_inv S em e
  exact hinv.ename

/-! ## Lemmas on BatchPublish -/

theorem collect_frame {n : Nat} (st : Batch n) :
    (Manager.collect st).em = st.em ∧ (Manager.collect st).insts = st.insts ∧
    (Manager.collect st).err = st.err ∧
    (Manager.collect st).published = st.published ∧ (Manager.collect st).trace = st.trace ∧
    (Manager.collect st).panic = st.panic ∧
    (Manager.collect st).ers = st.ers ++ ([st.err].filterMap id) := by
  unfold Manager.collect
  cases h : st.err with
  | none => simp [h]
  | some x => simp [h]

/-- Two runs of the loop from states that agree on the registry, on the
instances and on `err` end in the same registry, instances, `err` and panic,
and add the same entries to `ers`, `published` and `trace`. -/
theorem batchLoop_suffix {n : Nat} (S : GoSort) (es : List (BatchItem n)) :
    ∀ st1 st2 : Batch n, st1.em = st2.em → st1.insts = st2.insts → st1.err = st2.err →
      st1.panic = st2.panic →
      (Manager.batchLoop S es st1).em = (Manager.batchLoop S es st2).em ∧
      (Manager.batchLoop S es st1).insts = (Manager.batchLoop S es st2).insts ∧
      (Manager.batchLoop S es st1).err = (Manager.batchLoop S es st2).err ∧
      (Manager.batchLoop S es st1).panic = (Manager.batchLoop S es st2).panic ∧
      ∃ x y z,
        (Manager.batchLoop S es st1).ers = st1.ers ++ x ∧
        (Manager.batchLoop S es st2).ers = st2.ers ++ x ∧
        (Manager.batchLoop S es st1).published = st1.published ++ y ∧
        (Manager.batchLoop S es st2).published = st2.published ++ y ∧
        (Manager.batchLoop S es st1).trace = st1.trace ++ z ∧
        (Manager.batchLoop S es st2).trace = st2.trace ++ z := by
  induction es with
  | nil =>
    intro st1 st2 hem hin herr hp
    exact ⟨hem, hin, herr, hp, [], [], [], by simp [Manager.batchLoop]⟩
  | cons item rest ih =>
    intro st1 st2 hem hin herr hp
    simp only [Manager.batchLoop]
    rw [hem, hin]
    cases hpi : Manager.publishItem S st2.em st2.insts item with
    | none =>
      simp only
      have h := ih (Manager.collect st1) (Manager.collect st2)
        (by simp [collect_frame, hem]) (by simp [collect_frame, hin])
        (by simp [collect_frame, herr]) (by simp [collect_frame, hp])
      obtain ⟨h1, h2, h3, h4, x, y, z, hx1, hx2, hy1, hy2, hz1, hz2⟩ := h
      refine ⟨h1, h2, h3, h4, [st2.err].filterMap id ++ x, y, z, ?_⟩
      rw [hx1, hx2, hy1, hy2, hz1, hz2]
      simp [collect_frame, herr]
    | some o =>
      simp only
      cases hpan : o.panic with
      | some msg =>
        exact ⟨rfl, rfl, herr, rfl, [], [], o.trace, by simp⟩
      | none =>
        simp only
        have h := ih
          (Manager.collect { st1 with em := o.em, insts := o.insts, err := o.err,
                                      published := st1.published ++ [o.err],
                                      trace := st1.trace ++ o.trace })
          (Manager.collect { st2 with em := o.em, insts := o.insts, err := o.err,
                                      published := st2.published ++ [o.err],
                                      trace := st2.trace ++ o.trace })
          (by simp [collect_frame]) (by simp [collect_frame]) (by simp [collect_frame])
          (by simp [collect_frame, hp])
        obtain ⟨h1, h2, h3, h4, x, y, z, hx1, hx2, hy1, hy2, hz1, hz2⟩ := h
        refine ⟨h1, h2, h3, h4, [o.err].filterMap id ++ x, [o.err] ++ y, o.trace ++ z, ?_⟩
        rw [hx1, hx2, hy1, hy2, hz1, hz2]
        simp [collect_frame]

theorem Publish_no_panic (S : GoSort) (em : Manager) (raw N : String) (params : M) (hok : em.OK)
    (hN : checkName raw = Except.ok N) : (em.Publish S raw params).panic = none := by
  unfold Manager.Publish
  rw [hN]
  simp only
  by_cases hnf : em.notFound N = true
  · simp only [hnf, if_true]
  · simp only [hnf, if_false]
    unfold Manager.publishFound
    cases GoMap.get em.events N with
    | none => exact publish_no_panic S em _ hok
    | some e => exact publish_no_panic S em _ hok

theorem publish_events (S : GoSort) (em : Manager) (e : BasicEvent) :
    (em.publish S e).em.events = em.events := by
  obtain ⟨ret, hinv⟩ := publish_inv S em e
  exact hinv.frame.1

/-- `Publish` leaves the keys of `events` as they are. -/
theorem Publish_events_keys (S : GoSort) (em : Manager) (raw : String) (params : M)
    (k : String) :
    (GoMap.get (em.Publish S raw params).em.events k).isSome = (GoMap.get em.events k).isSome := by
  cases hck : checkName raw with
  | error msg =>
    unfold Manager.Publish
    rw [hck]
  | ok N =>
    cases hnf : em.notFound N with
    | true => rw [Publish_not_found S em raw N params hck hnf]
    | false =>
      rw [Publish_found S em raw N params hck hnf]
      unfold Manager.publishFound
      cases hg : GoMap.get em.events N with
      | none =>
        simp only
        rw [publish_events]
      | some P =>
        simp only
        rw [GoMap.get_set, publish_events]
        by_cases hk : k = N
        · simp [hk, hg]
        · simp [hk]

theorem valid_congr {n : Nat} (em em2 : Manager)
    (h : ∀ k, (GoMap.get em2.events k).isSome = (GoMap.get em.events k).isSome)
    (item : BatchItem n) : item.valid em2 = item.valid em := by
  cases item with
  | name s => rfl
  | inst i => rfl
  | stored key => exact h key
  | other => rfl

/-- On a registry whose tables are in step, an item that is a valid name or an
event instance is published, without panic, and the publish leaves the tables
in step and the keys of `events` as they are. -/
theorem publishItem_valid {n : Nat} (S : GoSort) (em : Manager) (insts : Fin n → BasicEvent)
    (item : BatchItem n) (hok : em.OK) (hv : item.valid em = true) :
    ∃ o, Manager.publishItem S em insts item = some o ∧ o.panic = none ∧ o.em.OK ∧
      ∀ k, (GoMap.get o.em.events k).isSome = (GoMap.get em.events k).isSome := by
  cases item with
  | name s =>
    unfold BatchItem.valid at hv
    cases hck : checkName s with
    | error msg => simp [hck] at hv
    | ok N =>
      exact ⟨_, rfl, Publish_no_panic S em s N none hok hck, Publish_ok S em s none hok,
        fun k => Publish_events_keys S em s none k⟩
  | inst i =>
    refine ⟨_, rfl, publish_no_panic S em (insts i) hok, publish_ok S em (insts i) hok, ?_⟩
    intro k
    show (GoMap.get (em.publish S (insts i)).em.events k).isSome = _
    rw [publish_events]
  | stored key =>
    unfold BatchItem.valid at hv
    cases hg : GoMap.get em.events key with
    | none => simp [hg] at hv
    | some P =>
      refine ⟨{ em := { (em.publish S P).em with
                        events := GoMap.set (em.publish S P).em.events key (em.publish S P).e }
                insts := insts
                err := (em.publish S P).err
                trace := (em.publish S P).trace
                panic := (em.publish S P).panic }, ?_, publish_no_panic S em P hok,
        publish_ok S em P hok, ?_⟩
      · simp [Manager.publishItem, hg]
      · intro k
        show (GoMap.get (GoMap.set (em.publish S P).em.events key (em.publish S P).e) k).isSome
          = _
        rw [GoMap.get_set, publish_events]
        by_cases hk : k = key
        · simp [hk, hg]
        · simp [hk]
  | other =>
    simp [BatchItem.valid] at hv

/-- On items that are all published, the value of `err` at the start of the loop
is overwritten before it is read. -/
theorem batchLoop_err {n : Nat} (S : GoSort) (es : List (BatchItem n)) (st : Batch n)
    (hok : st.em.OK) (hv : ∀ item ∈ es, item.valid st.em = true) (err0 : Option String) :
    (Manager.batchLoop S es { st with err := err0 }).em = (Manager.batchLoop S es st).em ∧
    (Manager.batchLoop S es { st with err := err0 }).insts = (Manager.batchLoop S es st).insts ∧
    (Manager.batchLoop S es { st with err := err0 }).panic = (Manager.batchLoop S es st).panic ∧
    (Manager.batchLoop S es { st with err := err0 }).ers = (Manager.batchLoop S es st).ers ∧
    (Manager.batchLoop S es { st with err := err0 }).published =
      (Manager.batchLoop S es st).published ∧
    (Manager.batchLoop S es { st with err := err0 }).trace = (Manager.batchLoop S es st).trace := by
  cases es with
  | nil => simp [Manager.batchLoop]
  | cons item rest =>
    obtain ⟨o, ho, hpan, _, _⟩ :=
      publishItem_valid S st.em st.insts item hok (hv item (List.mem_cons_self _ _))
    simp only [Manager.batchLoop, ho, hpan, and_self]

/-- The rest of the loop after a publish that returned `e1` with the
invocations `tr` and left the registry `em1` and the instances `insts1` is a
`BatchPublish` of the remaining items on them. -/
theorem batchLoop_step {n : Nat} (S : GoSort) (rest : List (BatchItem n)) (em1 : Manager)
    (insts1 : Fin n → BasicEvent) (e1 : Option String) (tr : List Call) (hok : em1.OK)
    (hv : ∀ item ∈ rest, item.valid em1 = true) :
    (Manager.batchLoop S rest (Manager.collect (Batch.mk em1 insts1 e1 [] [e1] tr none))).em =
      (em1.BatchPublish S insts1 rest).em ∧
    (Manager.batchLoop S rest (Manager.collect (Batch.mk em1 insts1 e1 [] [e1] tr none))).insts =
      (em1.BatchPublish S insts1 rest).insts ∧
    (Manager.batchLoop S rest (Manager.collect (Batch.mk em1 insts1 e1 [] [e1] tr none))).panic =
      (em1.BatchPublish S insts1 rest).panic ∧
    (Manager.batchLoop S rest (Manager.collect (Batch.mk em1 insts1 e1 [] [e1] tr none))).ers =
      [e1].filterMap id ++ (em1.BatchPublish S insts1 rest).ers ∧
    (Manager.batchLoop S rest
        (Manager.collect (Batch.mk em1 insts1 e1 [] [e1] tr none))).published =
      e1 :: (em1.BatchPublish S insts1 rest).published ∧
    (Manager.batchLoop S rest (Manager.collect (Batch.mk em1 insts1 e1 [] [e1] tr none))).trace =
      tr ++ (em1.BatchPublish S insts1 rest).trace := by
  obtain ⟨h1, h2, _, h4, x, y, z, hx1, hx2, hy1, hy2, hz1, hz2⟩ :=
    batchLoop_suffix S rest (Manager.collect (Batch.mk em1 insts1 e1 [] [e1] tr none))
      (Batch.mk em1 insts1 e1 [] [] [] none) (by simp [collect_frame])
      (by simp [collect_frame]) (by simp [collect_frame]) (by simp [collect_frame])
  obtain ⟨k1, k2, k3, k4, k5, k6⟩ :=
    batchLoop_err S rest (Batch.mk em1 insts1 none [] [] [] none) hok hv e1
  simp only [List.nil_append] at hx2 hy2 hz2
  unfold Manager.BatchPublish
  rw [← k1, ← k2, ← k3, ← k4, ← k5, ← k6, h1, h2, h4, hx1, hy1, hz1, ← hx2, ← hy2, ← hz2]
  simp [collect_frame]

theorem BatchPublish_nil {n : Nat} (S : GoSort) (em : Manager) (insts : Fin n → BasicEvent) :
    em.BatchPublish S insts [] =
      { em := em, insts := insts, err := none, ers := [], published := [], trace := [],
        panic := none } := rfl

/-- A batch whose first item is published without panic: the remaining items
are a batch on what that publish leaves. -/
theorem BatchPublish_cons {n : Nat} (S : GoSort) (em : Manager) (insts : Fin n → BasicEvent)
    (item : BatchItem n) (rest : List (BatchItem n)) (o : ItemResult n)
    (ho : Manager.publishItem S em insts item = some o) (hpan : o.panic = none)
    (hok : o.em.OK) (hv : ∀ i ∈ rest, i.valid o.em = true) :
    (em.BatchPublish S insts (item :: rest)).em = (o.em.BatchPublish S o.insts rest).em ∧
    (em.BatchPublish S insts (item :: rest)).insts = (o.em.BatchPublish S o.insts rest).insts ∧
    (em.BatchPublish S insts (item :: rest)).panic = (o.em.BatchPublish S o.insts rest).panic ∧
    (em.BatchPublish S insts (item :: rest)).ers =
      [o.err].filterMap id ++ (o.em.BatchPublish S o.insts rest).ers ∧
    (em.BatchPublish S insts (item :: rest)).published =
      o.err :: (o.em.BatchPublish S o.insts rest).published ∧
    (em.BatchPublish S insts (item :: rest)).trace =
      o.trace ++ (o.em.BatchPublish S o.insts rest).trace := by
  have h := batchLoop_step S rest o.em o.insts o.err o.trace hok hv
  have e : em.BatchPublish S insts (item :: rest) =
      Manager.batchLoop S rest
        (Manager.collect (Batch.mk o.em o.insts o.err [] [o.err] o.trace none)) := by
    unfold Manager.BatchPublish
    simp only [Manager.batchLoop, ho, hpan, List.nil_append]
  rw [e]
  exact h

/-- On a registry whose tables are in step, a batch of published items runs to
its end: no panic, one publish per item, and `ers` holds the non-nil errors of
the publishes, in order. -/
theorem BatchPublish_valid {n : Nat} (S : GoSort) (es : List (BatchItem n)) :
    ∀ (em : Manager) (insts : Fin n → BasicEvent), em.OK →
      (∀ item ∈ es, item.valid em = true) →
      (em.BatchPublish S insts es).panic = none ∧
      (em.BatchPublish S insts es).published.length = es.length ∧
      (em.BatchPublish S insts es).ers = (em.BatchPublish S insts es).published.filterMap id := by
  induction es with
  | nil =>
    intro em insts _ _
    rw [BatchPublish_nil]
    exact ⟨rfl, rfl, rfl⟩
  | cons item rest ih =>
    intro em insts hok hv
    obtain ⟨o, ho, hpan, hok2, hkeys⟩ :=
      publishItem_valid S em insts item hok (hv item (List.mem_cons_self _ _))
    have hrest : ∀ i ∈ rest, i.valid o.em = true := by
      intro i hi
      rw [valid_congr em o.em hkeys i]
      exact hv i (List.mem_cons_of_mem _ hi)
    obtain ⟨_, _, h3, h4, h5, _⟩ := BatchPublish_cons S em insts item rest o ho hpan hok2 hrest
    obtain ⟨i1, i2, i3⟩ := ih o.em o.insts hok2 hrest
    rw [h3, h4, h5]
    refine ⟨i1, by simp [i2], ?_⟩
    rw [i3]
    cases o.err <;> simp

theorem length_filterMap_id (l : List (Option String)) :
    (l.filterMap id).length = (l.filter (fun x => x.isSome)).length := by
  induction l with
  | nil => rfl
  | cons a rest ih => cases a <;> simp [ih]

/-! ## Lemmas on queues that are already sorted -/

theorem SortQ_of_sorted (S : GoSort) (q : ListenerQueue) (h : IsSorted q.items = true) :
    q.SortQ S = q := by
  simp [ListenerQueue.SortQ, h]

theorem isSorted_of_equal (l : List ListenerItem)
    (h : ∀ a ∈ l, ∀ b ∈ l, a.Priority = b.Priority) : IsSorted l = true := by
  rw [isSorted_iff_pairwise]
  exact List.pairwise_of_forall_mem_list (fun a ha b hb => le_of_eq (h b hb a ha))

theorem publish_exact_first (S : GoSort) (em : Manager) (e : BasicEvent) (q : ListenerQueue)
    (hok : em.OK) (hq : GoMap.get em.listeners e.name = some q)
    (hs : IsSorted q.items = true)
    (hquiet : ∀ c ∈ (em.publish S e).trace, c.err = none ∧ c.aborts = false) :
    q.items <+: (em.publish S e).trace.map Call.li := by
  rw [publish_complete S em e hok hquiet]
  have h1 : sortedItems S em e.name = q.items := by
    simp only [sortedItems, hq]
    rw [SortQ_of_sorted S q hs]
  simp only [dispatchKeys, List.map_append, List.map_cons, List.map_nil, List.flatten_append,
    List.flatten_cons, List.flatten_nil, List.append_nil, h1, List.append_assoc]
  exact List.prefix_append _ _

/-! ## Runs of `sort.Sort` that do not consult the generator -/

theorem pdqsort_of_noBreak (next : Nat → Nat) (pr : Nat → Int) :
    ∀ (fuel : Nat) (data : List Nat) (a b limit : Nat) (wb wp : Bool) (r : List Nat),
      pdqsortNoBreak pr fuel data a b limit wb wp = some r →
      pdqsort next pr fuel data a b limit wb wp = r := by
  intro fuel
  induction fuel with
  | zero =>
    intro data a b limit wb wp r h
    simp only [pdqsortNoBreak, Option.some.injEq] at h
    simp only [pdqsort]
    exact h
  | succ fuel ih =>
    intro data a b limit wb wp r h
    unfold pdqsortNoBreak at h
    unfold pdqsort
    by_cases h1 : b - a ≤ 12
    · rw [if_pos h1] at h
      rw [if_pos h1]
      exact Option.some.inj h
    · rw [if_neg h1] at h
      rw [if_neg h1]
      by_cases h2 : limit = 0
      · rw [if_pos h2] at h
        rw [if_pos h2]
        exact Option.some.inj h
      · rw [if_neg h2] at h
        rw [if_neg h2]
        cases wb with
        | false => simp at h
        | true =>
          simp only [Bool.true_eq_false, if_false, if_true] at h ⊢
          cases hr : pdqRound pr data a b true wp with
          | sorted d =>
            rw [hr] at h
            exact Option.some.inj h
          | equal d mid =>
            rw [hr] at h
            exact ih _ _ _ _ _ _ _ h
          | parted d mid already =>
            rw [hr] at h
            simp only at h ⊢
            by_cases h5 : mid - a < b - mid
            · rw [if_pos h5] at h
              rw [if_pos h5]
              cases hd : pdqsortNoBreak pr fuel d a mid limit true true with
              | none => rw [hd] at h; cases h
              | some d2 =>
                rw [hd] at h
                rw [ih _ _ _ _ _ _ _ hd]
                exact ih _ _ _ _ _ _ _ h
            · rw [if_neg h5] at h
              rw [if_neg h5]
              cases hd : pdqsortNoBreak pr fuel d (mid + 1) b limit true true with
              | none => rw [hd] at h; cases h
              | some d2 =>
                rw [hd] at h
                rw [ih _ _ _ _ _ _ _ hd]
                exact ih _ _ _ _ _ _ _ h

theorem sortPositions_congr (next next2 : Nat → Nat) (pr : Nat → Int) (n : Nat)
    (h : n ≤ 1 ∨ (pdqsortNoBreak pr (n + 1) (List.range n) 0 n (bitsLen n) true true).isSome
      = true) :
    sortPositions next pr n = sortPositions next2 pr n := by
  unfold sortPositions
  by_cases h1 : n ≤ 1
  · rw [if_pos h1, if_pos h1]
  · rw [if_neg h1, if_neg h1]
    rcases h with h | h
    · exact absurd h h1
    · obtain ⟨r, hr⟩ := Option.isSome_iff_exists.mp h
      rw [pdqsort_of_noBreak next pr _ _ _ _ _ _ _ r hr,
        pdqsort_of_noBreak next2 pr _ _ _ _ _ _ _ r hr]

theorem pdqSortItems_congr (next next2 : Nat → Nat) (l : List ListenerItem)
    (h : noBreak l = true) : pdqSortItems next l = pdqSortItems next2 l := by
  unfold pdqSortItems
  cases l with
  | nil => rfl
  | cons d rest =>
    simp only
    have hs := sortPositions_congr next next2 (fun i => ((d :: rest).getD i d).Priority)
      (d :: rest).length (by
        unfold noBreak at h
        simpa using h)
    rw [hs]


theorem GoMap.mem_of_get {α : Type} (m : GoMap α) (k : String) (v : α)
    (h : GoMap.get m k = some v) : (k, v) ∈ m := by
  induction m with
  | nil => simp [GoMap.get] at h
  | cons p m ih =>
    obtain ⟨a, x⟩ := p
    by_cases hk : k = a
    · simp only [GoMap.get, hk, if_true, Option.some.injEq] at h
      simp [hk, h]
    · simp only [GoMap.get, hk, if_false] at h
      exact List.mem_cons_of_mem _ (ih h)

theorem sortsAlike_of_generatorFree (next next2 : Nat → Nat) (m : GoMap ListenerQueue)
    (h : generatorFree m = true) : SortsAlike (goPdqSort next) (goPdqSort next2) m := by
  intro k q hg
  have hm := GoMap.mem_of_get m k q hg
  unfold generatorFree at h
  have hq := List.all_eq_true.mp h (k, q) hm
  simp only [Bool.or_eq_true] at hq
  rcases hq with hq | hq
  · exact Or.inl hq
  · exact Or.inr (pdqSortItems_congr next next2 q.items hq)

theorem SortQ_congr (S S2 : GoSort) (q : ListenerQueue)
    (h : IsSorted q.items = true ∨ S.sort q.items = S2.sort q.items) :
    q.SortQ S = q.SortQ S2 := by
  unfold ListenerQueue.SortQ
  rcases h with h | h
  · simp [h]
  · rw [h]

theorem runQueue_congr (S S2 : GoSort) (key : String) (d : Dispatch)
    (h : SortsAlike S S2 d.em.listeners) :
    Manager.runQueue S key d = Manager.runQueue S2 key d ∧
    SortsAlike S S2 (Manager.runQueue S key d).1.em.listeners := by
  unfold Manager.runQueue
  cases hg : GoMap.get d.em.listeners key with
  | none => exact ⟨rfl, h⟩
  | some lq =>
    simp only
    rw [SortQ_congr S S2 lq (h key lq hg)]
    refine ⟨rfl, ?_⟩
    intro k q hk
    rw [GoMap.get_set] at hk
    by_cases hkk : k = key
    · rw [if_pos hkk] at hk
      cases hk
      exact Or.inl (SortQ_sorted S2 lq)
    · rw [if_neg hkk] at hk
      exact h k q hk

theorem publish_congr (S S2 : GoSort) (em : Manager) (e : BasicEvent)
    (h : SortsAlike S S2 em.listeners) : em.publish S e = em.publish S2 e := by
  unfold Manager.publish
  simp only
  obtain ⟨h1, k1⟩ := runQueue_congr S S2 (e.Abort false).Name
    { em := em, e := e.Abort false, err := none, trace := [], panic := none } h
  rw [← h1]
  split
  · rfl
  · by_cases hc : lastIndexByte (e.Abort false).Name '.' > 0 ∧
        lastIndexByte (e.Abort false).Name '.' < ((e.Abort false).Name.length : Int)
    · simp only [hc, and_self, if_true]
      obtain ⟨h2, k2⟩ := runQueue_congr S S2
        (sliceTo (e.Abort false).Name (lastIndexByte (e.Abort false).Name '.' + 1) ++ Wildcard)
        _ k1
      rw [← h2]
      split
      · rfl
      · rw [(runQueue_congr S S2 Wildcard _ k2).1]
    · simp only [hc, if_false]
      rw [(runQueue_congr S S2 Wildcard _ k1).1]

theorem Publish_congr (S S2 : GoSort) (em : Manager) (raw : String) (params : M)
    (h : SortsAlike S S2 em.listeners) : em.Publish S raw params = em.Publish S2 raw params := by
  unfold Manager.Publish
  cases checkName raw with
  | error msg => rfl
  | ok N =>
    simp only
    split
    · rfl
    · unfold Manager.publishFound
      cases GoMap.get em.events N with
      | none =>
        simp only
        rw [publish_congr S S2 em _ h]
      | some P =>
        simp only
        rw [publish_congr S S2 em _ h]

/-! ## Registrations made in a row -/

theorem Reachable.listenAll (S : GoSort) (name : String) (hs : List (IListener × List Int)) :
    ∀ em, Reachable S em → Reachable S (listenAll em name hs) := by
  induction hs with
  | nil => intro em h; exact h
  | cons hp rest ih =>
    intro em h
    exact ih _ (Reachable.listen name (some hp.1) hp.2 h)

theorem Listen_get (em : Manager) (raw N : String) (h : IListener) (priority : List Int)
    (hN : checkName raw = Except.ok N) :
    GoMap.get (em.Listen raw (some h) priority).em.listeners N =
      some { items := (match GoMap.get em.listeners N with
                       | some q => q.items
                       | none => []) ++ registered [(h, priority)] } := by
  have hraw : raw ≠ Wildcard := by
    intro hw
    rw [hw] at hN
    exact checkName_ne_wildcard hN ((checkName_ok hN).1.trans (by decide))
  have hkey : (if raw = Wildcard then Wildcard else TrimSpace raw) = N := by
    rw [if_neg hraw]
    exact (checkName_ok hN).1.symm
  unfold Manager.Listen
  simp only
  rcases addListenerItem_cases em raw
      { Priority := (match priority with
                     | [] => Normal
                     | p :: _ => p),
        Listener := some h } with
    ⟨_, _, hwhy⟩ | ⟨_, _, _, key, hk, hget, _⟩
  · rcases hwhy with hwhy | ⟨_, hno⟩
    · cases hwhy
    · exact absurd hN (hno N)
  · rw [hkey] at hk
    subst hk
    rw [hget]
    rfl

theorem listenAll_get (raw N : String) (hN : checkName raw = Except.ok N)
    (hs : List (IListener × List Int)) :
    ∀ em : Manager, hs ≠ [] →
      GoMap.get (listenAll em raw hs).listeners N =
        some { items := (match GoMap.get em.listeners N with
                         | some q => q.items
                         | none => []) ++ registered hs } := by
  induction hs with
  | nil => intro em h; exact absurd rfl h
  | cons hp rest ih =>
    intro em _
    obtain ⟨h, priority⟩ := hp
    have h1 := Listen_get em raw N h priority hN
    cases rest with
    | nil => exact h1
    | cons hp2 rest2 =>
      have h2 := ih (em.Listen raw (some h) priority).em (List.cons_ne_nil _ _)
      show GoMap.get (listenAll (em.Listen raw (some h) priority).em raw (hp2 :: rest2)).listeners N
        = _
      rw [h2, h1]
      simp [registered]

/-- After registrations made in a row on a name without queue, with priorities
that never increase, a dispatch in which no listener errors or aborts invokes
the listeners registered, in the order of their registration, before any
other. -/
theorem listenAll_order (S : GoSort) (em : Manager) (raw N : String)
    (hs : List (IListener × List Int)) (e : BasicEvent) (hr : Reachable S em)
    (hN : checkName raw = Except.ok N) (hq : GoMap.get em.listeners N = none) (hne : hs ≠ [])
    (hsorted : IsSorted (registered hs) = true) (he : e.name = N)
    (hquiet : ∀ c ∈ ((listenAll em raw hs).publish S e).trace, c.err = none ∧ c.aborts = false) :
    registered hs <+: ((listenAll em raw hs).publish S e).trace.map Call.li := by
  have hg := listenAll_get raw N hN hs em hne
  rw [hq] at hg
  simp only [List.nil_append] at hg
  rw [← he] at hg
  exact publish_exact_first S (listenAll em raw hs) e { items := registered hs }
    (Reachable.listenAll S raw hs em hr).ok hg hsorted hquiet

/-! ## What `RemoveListener` removes -/

/-- In a reachable registry, `RemoveListener(name, h)` with a non-nil `h`
replaces the queue under `name` (every queue when `name` is empty) by the same
queue without the entries whose listener renders under `%p` like `h`, the
other entries keeping their order, and deletes the key from `listeners` and
`listenedNames` when nothing is left, so that `HasListeners` holds of a
targeted key exactly when an entry is left; when no other stored listener
shares the rendering of `h`, the entries dropped are exactly those whose
listener is `h`.  Untargeted queues, keys without a queue and the prototypes
are as before, and with a nil handler the registry is unchanged. -/
theorem RemoveListener_by_rendering (S : GoSort) (em : Manager) (hr : Reachable S em) (name : String)
    (h : IListener) :
    (∀ k q, GoMap.get em.listeners k = some q → (name = "" ∨ k = name) →
      (GoMap.get (em.RemoveListener name (some h)).listeners k =
        if (q.items.filter
            (fun li => decide (li.Listener.map IListener.ptr ≠ some h.ptr))).isEmpty then none
        else some (ListenerQueue.mk (q.items.filter
            (fun li => decide (li.Listener.map IListener.ptr ≠ some h.ptr))))) ∧
      ((em.RemoveListener name (some h)).HasListeners k = true ↔
        q.items.filter (fun li => decide (li.Listener.map IListener.ptr ≠ some h.ptr)) ≠ []) ∧
      ((∀ li ∈ q.items, ∀ l, li.Listener = some l → l.ptr = h.ptr → l = h) →
        ∀ li, li ∈ q.items.filter
            (fun li => decide (li.Listener.map IListener.ptr ≠ some h.ptr)) ↔
          (li ∈ q.items ∧ li.Listener ≠ some h))) ∧
    (∀ k, name ≠ "" → k ≠ name →
      GoMap.get (em.RemoveListener name (some h)).listeners k = GoMap.get em.listeners k ∧
      (em.RemoveListener name (some h)).HasListeners k = em.HasListeners k) ∧
    (∀ k, GoMap.get em.listeners k = none →
      GoMap.get (em.RemoveListener name (some h)).listeners k = none ∧
      (em.RemoveListener name (some h)).HasListeners k = false) ∧
    (em.RemoveListener name (some h)).events = em.events ∧
    em.RemoveListener name none = em := by
  have hok := hr.ok
  have hok2 : (em.RemoveListener name (some h)).OK := removeListener_ok em name (some h) hok
  have hhas : ∀ k, (em.RemoveListener name (some h)).HasListeners k =
      (GoMap.get (em.RemoveListener name (some h)).listeners k).isSome := by
    intro k
    cases hg : GoMap.get (em.RemoveListener name (some h)).listeners k with
    | none => exact hasListeners_false _ hok2 k hg
    | some q => exact (hasListeners_iff _ hok2 k).mpr ⟨q, hg⟩
  have hhas0 : ∀ k, em.HasListeners k = (GoMap.get em.listeners k).isSome := by
    intro k
    cases hg : GoMap.get em.listeners k with
    | none => exact hasListeners_false _ hok k hg
    | some q => exact (hasListeners_iff _ hok k).mpr ⟨q, hg⟩
  refine ⟨?_, ?_, ?_, RemoveListener_events em name (some h), RemoveListener_nil em name hok⟩
  · intro k q hq hk
    have hget := RemoveListener_target em name h k q hq hk
    refine ⟨hget, ?_, ?_⟩
    · rw [hhas k, hget]
      cases hf : q.items.filter (fun li => decide (li.Listener.map IListener.ptr ≠ some h.ptr)) with
      | nil => simp
      | cons a b => simp
    · intro hinj li
      rw [List.mem_filter]
      constructor
      · rintro ⟨hmem, hne⟩
        refine ⟨hmem, ?_⟩
        intro hsome
        rw [hsome] at hne
        simp at hne
      · rintro ⟨hmem, hne⟩
        refine ⟨hmem, ?_⟩
        simp only [ne_eq, decide_eq_true_eq]
        intro hptr
        cases hl : li.Listener with
        | none =>
          rw [hl] at hptr
          simp at hptr
        | some l =>
          rw [hl] at hptr
          simp only [Option.map_some', Option.some.injEq] at hptr
          exact hne (by rw [hl, hinj li hmem l hl hptr])
  · intro k hn hk
    have hget : GoMap.get (em.RemoveListener name (some h)).listeners k =
        GoMap.get em.listeners k := by
      rw [RemoveListener_get]
      simp [hn, hk]
    exact ⟨hget, by rw [hhas k, hhas0 k, hget]⟩
  · intro k hq
    have hget : GoMap.get (em.RemoveListener name (some h)).listeners k = none := by
      rw [RemoveListener_get, hq]
      split <;> rfl
    exact ⟨hget, by rw [hhas k, hget]; rfl⟩

theorem RemoveListener_by_rendering_sample :
    ((threePhases.RemoveListener "app.*" (some (emptyListener 2))).HasListeners "app.*" = true ↔
      ([{ Priority := Normal, Listener := some (emptyListener 2) }] : List ListenerItem).filter
        (fun li => decide (li.Listener.map IListener.ptr ≠ some (emptyListener 2).ptr)) ≠ []) ∧
    threePhases.RemoveListener "app.*" none = threePhases :=
  ⟨((RemoveListener_by_rendering goInsertionSort threePhases
      (Reachable.listen _ _ _ (Reachable.listen _ _ _ (Reachable.listen _ _ _
        (Reachable.addEvent _ (Reachable.newManager "test")))))
      "app.*" (emptyListener 2)).1 "app.*"
      { items := [{ Priority := Normal, Listener := some (emptyListener 2) }] } rfl
      (Or.inr rfl)).2.1,
   (RemoveListener_by_rendering goInsertionSort threePhases
      (Reachable.listen _ _ _ (Reachable.listen _ _ _ (Reachable.listen _ _ _
        (Reachable.addEvent _ (Reachable.newManager "test")))))
      "app.*" (emptyListener 2)).2.2.2.2⟩

/-! ## Properties of the specification -/

/-- C1: in a reachable registry with a queue `q` under the name of the event,
a dispatch in which no listener returns an error or aborts invokes first the
listeners of `q`, each once, in non-increasing priority order, and in strictly
descending order when the priorities of `q` are distinct; the order of `q`
itself (the registration order) plays no part. -/
theorem C1_priority_order (S : GoSort) (em : Manager) (e : BasicEvent) (q : ListenerQueue)
    (hr : Reachable S em) (hq : GoMap.get em.listeners e.Name = some q)
    (hquiet : ∀ c ∈ (em.publish S e).trace, c.err = none ∧ c.aborts = false) :
    List.Perm (((em.publish S e).trace.take q.Len).map Call.li) q.items ∧
    List.Pairwise (fun a b => a.Priority ≥ b.Priority)
      (((em.publish S e).trace.take q.Len).map Call.li) ∧
    ((q.items.map ListenerItem.Priority).Nodup →
      List.Pairwise (fun a b => a.Priority > b.Priority)
        (((em.publish S e).trace.take q.Len).map Call.li)) := by
  have hc := publish_complete S em e hr.ok hquiet
  have hperm := sortedItems_perm S em e.name q hq
  have htake : ((em.publish S e).trace.take q.Len).map Call.li = sortedItems S em e.name := by
    rw [List.map_take, hc]
    simp only [dispatchKeys, List.map_append, List.flatten_append, List.map_cons, List.map_nil,
      List.flatten_cons, List.flatten_nil, List.append_nil, List.append_assoc]
    have hlen : q.Len = (sortedItems S em e.name).length := by
      rw [hperm.length_eq]
      rfl
    rw [hlen, List.take_left]
  rw [htake]
  have hsorted : List.Pairwise (fun a b => a.Priority ≥ b.Priority) (sortedItems S em e.name) :=
    sortedItems_pairwise S em e.name
  refine ⟨hperm, hsorted, ?_⟩
  intro hnd
  have hnd2 : ((sortedItems S em e.name).map ListenerItem.Priority).Nodup :=
    (List.Perm.nodup_iff (hperm.map _)).mpr hnd
  have hne : List.Pairwise (fun a b => a.Priority ≠ b.Priority) (sortedItems S em e.name) := by
    have := hnd2
    unfold List.Nodup at this
    exact (List.pairwise_map).mp this
  exact (hsorted.and hne).imp (fun h => lt_of_le_of_ne h.1 (fun heq => h.2 heq.symm))

theorem C1_witness :
    List.Perm
      (((twoOnEvt1.publish goInsertionSort (NewBasicEvent "evt1" none)).trace.take
        (ListenerQueue.Len { items := [{ Priority := Low, Listener := some (emptyListener 1) },
          { Priority := High, Listener := some (emptyListener 2) }] })).map Call.li)
      [{ Priority := Low, Listener := some (emptyListener 1) },
        { Priority := High, Listener := some (emptyListener 2) }] ∧
    List.Pairwise (fun a b => a.Priority ≥ b.Priority)
      (((twoOnEvt1.publish goInsertionSort (NewBasicEvent "evt1" none)).trace.take
        (ListenerQueue.Len { items := [{ Priority := Low, Listener := some (emptyListener 1) },
          { Priority := High, Listener := some (emptyListener 2) }] })).map Call.li) ∧
    ((([{ Priority := Low, Listener := some (emptyListener 1) },
        { Priority := High, Listener := some (emptyListener 2) }] : List ListenerItem).map
        ListenerItem.Priority).Nodup →
      List.Pairwise (fun a b => a.Priority > b.Priority)
        (((twoOnEvt1.publish goInsertionSort (NewBasicEvent "evt1" none)).trace.take
          (ListenerQueue.Len { items := [{ Priority := Low, Listener := some (emptyListener 1) },
            { Priority := High, Listener := some (emptyListener 2) }] })).map Call.li)) :=
  C1_priority_order goInsertionSort twoOnEvt1 (NewBasicEvent "evt1" none)
    { items := [{ Priority := Low, Listener := some (emptyListener 1) },
        { Priority := High, Listener := some (emptyListener 2) }] }
    (Reachable.listen _ _ _ (Reachable.listen _ _ _ (Reachable.newManager "test")))
    rfl
    (by
      intro c hc
      have ht : (twoOnEvt1.publish goInsertionSort (NewBasicEvent "evt1" none)).trace =
          [{ li := { Priority := High, Listener := some (emptyListener 2) },
             arg := { name := "evt1", data := some [], aborted := false } },
           { li := { Priority := Low, Listener := some (emptyListener 1) },
             arg := { name := "evt1", data := some [], aborted := false } }] := rfl
      rw [ht] at hc
      simp only [List.mem_cons, List.mem_singleton, List.not_mem_nil, or_false] at hc
      rcases hc with rfl | rfl <;> exact ⟨rfl, rfl⟩)

/-- C2, as stated, fails: a prototype is dispatched under its own name, so with
a prototype stored under `a.b` whose name is not trimmed, `Publish` of `a.b`
does not invoke the listener of the exact queue `a.b`, although no listener
returns an error or aborts. -/
theorem C2_counterexample :
    Reachable goInsertionSort untrimmedProto ∧
    checkName "a.b" = Except.ok "a.b" ∧
    lastIndexByte "a.b" '.' ≠ (("a.b" : String).length : Int) - 1 ∧
    GoMap.get untrimmedProto.events "a.b" = some (NewBasicEvent " a.b " none) ∧
    (sortedItems goInsertionSort untrimmedProto "a.b").length = 1 ∧
    (untrimmedProto.Publish goInsertionSort "a.b" none).trace.length = 0 ∧
    (untrimmedProto.Publish goInsertionSort "a.b" none).err = none :=
  ⟨Reachable.listen _ _ _ (Reachable.addEvent _ (Reachable.newManager "test")),
    by decide, by decide, by decide, by decide, by decide, by decide⟩

/-- C2, amended: in a reachable registry in which a prototype stored under `N`,
if any, bears the name `N`, a `Publish` of the valid name `N` whose last dot is
not its final character, in which no listener returns an error or aborts,
invokes the listeners of the exact queue `N`, then those of the group queue
(`N` up to and including its last dot, followed by `*`), then those of the
queue `*`; a queue that is not registered contributes nothing, a registered one
all its listeners, in non-increasing priority order. -/
theorem C2_phase_order (S : GoSort) (em : Manager) (raw N : String) (params : M)
    (hr : Reachable S em) (hN : checkName raw = Except.ok N)
    (hdot : lastIndexByte N '.' ≠ (N.length : Int) - 1)
    (hproto : ∀ P, GoMap.get em.events N = some P → P.Name = N)
    (hquiet : ∀ c ∈ (em.Publish S raw params).trace, c.err = none ∧ c.aborts = false) :
    (em.Publish S raw params).trace.map Call.li =
      sortedItems S em N ++
        (if 0 ≤ lastIndexByte N '.' then
          sortedItems S em (sliceTo N (lastIndexByte N '.' + 1) ++ Wildcard) else []) ++
        sortedItems S em Wildcard ∧
    (∀ key, GoMap.get em.listeners key = none → sortedItems S em key = []) ∧
    (∀ key q, GoMap.get em.listeners key = some q →
      List.Perm (sortedItems S em key) q.items ∧
      List.Pairwise (fun a b => a.Priority ≥ b.Priority) (sortedItems S em key)) :=
  ⟨Publish_phases S em raw N params hr.ok hN hdot hproto hquiet,
    fun key h => sortedItems_none S em key h,
    fun key q h => ⟨sortedItems_perm S em key q h, sortedItems_pairwise S em key⟩⟩

theorem C2_witness :
    (threePhases.Publish goInsertionSort "app.evt1" none).trace.map Call.li =
      sortedItems goInsertionSort threePhases "app.evt1" ++
        (if 0 ≤ lastIndexByte "app.evt1" '.' then
          sortedItems goInsertionSort threePhases
            (sliceTo "app.evt1" (lastIndexByte "app.evt1" '.' + 1) ++ Wildcard) else []) ++
        sortedItems goInsertionSort threePhases Wildcard ∧
    (∀ key, GoMap.get threePhases.listeners key = none →
      sortedItems goInsertionSort threePhases key = []) ∧
    (∀ key q, GoMap.get threePhases.listeners key = some q →
      List.Perm (sortedItems goInsertionSort threePhases key) q.items ∧
      List.Pairwise (fun a b => a.Priority ≥ b.Priority)
        (sortedItems goInsertionSort threePhases key)) :=
  C2_phase_order goInsertionSort threePhases "app.evt1" "app.evt1" none
    (Reachable.listen _ _ _ (Reachable.listen _ _ _ (Reachable.listen _ _ _
      (Reachable.addEvent _ (Reachable.newManager "test")))))
    (by decide) (by decide)
    (by
      intro P hP
      have hg : GoMap.get threePhases.events "app.evt1" =
          some (NewBasicEvent "app.evt1" none) := rfl
      rw [hg] at hP
      cases hP
      rfl)
    (by
      intro c hc
      have ht : (threePhases.Publish goInsertionSort "app.evt1" none).trace =
          [{ li := { Priority := Min, Listener := some (emptyListener 1) },
             arg := { name := "app.evt1", data := some [], aborted := false } },
           { li := { Priority := Normal, Listener := some (emptyListener 2) },
             arg := { name := "app.evt1", data := some [], aborted := false } },
           { li := { Priority := Max, Listener := some (emptyListener 3) },
             arg := { name := "app.evt1", data := some [], aborted := false } }] := rfl
      rw [ht] at hc
      simp only [List.mem_cons, List.mem_singleton, List.not_mem_nil, or_false] at hc
      rcases hc with rfl | rfl | rfl <;> exact ⟨rfl, rfl⟩)

/-- C3: in the sequence of invocations made by a dispatch (`publish`) or by
`Publish`, an invocation that returns a non-nil error is the last one, and the
dispatch, respectively `Publish`, returns exactly that error. -/
theorem C3_error_stops (S : GoSort) (em : Manager) (e : BasicEvent) (raw : String) (params : M)
    (pre post : List Call) (c : Call) (x : String) :
    ((em.publish S e).trace = pre ++ c :: post → c.err = some x →
      post = [] ∧ (em.publish S e).err = some x) ∧
    ((em.Publish S raw params).trace = pre ++ c :: post → c.err = some x →
      post = [] ∧ (em.Publish S raw params).err = some x) := by
  constructor
  · intro ht hc
    have h := publish_last S em e pre post c ht (Or.inl (by simp [hc]))
    exact ⟨h.1, by rw [h.2, hc]⟩
  · intro ht hc
    rcases Publish_cases S em raw params with ⟨h1, _, _⟩ | ⟨N, _, _, h1, h2, _, _⟩
    · rw [h1] at ht
      simp at ht
    · rw [h1] at ht
      have h := publish_last S em _ pre post c ht (Or.inl (by simp [hc]))
      exact ⟨h.1, by rw [h2, h.2, hc]⟩

theorem C3_witness :
    (failingOnExact.publish goInsertionSort (NewBasicEvent "app.evt1" none)).err =
      some "an error" ∧
    (failingOnExact.Publish goInsertionSort "app.evt1" none).err = some "an error" :=
  ⟨((C3_error_stops goInsertionSort failingOnExact (NewBasicEvent "app.evt1" none) "app.evt1" none
      [] []
      { li := { Priority := Normal, Listener := some (failingListener 1 "an error") },
        arg := { name := "app.evt1", data := some [], aborted := false } }
      "an error").1 rfl rfl).2,
   ((C3_error_stops goInsertionSort failingOnExact (NewBasicEvent "app.evt1" none) "app.evt1" none
      [] []
      { li := { Priority := Normal, Listener := some (failingListener 1 "an error") },
        arg := { name := "app.evt1", data := none, aborted := false } }
      "an error").2 rfl rfl).2⟩

/-- C4: in the sequence of invocations made by a dispatch (`publish`) or by
`Publish`, an invocation that leaves the abort flag set and returns nil is the
last one, and the dispatch, respectively `Publish`, returns a nil error. -/
theorem C4_abort_stops (S : GoSort) (em : Manager) (e : BasicEvent) (raw : String) (params : M)
    (pre post : List Call) (c : Call) :
    ((em.publish S e).trace = pre ++ c :: post → c.aborts = true → c.err = none →
      post = [] ∧ (em.publish S e).err = none) ∧
    ((em.Publish S raw params).trace = pre ++ c :: post → c.aborts = true → c.err = none →
      post = [] ∧ (em.Publish S raw params).err = none) := by
  constructor
  · intro ht ha hc
    have h := publish_last S em e pre post c ht (Or.inr ha)
    exact ⟨h.1, by rw [h.2, hc]⟩
  · intro ht ha hc
    rcases Publish_cases S em raw params with ⟨h1, _, _⟩ | ⟨N, _, _, h1, h2, _, _⟩
    · rw [h1] at ht
      simp at ht
    · rw [h1] at ht
      have h := publish_last S em _ pre post c ht (Or.inr ha)
      exact ⟨h.1, by rw [h2, h.2, hc]⟩

theorem C4_witness :
    (abortingOnExact.publish goInsertionSort (NewBasicEvent "app.evt1" none)).err = none ∧
    (abortingOnExact.Publish goInsertionSort "app.evt1" none).err = none :=
  ⟨((C4_abort_stops goInsertionSort abortingOnExact (NewBasicEvent "app.evt1" none) "app.evt1" none
      [] []
      { li := { Priority := Normal, Listener := some (abortingListener 1) },
        arg := { name := "app.evt1", data := some [], aborted := false } }).1 rfl rfl rfl).2,
   ((C4_abort_stops goInsertionSort abortingOnExact (NewBasicEvent "app.evt1" none) "app.evt1" none
      [] []
      { li := { Priority := Normal, Listener := some (abortingListener 1) },
        arg := { name := "app.evt1", data := none, aborted := false } }).2 rfl rfl rfl).2⟩

/-- C5, as stated, fails on two registries with listeners under the group
pattern `aa.bb.*` only: when the first of two listeners aborts, `Publish` of
`aa.bb.cc` invokes one listener, not both; and when a prototype stored under
`aa.bb.cc` bears a name that is not trimmed, it invokes none. -/
theorem C5_counterexample :
    (checkName "aa.bb.cc" = Except.ok "aa.bb.cc" ∧
      sliceTo "aa.bb.cc" (lastIndexByte "aa.bb.cc" '.' + 1) ++ Wildcard = "aa.bb.*") ∧
    (GoMap.keys abortingGroup.listeners = ["aa.bb.*"] ∧
      (sortedItems goInsertionSort abortingGroup "aa.bb.*").length = 2 ∧
      (abortingGroup.Publish goInsertionSort "aa.bb.cc" none).trace.length = 1) ∧
    (GoMap.keys untrimmedGroup.listeners = ["aa.bb.*"] ∧
      (sortedItems goInsertionSort untrimmedGroup "aa.bb.*").length = 1 ∧
      (untrimmedGroup.Publish goInsertionSort "aa.bb.cc" none).trace.length = 0) := by
  decide

/-- C5, amended.  In a reachable registry in which a prototype stored under the
valid name `N`, if any, bears the name `N`, where the last dot of `N` is not
its final character, let `G` be `N` up to and including its last dot, followed
by `*`.  If listeners are registered under `G` only and no listener returns an
error or aborts, `Publish(N, data)` invokes every listener of `G` and nothing
else (each exactly once unless `N` is `G` itself), every time with an event
named `N`; the first listener receives the bag `data` whenever `data` is not
nil or no prototype is stored under `N`.  If listeners are registered only
under a pattern cut at an earlier position of `N`, such as an earlier dot,
nothing is invoked. -/
theorem C5_group_only (S : GoSort) (em : Manager) (raw N : String) (params : M)
    (hr : Reachable S em) (hN : checkName raw = Except.ok N)
    (hpos : 0 ≤ lastIndexByte N '.')
    (hdot : lastIndexByte N '.' ≠ (N.length : Int) - 1)
    (hproto : ∀ P, GoMap.get em.events N = some P → P.Name = N)
    (hquiet : ∀ c ∈ (em.Publish S raw params).trace, c.err = none ∧ c.aborts = false) :
    ((∀ k, k ≠ sliceTo N (lastIndexByte N '.' + 1) ++ Wildcard →
        GoMap.get em.listeners k = none) →
      (∀ q, GoMap.get em.listeners (sliceTo N (lastIndexByte N '.' + 1) ++ Wildcard) = some q →
        (∀ li ∈ q.items, li ∈ (em.Publish S raw params).trace.map Call.li) ∧
        (∀ li ∈ (em.Publish S raw params).trace.map Call.li, li ∈ q.items) ∧
        (N ≠ sliceTo N (lastIndexByte N '.' + 1) ++ Wildcard →
          List.Perm ((em.Publish S raw params).trace.map Call.li) q.items)) ∧
      (∀ c ∈ (em.Publish S raw params).trace, c.arg.Name = N) ∧
      (∀ c, (em.Publish S raw params).trace.head? = some c →
        c.arg.IsAborted = false ∧
        (params ≠ none ∨ GoMap.get em.events N = none → c.arg.Data = params))) ∧
    (∀ i : Nat, (i : Int) < lastIndexByte N '.' →
      (∀ k, k ≠ sliceTo N ((i : Int) + 1) ++ Wildcard → GoMap.get em.listeners k = none) →
      (em.Publish S raw params).trace = []) := by
  have hlt := lastIndexByte_lt N '.'
  obtain ⟨p, hp⟩ : ∃ p : Nat, lastIndexByte N '.' = (p : Int) :=
    ⟨(lastIndexByte N '.').toNat, (Int.toNat_of_nonneg hpos).symm⟩
  have hpN : p + 2 ≤ N.length := by omega
  have hG : (sliceTo N (lastIndexByte N '.' + 1) ++ Wildcard).length = p + 2 := by
    rw [hp]
    exact groupKey_length N (p + 1) (by omega)
  constructor
  · intro honly
    have hwild : GoMap.get em.listeners Wildcard = none := by
      apply honly
      intro h
      have := congrArg String.length h
      rw [hG] at this
      have h1 : Wildcard.length = 1 := rfl
      omega
    have hph := Publish_phases S em raw N params hr.ok hN hdot hproto hquiet
    simp only [hpos, if_true, sortedItems_none S em Wildcard hwild, List.append_nil] at hph
    refine ⟨?_, ?_, ?_⟩
    · intro q hq
      have hperm := sortedItems_perm S em _ q hq
      refine ⟨?_, ?_, ?_⟩
      · intro li hli
        rw [hph]
        exact List.mem_append_right _ (hperm.symm.subset hli)
      · intro li hli
        rw [hph] at hli
        rcases List.mem_append.mp hli with h | h
        · by_cases hNG : N = sliceTo N (lastIndexByte N '.' + 1) ++ Wildcard
          · rw [← hNG] at hq
            exact (sortedItems_perm S em N q hq).subset h
          · rw [sortedItems_none S em N (honly N hNG)] at h
            cases h
        · exact hperm.subset h
      · intro hNG
        rw [hph, sortedItems_none S em N (honly N hNG)]
        simpa using hperm
    · intro c hc
      have := Publish_names S em raw N params hN c hc
      rw [resolved_name em N params hproto] at this
      exact this
    · intro c hc
      have := Publish_head S em raw N params hN c hc
      rw [this]
      exact ⟨rfl, fun hd => resolved_data em N params hr.sample hd⟩
  · intro i hi honly
    have hK : (sliceTo N ((i : Int) + 1) ++ Wildcard).length = i + 2 :=
      groupKey_length N (i + 1) (by omega)
    have hne : ∀ k : String, k.length ≠ i + 2 → GoMap.get em.listeners k = none := by
      intro k hk
      apply honly
      intro h
      rw [h, hK] at hk
      exact hk rfl
    rw [Publish_no_queue S em raw N params hr.ok hN (hne N (by omega))
      (hne Wildcard (by have h1 : Wildcard.length = 1 := rfl; omega))
      (fun _ _ => hne _ (by rw [hG]; omega))]

theorem C5_witness :
    ((∀ c ∈ (groupOnly.Publish goInsertionSort "aa.bb.cc" (some [("user", "inhere")])).trace,
        c.arg.Name = "aa.bb.cc") ∧
      (∀ c, (groupOnly.Publish goInsertionSort "aa.bb.cc"
          (some [("user", "inhere")])).trace.head? = some c →
        c.arg.IsAborted = false ∧
        (some [("user", "inhere")] ≠ none ∨ GoMap.get groupOnly.events "aa.bb.cc" = none →
          c.arg.Data = some [("user", "inhere")]))) ∧
    (earlierDot.Publish goInsertionSort "aa.bb.cc" (some [("user", "inhere")])).trace = [] :=
  ⟨((C5_group_only goInsertionSort groupOnly "aa.bb.cc" "aa.bb.cc" (some [("user", "inhere")])
      (Reachable.listen _ _ _ (Reachable.listen _ _ _ (Reachable.newManager "test")))
      (by decide) (by decide) (by decide) (fun P hP => by cases hP)
      (by
        intro c hc
        have ht : (groupOnly.Publish goInsertionSort "aa.bb.cc"
            (some [("user", "inhere")])).trace =
            [{ li := { Priority := High, Listener := some (emptyListener 2) },
               arg := { name := "aa.bb.cc", data := some [("user", "inhere")], aborted := false } },
             { li := { Priority := Normal, Listener := some (emptyListener 1) },
               arg := { name := "aa.bb.cc", data := some [("user", "inhere")],
                        aborted := false } }] := rfl
        rw [ht] at hc
        simp only [List.mem_cons, List.mem_singleton, List.not_mem_nil, or_false] at hc
        rcases hc with rfl | rfl <;> exact ⟨rfl, rfl⟩)).1
      (by
        intro k hk
        have hG : sliceTo "aa.bb.cc" (lastIndexByte "aa.bb.cc" '.' + 1) ++ Wildcard = "aa.bb.*" := by
          decide
        rw [hG] at hk
        show GoMap.get [("aa.bb.*", _)] k = none
        simp [GoMap.get, hk])).2,
   (C5_group_only goInsertionSort earlierDot "aa.bb.cc" "aa.bb.cc" (some [("user", "inhere")])
      (Reachable.listen _ _ _ (Reachable.newManager "test"))
      (by decide) (by decide) (by decide) (fun P hP => by cases hP)
      (by
        intro c hc
        have ht : (earlierDot.Publish goInsertionSort "aa.bb.cc"
            (some [("user", "inhere")])).trace = [] := rfl
        rw [ht] at hc
        cases hc)).2 2 (by decide)
      (by
        intro k hk
        have hK : sliceTo "aa.bb.cc" (((2 : Nat) : Int) + 1) ++ Wildcard = "aa.*" := by decide
        rw [hK] at hk
        show GoMap.get [("aa.*", _)] k = none
        simp [GoMap.get, hk])⟩

/-- C6, as stated, fails: `checkName` accepts `a.*`, and on the registry
obtained from an empty one by `Listen("a.*", h)`, `Publish("a.*", nil)` invokes
`h` twice, once for the exact queue and once for the group queue. -/
theorem C6_counterexample :
    checkName "a.*" = Except.ok "a.*" ∧
    (patternListened.Publish goInsertionSort "a.*" none).trace.map
      (fun c => c.li.Listener.map IListener.ptr) = [some 1, some 1] ∧
    (patternListened.Publish goInsertionSort "a.*" none).trace.length = 2 := by
  decide

/-- C6, amended: for every name that `checkName` accepts and whose trimmed form
does not end in `.*`, and every handler `h` that returns nil without aborting,
on the registry obtained from an empty one by `Listen(name, h)`, a
`Publish(name, nil)` invokes `h` exactly once, returns a nil error and leaves
the registry as it was, so that every further `Publish` does the same. -/
theorem C6_once (S : GoSort) (nm raw N : String) (h : IListener) (priority : List Int)
    (hN : checkName raw = Except.ok N)
    (hnotpat : ¬ ∃ p : String, N = p ++ ".*")
    (hh : ∀ e, (h.Handle e).err = none ∧ (e.aborted = false → (h.Handle e).aborted = false)) :
    (((NewManager nm).Listen raw (some h) priority).em.Publish S raw none).trace.map
        (fun c => c.li.Listener) = [some h] ∧
    (((NewManager nm).Listen raw (some h) priority).em.Publish S raw none).err = none ∧
    (((NewManager nm).Listen raw (some h) priority).em.Publish S raw none).panic = none ∧
    (((NewManager nm).Listen raw (some h) priority).em.Publish S raw none).em =
      ((NewManager nm).Listen raw (some h) priority).em := by
  obtain ⟨pv, hem⟩ := listen_first nm raw N h priority hN
  generalize ((NewManager nm).Listen raw (some h) priority).em = em at hem ⊢
  have hl : em.listeners = [(N, { items := [{ Priority := pv, Listener := some h }] })] := by
    rw [hem]
  have hnf : em.notFound N = false := by
    have : em.HasListeners N = true := by
      rw [hem]
      simp [Manager.HasListeners, GoMap.has, GoMap.get]
    simp [Manager.notFound, this]
  have hev : GoMap.get em.events N = none := by
    rw [hem]
    rfl
  have hs := publish_single S N _ h rfl (checkName_ne_wildcard hN) hnotpat hh em hl
    (em.copyBasicEvent N none) (by cases em; rfl)
  rw [Publish_found S em raw N none hN hnf]
  unfold Manager.publishFound
  simp only [hev]
  obtain ⟨h1, h2, h3, h4⟩ := hs
  refine ⟨?_, h3, h4, h2⟩
  simp [h1]

theorem C6_witness :
    (((NewManager "test").Listen " app.evt1 " (some (emptyListener 1)) []).em.Publish
        goInsertionSort " app.evt1 " none).trace.map (fun c => c.li.Listener) =
        [some (emptyListener 1)] ∧
    (((NewManager "test").Listen " app.evt1 " (some (emptyListener 1)) []).em.Publish
        goInsertionSort " app.evt1 " none).err = none ∧
    (((NewManager "test").Listen " app.evt1 " (some (emptyListener 1)) []).em.Publish
        goInsertionSort " app.evt1 " none).panic = none ∧
    (((NewManager "test").Listen " app.evt1 " (some (emptyListener 1)) []).em.Publish
        goInsertionSort " app.evt1 " none).em =
      ((NewManager "test").Listen " app.evt1 " (some (emptyListener 1)) []).em :=
  C6_once goInsertionSort "test" " app.evt1 " "app.evt1" (emptyListener 1) [] (by decide)
    (by
      rintro ⟨p, hp⟩
      have h1 := congrArg (fun s : String => s.data.getLast?) hp
      simp only [String.data_append, List.getLast?_append] at h1
      have h2 : ("app.evt1" : String).data.getLast? = some '1' := by decide
      have h3 : (".*" : String).data.getLast? = some '*' := by decide
      rw [h2, h3] at h1
      simp at h1)
    (fun _ => ⟨rfl, fun ha => ha⟩)

/-- C7: in a reachable registry, whatever prototypes it holds, `Publish` of a
valid name that has no exact queue, no queue under `*` and no queue under its
group pattern invokes no listener, returns a nil error and a nil event, and
leaves the registry as it is. -/
theorem C7_no_listener (S : GoSort) (em : Manager) (raw N : String) (params : M)
    (hr : Reachable S em) (hN : checkName raw = Except.ok N)
    (hexact : GoMap.get em.listeners N = none)
    (hglobal : GoMap.get em.listeners Wildcard = none)
    (hgroup : 0 ≤ lastIndexByte N '.' → lastIndexByte N '.' ≠ (N.length : Int) - 1 →
      GoMap.get em.listeners (sliceTo N (lastIndexByte N '.' + 1) ++ Wildcard) = none) :
    (em.Publish S raw params).trace = [] ∧
    (em.Publish S raw params).err = none ∧
    (em.Publish S raw params).e = none ∧
    (em.Publish S raw params).panic = none ∧
    (em.Publish S raw params).em = em := by
  rw [Publish_no_queue S em raw N params hr.ok hN hexact hglobal hgroup]
  exact ⟨rfl, rfl, rfl, rfl, rfl⟩

theorem C7_witness :
    (protoOnly.Publish goInsertionSort "evt2" (some [("k", "v")])).trace = [] ∧
    (protoOnly.Publish goInsertionSort "evt2" (some [("k", "v")])).err = none ∧
    (protoOnly.Publish goInsertionSort "evt2" (some [("k", "v")])).e = none ∧
    (protoOnly.Publish goInsertionSort "evt2" (some [("k", "v")])).panic = none ∧
    (protoOnly.Publish goInsertionSort "evt2" (some [("k", "v")])).em = protoOnly :=
  C7_no_listener goInsertionSort protoOnly "evt2" "evt2" (some [("k", "v")])
    (Reachable.listen _ _ _ (Reachable.addEvent _ (Reachable.newManager "test")))
    (by decide) rfl rfl (fun h => absurd h (by decide))

/-- C8, as stated, fails: on a registry without any listener `Publish` of
`orphan.event` returns a nil event, not an event named `orphan.event`. -/
theorem C8_counterexample :
    checkName "orphan.event" = Except.ok "orphan.event" ∧
    (NewManager "default").listeners = [] ∧
    ((NewManager "default").Publish goInsertionSort "orphan.event" none).err = none ∧
    ((NewManager "default").Publish goInsertionSort "orphan.event" none).e = none ∧
    ¬ ∃ ev, ((NewManager "default").Publish goInsertionSort "orphan.event" none).e = some ev ∧
      ev.Name = "orphan.event" := by
  refine ⟨by decide, rfl, rfl, rfl, ?_⟩
  rintro ⟨ev, h, _⟩
  have h2 : ((NewManager "default").Publish goInsertionSort "orphan.event" none).e = none := rfl
  rw [h2] at h
  cases h

/-- C8, amended: `Publish` of a valid name for which neither the name, nor `*`,
nor the group pattern of the name is listened returns a nil error together with
a nil event. -/
theorem C8_not_found_nil_event (S : GoSort) (em : Manager) (raw N : String) (params : M)
    (hN : checkName raw = Except.ok N)
    (hexact : em.HasListeners N = false)
    (hglobal : em.HasListeners Wildcard = false)
    (hgroup : 0 ≤ lastIndexByte N '.' → lastIndexByte N '.' ≠ (N.length : Int) - 1 →
      em.HasListeners (sliceTo N (lastIndexByte N '.' + 1) ++ Wildcard) = false) :
    (em.Publish S raw params).err = none ∧ (em.Publish S raw params).e = none := by
  rw [Publish_not_found S em raw N params hN (notFound_of em N hexact hglobal hgroup)]
  exact ⟨rfl, rfl⟩

theorem C8_witness :
    (protoOnly.Publish goInsertionSort " aa.bb.cc " none).err = none ∧
    (protoOnly.Publish goInsertionSort " aa.bb.cc " none).e = none :=
  C8_not_found_nil_event goInsertionSort protoOnly " aa.bb.cc " "aa.bb.cc" none
    (by decide) (by decide) (by decide) (by decide)

/-- C9, as stated, fails: `checkName` accepts `a*`, which does not match
`^[A-Za-z][A-Za-z0-9_.-]*$`. -/
theorem C9_counterexample :
    checkName "a*" = Except.ok "a*" ∧ TrimSpace "a*" ≠ "" ∧ specNameRule "a*" = false := by
  decide

/-- C9, amended: `checkName` succeeds exactly on the strings whose trimmed form
is a letter followed only by letters, digits, `_`, `.`, `-` and `*` (the
expression `^[A-Za-z][A-Za-z0-9_.*-]*$`, which no empty string matches); on
success it returns the trimmed string, otherwise it panics. -/
theorem C9_checkName_rule (s : String) :
    ((∃ t, checkName s = Except.ok t) ↔
      ∃ c cs, (TrimSpace s).data = c :: cs ∧
        (('a' ≤ c ∧ c ≤ 'z') ∨ ('A' ≤ c ∧ c ≤ 'Z')) ∧
        ∀ x ∈ cs, ('a' ≤ x ∧ x ≤ 'z') ∨ ('A' ≤ x ∧ x ≤ 'Z') ∨ ('0' ≤ x ∧ x ≤ '9') ∨
          x = '_' ∨ x = '.' ∨ x = '-' ∨ x = '*') ∧
    (∀ t, checkName s = Except.ok t → t = TrimSpace s) ∧
    ((∀ t, checkName s ≠ Except.ok t) → ∃ msg, checkName s = Except.error msg) := by
  refine ⟨?_, ?_, ?_⟩
  · constructor
    · rintro ⟨t, ht⟩
      obtain ⟨h1, _, h3⟩ := checkName_ok ht
      rw [← h1]
      unfold eventNameReg at h3
      cases hdat : t.data with
      | nil => simp [hdat] at h3
      | cons c cs =>
        simp only [hdat, Bool.and_eq_true, List.all_eq_true] at h3
        refine ⟨c, cs, rfl, ?_, ?_⟩
        · simpa [isAsciiLetter] using h3.1
        · intro x hx
          have := h3.2 x hx
          simp only [isNameChar, isWordChar, isAsciiLetter, Bool.or_eq_true, Bool.and_eq_true,
            decide_eq_true_eq, beq_iff_eq] at this
          tauto
    · rintro ⟨c, cs, hdat, hc, hcs⟩
      refine ⟨TrimSpace s, ?_⟩
      unfold checkName
      have hne : TrimSpace s ≠ "" := by
        intro h
        rw [h] at hdat
        cases hdat
      have hreg : eventNameReg (TrimSpace s) = true := by
        unfold eventNameReg
        simp only [hdat, Bool.and_eq_true, List.all_eq_true]
        refine ⟨by simpa [isAsciiLetter] using hc, ?_⟩
        intro x hx
        have := hcs x hx
        simp only [isNameChar, isWordChar, isAsciiLetter, Bool.or_eq_true, Bool.and_eq_true,
          decide_eq_true_eq, beq_iff_eq]
        tauto
      simp [hne, hreg]
  · intro t ht
    exact (checkName_ok ht).1
  · intro h
    cases hc : checkName s with
    | error msg => exact ⟨msg, rfl⟩
    | ok t => exact absurd hc (h t)

/-- C10: in every reachable registry a key is in `listenedNames` exactly when it
is in `listeners` with a non-empty queue, and `HasListeners` holds of a key
exactly when its `ListenersCount` is positive. -/
theorem C10_listened_iff_queue (S : GoSort) (em : Manager) (hr : Reachable S em) (k : String) :
    (GoMap.has em.listenedNames k = true ↔
      ∃ q, GoMap.get em.listeners k = some q ∧ q.items ≠ []) ∧
    (em.HasListeners k = true ↔ em.ListenersCount k > 0) := by
  have hok := hr.ok
  have h1 : GoMap.has em.listenedNames k = true ↔
      ∃ q, GoMap.get em.listeners k = some q ∧ q.items ≠ [] := by
    rw [hok.sync k]
    constructor
    · rintro ⟨q, hq⟩
      exact ⟨q, hq, hok.nonempty k q hq⟩
    · rintro ⟨q, hq, _⟩
      exact ⟨q, hq⟩
  refine ⟨h1, ?_⟩
  unfold Manager.HasListeners Manager.ListenersCount
  rw [h1]
  cases hg : GoMap.get em.listeners k with
  | none => simp
  | some q =>
    simp only [Option.some.injEq, exists_eq_left', ListenerQueue.Len, gt_iff_lt]
    exact List.length_pos.symm

theorem C10_witness :
    (GoMap.has twoOnEvt1.listenedNames "evt1" = true ↔
      ∃ q, GoMap.get twoOnEvt1.listeners "evt1" = some q ∧ q.items ≠ []) ∧
    (twoOnEvt1.HasListeners "evt1" = true ↔ twoOnEvt1.ListenersCount "evt1" > 0) :=
  C10_listened_iff_queue goInsertionSort twoOnEvt1
    (Reachable.listen _ _ _ (Reachable.listen _ _ _ (Reachable.newManager "test"))) "evt1"

/-- C11 fails on the code.  `Remove` compares the `%p` renderings of the
listeners, and two listeners that are not the same one can render alike (two
closures of one function literal print the same code pointer).  On `evt` are
registered a listener that returns nil and a listener that returns an error,
both rendering as `7`; `RemoveListener("evt", h)` with the first as `h` drops
both entries and deletes the key, so `HasListeners("evt")` is false although
the second listener was never removed, and a `Publish` of `evt` no longer
reaches it. -/
theorem C11_same_rendering_removed :
    (emptyListener 7).ptr = (failingListener 7 "oops").ptr ∧
    ((emptyListener 7).Handle (NewBasicEvent "evt" none)).err = none ∧
    ((failingListener 7 "oops").Handle (NewBasicEvent "evt" none)).err = some "oops" ∧
    sameRendering.ListenersCount "evt" = 2 ∧
    (sameRendering.Publish goInsertionSort "evt" none).err = some "oops" ∧
    (sameRendering.RemoveListener "evt" (some (emptyListener 7))).ListenersCount "evt" = 0 ∧
    (sameRendering.RemoveListener "evt" (some (emptyListener 7))).HasListeners "evt" = false ∧
    (GoMap.get (sameRendering.RemoveListener "evt" (some (emptyListener 7))).listeners
      "evt").isNone = true ∧
    ((sameRendering.RemoveListener "evt" (some (emptyListener 7))).Publish goInsertionSort
      "evt" none).err = none ∧
    ((sameRendering.RemoveListener "evt" (some (emptyListener 7))).Publish goInsertionSort
      "evt" none).trace.length = 0 := by
  decide

/-- C12, as stated, fails: `SetData` replaces the bag of the prototype.  With a
prototype for `evt2` whose bag maps `a` to `1`, `Publish("evt2", D)` for a `D`
without the key `a` hands the listener a bag in which `a` is gone. -/
theorem C12_counterexample :
    checkName "evt2" = Except.ok "evt2" ∧
    GoMap.get protoWithBag.events "evt2" = some (NewBasicEvent "evt2" (some [("a", "1")])) ∧
    (NewBasicEvent "evt2" (some [("a", "1")])).Get "a" = some "1" ∧
    GoMap.get [("k", "v")] "a" = none ∧
    (protoWithBag.Publish goInsertionSort "evt2" (some [("k", "v")])).trace.map
      (fun c => c.arg.Get "a") = [none] ∧
    (protoWithBag.Publish goInsertionSort "evt2" (some [("k", "v")])).trace.map
      (fun c => c.arg.Data) = [some [("k", "v")]] := by
  decide

/-- C12, amended: when a prototype `P` is stored under the valid name `N`, one
of the names `N`, `*` and the group pattern of `N` is listened, and `D` is not
nil, `Publish(N, D)` dispatches `P` and returns it: the event returned is the
one stored under `N` afterwards and bears the name of `P`, every listener is
handed an event with that name, and the first listener is handed `P` with the
bag `D` in place of its previous bag, so that every key reads as in `D`. -/
theorem C12_prototype_setdata (S : GoSort) (em : Manager) (raw N : String) (P : BasicEvent)
    (D : GoMap Val)
    (hN : checkName raw = Except.ok N) (hP : GoMap.get em.events N = some P)
    (hmatch : em.HasListeners N = true ∨ em.HasListeners Wildcard = true ∨
      (0 ≤ lastIndexByte N '.' ∧ lastIndexByte N '.' ≠ (N.length : Int) - 1 ∧
        em.HasListeners (sliceTo N (lastIndexByte N '.' + 1) ++ Wildcard) = true)) :
    (∃ P2, (em.Publish S raw (some D)).e = some P2 ∧ P2.Name = P.Name ∧
      GoMap.get (em.Publish S raw (some D)).em.events N = some P2) ∧
    (∀ c ∈ (em.Publish S raw (some D)).trace, c.arg.Name = P.Name) ∧
    (∀ c, (em.Publish S raw (some D)).trace.head? = some c →
      c.arg = { name := P.name, data := some D, aborted := false } ∧
      ∀ key, c.arg.Get key = GoMap.get D key) := by
  have hnf := notFound_false_of em N hmatch
  rw [Publish_proto S em raw N P D hN hP hnf]
  refine ⟨⟨_, rfl, ?_, ?_⟩, ?_, ?_⟩
  · exact publish_ename S em (P.SetData (some D))
  · simp [GoMap.get_set]
  · intro c hc
    exact publish_names S em (P.SetData (some D)) c hc
  · intro c hc
    have := publish_head S em (P.SetData (some D)) c hc
    rw [this]
    exact ⟨rfl, fun key => rfl⟩

theorem C12_witness :
    (∃ P2, (protoWithBag.Publish goInsertionSort "evt2" (some [("k", "v")])).e = some P2 ∧
      P2.Name = (NewBasicEvent "evt2" (some [("a", "1")])).Name ∧
      GoMap.get (protoWithBag.Publish goInsertionSort "evt2" (some [("k", "v")])).em.events
        "evt2" = some P2) ∧
    (∀ c ∈ (protoWithBag.Publish goInsertionSort "evt2" (some [("k", "v")])).trace,
      c.arg.Name = (NewBasicEvent "evt2" (some [("a", "1")])).Name) ∧
    (∀ c, (protoWithBag.Publish goInsertionSort "evt2" (some [("k", "v")])).trace.head? = some c →
      c.arg = { name := (NewBasicEvent "evt2" (some [("a", "1")])).name
                data := some [("k", "v")]
                aborted := false } ∧
      ∀ key, c.arg.Get key = GoMap.get [("k", "v")] key) :=
  C12_prototype_setdata goInsertionSort protoWithBag "evt2" "evt2"
    (NewBasicEvent "evt2" (some [("a", "1")])) [("k", "v")] (by decide) (by decide)
    (Or.inl (by decide))

/-- C13: a dispatch resets the abort flag before the first listener runs: an
event whose flag is set when the dispatch begins is dispatched exactly like
the same event with the flag unset (same invocations, same results), and the
first listener invoked by `publish` or `Publish` receives the flag unset. -/
theorem C13_abort_reset (S : GoSort) (em : Manager) (e : BasicEvent) (raw : String)
    (params : M) :
    em.publish S (e.Abort true) = em.publish S (e.Abort false) ∧
    (em.publish S (e.Abort true)).trace = (em.publish S (e.Abort false)).trace ∧
    (∀ c, (em.publish S e).trace.head? = some c → c.arg.IsAborted = false) ∧
    (∀ c, (em.Publish S raw params).trace.head? = some c → c.arg.IsAborted = false) := by
  have h1 : em.publish S (e.Abort true) = em.publish S (e.Abort false) := rfl
  refine ⟨h1, by rw [h1], ?_, ?_⟩
  · intro c hc
    rw [publish_head S em e c hc]
    rfl
  · intro c hc
    rcases Publish_cases S em raw params with ⟨h, _, _⟩ | ⟨N, _, _, h, _, _, _⟩
    · rw [h] at hc
      cases hc
    · rw [h] at hc
      rw [publish_head S em _ c hc]
      rfl

theorem C13_witness :
    ∃ c, (twoOnEvt1.publish goInsertionSort ((NewBasicEvent "evt1" none).Abort true)).trace.head?
        = some c ∧ c.arg.IsAborted = false := by
  have hne : ((twoOnEvt1.publish goInsertionSort
      ((NewBasicEvent "evt1" none).Abort true)).trace.head?).isSome = true := by decide
  obtain ⟨c, hc⟩ := Option.isSome_iff_exists.mp hne
  exact ⟨c, hc, (C13_abort_reset goInsertionSort twoOnEvt1
    ((NewBasicEvent "evt1" none).Abort true) "evt1" none).2.2.1 c hc⟩

/-- C14: for every queue, the items after `Sort` are a permutation of the
items before it, and every item has a priority at least that of its
successor. -/
theorem C14_sort_perm_sorted (S : GoSort) (q : ListenerQueue) :
    List.Perm (q.SortQ S).items q.items ∧
    (∀ (i : Nat) (h : i + 1 < (q.SortQ S).items.length),
      ((q.SortQ S).items.get ⟨i, Nat.lt_of_succ_lt h⟩).Priority ≥
        ((q.SortQ S).items.get ⟨i + 1, h⟩).Priority) := by
  refine ⟨SortQ_perm S q, ?_⟩
  have hp := (isSorted_iff_pairwise _).mp (SortQ_sorted S q)
  intro i h
  exact List.pairwise_iff_get.mp hp ⟨i, Nat.lt_of_succ_lt h⟩ ⟨i + 1, h⟩ (by simp)

theorem C14_witness :
    ((((ListenerQueue.mk []).Push { Priority := Low, Listener := some (emptyListener 1) }).Push
        { Priority := High, Listener := some (emptyListener 2) }).SortQ goInsertionSort).items.map
      ListenerItem.Priority = [High, Low] ∧
    ∀ h : 0 + 1 < ((((ListenerQueue.mk []).Push
        { Priority := Low, Listener := some (emptyListener 1) }).Push
        { Priority := High, Listener := some (emptyListener 2) }).SortQ
          goInsertionSort).items.length,
      (((((ListenerQueue.mk []).Push { Priority := Low, Listener := some (emptyListener 1) }).Push
        { Priority := High, Listener := some (emptyListener 2) }).SortQ
          goInsertionSort).items.get ⟨0, Nat.lt_of_succ_lt h⟩).Priority ≥
      (((((ListenerQueue.mk []).Push { Priority := Low, Listener := some (emptyListener 1) }).Push
        { Priority := High, Listener := some (emptyListener 2) }).SortQ
          goInsertionSort).items.get ⟨0 + 1, h⟩).Priority :=
  ⟨by decide,
   (C14_sort_perm_sorted goInsertionSort
    (((ListenerQueue.mk []).Push { Priority := Low, Listener := some (emptyListener 1) }).Push
      { Priority := High, Listener := some (emptyListener 2) })).2 0⟩

/-- C15, as stated, fails with the `sort.Sort` of Go 1.19 and later, whatever
its pseudo-random generator.  Twelve listeners are registered on `evt` at the
default priority and a thirteenth at `High`; the queue is not sorted, so `Sort`
hands it to `sort.Sort`, whose `pdqsort` swaps the pivot (position 6) to the
front and the item at position 1 to the back: the listener registered seventh
runs before the six registered ahead of it at the same priority, and the one
registered second runs last.  The queue keeps that order, and once the `High`
listener is removed the twelve listeners, all of the default priority, are
invoked in the order 6, 2, 3, 4, 5, 0, 7, 8, 9, 10, 11, 1. -/
theorem C15_counterexample :
    (GoMap.get thirteenOnEvt.listeners "evt").map
        (fun q => q.items.map (fun li => (li.Listener.map IListener.ptr, li.Priority))) =
      some [(some 0, Normal), (some 1, Normal), (some 2, Normal), (some 3, Normal),
        (some 4, Normal), (some 5, Normal), (some 6, Normal), (some 7, Normal),
        (some 8, Normal), (some 9, Normal), (some 10, Normal), (some 11, Normal),
        (some 12, High)] ∧
    (∀ next : Nat → Nat, sortPositions next (fun i => if i = 12 then High else Normal) 13 =
      [12, 6, 2, 3, 4, 5, 0, 7, 8, 9, 10, 11, 1]) ∧
    (∀ next : Nat → Nat,
      (thirteenOnEvt.Publish (goPdqSort next) "evt" none).trace.map
          (fun c => c.li.Listener.map IListener.ptr) =
        [some 12, some 6, some 2, some 3, some 4, some 5, some 0, some 7, some 8, some 9,
          some 10, some 11, some 1]) ∧
    (∀ next : Nat → Nat,
      (GoMap.get (thirteenOnEvt.Publish (goPdqSort next) "evt" none).em.listeners "evt").map
          (fun q => q.items.map (fun li => li.Listener.map IListener.ptr)) =
        some [some 12, some 6, some 2, some 3, some 4, some 5, some 0, some 7, some 8, some 9,
          some 10, some 11, some 1]) ∧
    (∀ next : Nat → Nat,
      (((thirteenOnEvt.Publish (goPdqSort next) "evt" none).em.RemoveListener "evt"
          (some (emptyListener 12))).Publish (goPdqSort next) "evt" none).trace.map
          (fun c => (c.li.Listener.map IListener.ptr, c.li.Priority)) =
        [(some 6, Normal), (some 2, Normal), (some 3, Normal), (some 4, Normal),
          (some 5, Normal), (some 0, Normal), (some 7, Normal), (some 8, Normal),
          (some 9, Normal), (some 10, Normal), (some 11, Normal), (some 1, Normal)]) := by
  have hfree : generatorFree thirteenOnEvt.listeners = true := by decide
  have hpub : ∀ next : Nat → Nat,
      thirteenOnEvt.Publish (goPdqSort next) "evt" none =
        thirteenOnEvt.Publish (goPdqSort id) "evt" none :=
    fun next => Publish_congr (goPdqSort next) (goPdqSort id) thirteenOnEvt "evt" none
      (sortsAlike_of_generatorFree next id _ hfree)
  refine ⟨by decide, ?_, ?_, ?_, ?_⟩
  · intro next
    rw [sortPositions_congr next id _ 13 (Or.inr (by decide))]
    decide
  · intro next
    rw [hpub next]
    decide
  · intro next
    rw [hpub next]
    decide
  · intro next
    rw [hpub next]
    rw [Publish_congr (goPdqSort next) (goPdqSort id) _ "evt" none
      (sortsAlike_of_generatorFree next id _ (by decide))]
    decide

/-- C15, amended: a queue whose entries already stand in non-increasing
priority order, in particular one whose entries all have the same priority
(e.g. all at the default), is left as it stands by `Sort`, whatever `sort.Sort`
does and for every length, and a dispatch in which no listener errors or
aborts invokes the listeners of such a queue under the event's name in the
order they stand in the queue, before any other.  `Push` appends: after
registrations made in a row on a name that had no queue, the queue holds the
entries in registration order, so when their priorities never increase from
one registration to the next (e.g. all at the default) such a dispatch invokes
them in registration order.  Nothing is stated of the order `sort.Sort` gives
entries of equal priority in a queue it has to reorder, nor of the order in
which a queue holds its entries once it has been reordered. -/
theorem C15_sorted_queue_kept (S : GoSort) :
    (∀ q : ListenerQueue, (∀ a ∈ q.items, ∀ b ∈ q.items, a.Priority = b.Priority) →
      IsSorted q.items = true) ∧
    (∀ q : ListenerQueue, IsSorted q.items = true → q.SortQ S = q) ∧
    (∀ (q : ListenerQueue) (li : ListenerItem), (q.Push li).items = q.items ++ [li]) ∧
    (∀ (em : Manager) (e : BasicEvent) (q : ListenerQueue), Reachable S em →
      GoMap.get em.listeners e.name = some q → IsSorted q.items = true →
      (∀ c ∈ (em.publish S e).trace, c.err = none ∧ c.aborts = false) →
      q.items <+: (em.publish S e).trace.map Call.li) ∧
    (∀ (em : Manager) (raw N : String) (hs : List (IListener × List Int)),
      checkName raw = Except.ok N → GoMap.get em.listeners N = none → hs ≠ [] →
      GoMap.get (listenAll em raw hs).listeners N = some { items := registered hs }) ∧
    (∀ (em : Manager) (raw N : String) (hs : List (IListener × List Int)) (e : BasicEvent),
      Reachable S em → checkName raw = Except.ok N → GoMap.get em.listeners N = none →
      hs ≠ [] → IsSorted (registered hs) = true → e.name = N →
      (∀ c ∈ ((listenAll em raw hs).publish S e).trace, c.err = none ∧ c.aborts = false) →
      registered hs <+: ((listenAll em raw hs).publish S e).trace.map Call.li) :=
  ⟨fun q h => isSorted_of_equal q.items h, fun q h => SortQ_of_sorted S q h, fun _ _ => rfl,
    fun em e q hr hq hs hquiet => publish_exact_first S em e q hr.ok hq hs hquiet,
    fun em raw N hs hN hq hne => by
      have hg := listenAll_get raw N hN hs em hne
      rw [hq] at hg
      simpa using hg,
    fun em raw N hs e hr hN hq hne hsorted he hquiet =>
      listenAll_order S em raw N hs e hr hN hq hne hsorted he hquiet⟩

theorem C15_witness :
    registered ((List.range 13).map (fun i => (emptyListener i, ([] : List Int)))) <+:
      ((listenAll (NewManager "test") "evt"
        ((List.range 13).map (fun i => (emptyListener i, ([] : List Int))))).publish
          goInsertionSort (NewBasicEvent "evt" none)).trace.map Call.li :=
  (C15_sorted_queue_kept goInsertionSort).2.2.2.2.2 (NewManager "test") "evt" "evt"
    ((List.range 13).map (fun i => (emptyListener i, ([] : List Int))))
    (NewBasicEvent "evt" none) (Reachable.newManager "test") (by decide) rfl
    (by simp) (by decide) rfl
    (by
      intro c hc
      have h : ∀ c ∈ ((listenAll (NewManager "test") "evt"
          ((List.range 13).map (fun i => (emptyListener i, ([] : List Int))))).publish
            goInsertionSort (NewBasicEvent "evt" none)).trace,
          (c.err = none ∧ c.aborts = false) := by decide
      exact h c hc)

/-- C16: `Sort` is idempotent: applying it twice leaves the queue exactly as
applying it once does. -/
theorem C16_sort_idempotent (S : GoSort) (q : ListenerQueue) :
    ((q.SortQ S).SortQ S).items = (q.SortQ S).items ∧ (q.SortQ S).SortQ S = q.SortQ S :=
  ⟨by rw [SortQ_idem], SortQ_idem S q⟩

/-- C17: on a registry built through the interface, for every sequence of items
each of which is a string that passes `checkName` or an event instance (one of
the caller's, possibly passed several times, or a registered prototype),
`BatchPublish` does not panic and makes one publish per item: the first item
on the registry and the instances as they are, the remaining ones, as a batch,
on the registry and the instances the first publish leaves, so that a failing
item does not stop the later ones and a later item sees what an earlier
dispatch wrote to its event.  The result `ers` is exactly the list of the
non-nil errors of those publishes, in order, and its length is the number of
failing items.  The invocations are those of the publishes, one after the
other. -/
theorem C17_batch_publish {n : Nat} (S : GoSort) (em : Manager) (hr : Reachable S em)
    (insts : Fin n → BasicEvent) (es : List (BatchItem n))
    (hv : ∀ item ∈ es, item.valid em = true) :
    (em.BatchPublish S insts es).panic = none ∧
    (em.BatchPublish S insts es).published.length = es.length ∧
    (em.BatchPublish S insts es).ers = (em.BatchPublish S insts es).published.filterMap id ∧
    (em.BatchPublish S insts es).ers.length =
      ((em.BatchPublish S insts es).published.filter (fun x => x.isSome)).length ∧
    (∀ s rest, es = BatchItem.name s :: rest →
      (em.BatchPublish S insts es).published =
        (em.Publish S s none).err ::
          ((em.Publish S s none).em.BatchPublish S insts rest).published ∧
      (em.BatchPublish S insts es).trace =
        (em.Publish S s none).trace ++
          ((em.Publish S s none).em.BatchPublish S insts rest).trace) ∧
    (∀ i rest, es = BatchItem.inst i :: rest →
      (em.BatchPublish S insts es).published =
        (em.publish S (insts i)).err ::
          ((em.publish S (insts i)).em.BatchPublish S
            (Manager.setInst insts i (em.publish S (insts i)).e) rest).published ∧
      (em.BatchPublish S insts es).trace =
        (em.publish S (insts i)).trace ++
          ((em.publish S (insts i)).em.BatchPublish S
            (Manager.setInst insts i (em.publish S (insts i)).e) rest).trace) ∧
    (∀ key P rest, es = BatchItem.stored key :: rest → GoMap.get em.events key = some P →
      (em.BatchPublish S insts es).published =
        (em.publish S P).err ::
          (Manager.BatchPublish S
            { (em.publish S P).em with
              events := GoMap.set (em.publish S P).em.events key (em.publish S P).e }
            insts rest).published ∧
      (em.BatchPublish S insts es).trace =
        (em.publish S P).trace ++
          (Manager.BatchPublish S
            { (em.publish S P).em with
              events := GoMap.set (em.publish S P).em.events key (em.publish S P).e }
            insts rest).trace) := by
  obtain ⟨h1, h2, h3⟩ := BatchPublish_valid S es em insts hr.ok hv
  have hcons : ∀ (item : BatchItem n) (rest : List (BatchItem n)) (o : ItemResult n),
      es = item :: rest → Manager.publishItem S em insts item = some o →
      (em.BatchPublish S insts es).published =
        o.err :: (o.em.BatchPublish S o.insts rest).published ∧
      (em.BatchPublish S insts es).trace =
        o.trace ++ (o.em.BatchPublish S o.insts rest).trace := by
    intro item rest o hes ho
    subst hes
    obtain ⟨o2, ho2, hpan, hok2, hkeys⟩ :=
      publishItem_valid S em insts item hr.ok (hv item (List.mem_cons_self _ _))
    rw [ho] at ho2
    cases ho2
    have hrest : ∀ i ∈ rest, i.valid o.em = true := by
      intro i hi
      rw [valid_congr em o.em hkeys i]
      exact hv i (List.mem_cons_of_mem _ hi)
    obtain ⟨_, _, _, _, k5, k6⟩ := BatchPublish_cons S em insts item rest o ho hpan hok2 hrest
    exact ⟨k5, k6⟩
  refine ⟨h1, h2, h3, ?_, ?_, ?_, ?_⟩
  · rw [h3]
    exact length_filterMap_id _
  · intro s rest hes
    exact hcons (BatchItem.name s) rest _ hes rfl
  · intro i rest hes
    exact hcons (BatchItem.inst i) rest _ hes rfl
  · intro key P rest hes hP
    exact hcons (BatchItem.stored key) rest
      { em := { (em.publish S P).em with
                events := GoMap.set (em.publish S P).em.events key (em.publish S P).e }
        insts := insts
        err := (em.publish S P).err
        trace := (em.publish S P).trace
        panic := (em.publish S P).panic } hes (by simp [Manager.publishItem, hP])

theorem C17_witness :
    (aliasSample.BatchPublish goInsertionSort (fun _ : Fin 1 => NewBasicEvent "evt2" none)
      [BatchItem.stored "evt2", BatchItem.name "evt2", BatchItem.inst 0,
        BatchItem.inst 0]).panic = none ∧
    (aliasSample.BatchPublish goInsertionSort (fun _ : Fin 1 => NewBasicEvent "evt2" none)
      [BatchItem.stored "evt2", BatchItem.name "evt2", BatchItem.inst 0,
        BatchItem.inst 0]).published.length = 4 ∧
    (aliasSample.BatchPublish goInsertionSort (fun _ : Fin 1 => NewBasicEvent "evt2" none)
      [BatchItem.stored "evt2", BatchItem.name "evt2", BatchItem.inst 0,
        BatchItem.inst 0]).ers =
      (aliasSample.BatchPublish goInsertionSort (fun _ : Fin 1 => NewBasicEvent "evt2" none)
        [BatchItem.stored "evt2", BatchItem.name "evt2", BatchItem.inst 0,
          BatchItem.inst 0]).published.filterMap id ∧
    (aliasSample.BatchPublish goInsertionSort (fun _ : Fin 1 => NewBasicEvent "evt2" none)
      [BatchItem.stored "evt2", BatchItem.name "evt2", BatchItem.inst 0,
        BatchItem.inst 0]).published = [none, some "seen", none, some "seen"] ∧
    (aliasSample.BatchPublish goInsertionSort (fun _ : Fin 1 => NewBasicEvent "evt2" none)
      [BatchItem.stored "evt2", BatchItem.name "evt2", BatchItem.inst 0,
        BatchItem.inst 0]).ers = ["seen", "seen"] :=
  ⟨(C17_batch_publish goInsertionSort aliasSample
      (Reachable.listen _ _ _ (Reachable.addEvent _ (Reachable.newManager "test")))
      (fun _ : Fin 1 => NewBasicEvent "evt2" none)
      [BatchItem.stored "evt2", BatchItem.name "evt2", BatchItem.inst 0, BatchItem.inst 0]
      (by
        intro item hi
        simp only [List.mem_cons, List.mem_singleton, List.not_mem_nil, or_false] at hi
        rcases hi with rfl | rfl | rfl | rfl <;> decide)).1,
   (C17_batch_publish goInsertionSort aliasSample
      (Reachable.listen _ _ _ (Reachable.addEvent _ (Reachable.newManager "test")))
      (fun _ : Fin 1 => NewBasicEvent "evt2" none)
      [BatchItem.stored "evt2", BatchItem.name "evt2", BatchItem.inst 0, BatchItem.inst 0]
      (by
        intro item hi
        simp only [List.mem_cons, List.mem_singleton, List.not_mem_nil, or_false] at hi
        rcases hi with rfl | rfl | rfl | rfl <;> decide)).2.1,
   (C17_batch_publish goInsertionSort aliasSample
      (Reachable.listen _ _ _ (Reachable.addEvent _ (Reachable.newManager "test")))
      (fun _ : Fin 1 => NewBasicEvent "evt2" none)
      [BatchItem.stored "evt2", BatchItem.name "evt2", BatchItem.inst 0, BatchItem.inst 0]
      (by
        intro item hi
        simp only [List.mem_cons, List.mem_singleton, List.not_mem_nil, or_false] at hi
        rcases hi with rfl | rfl | rfl | rfl <;> decide)).2.2.1,
   by decide, by decide⟩

/-- C18: `Listen(name, h, p)` panics exactly when `h` is nil or `name` is not
the literal `*` and fails validation; when it panics the registry is exactly
as before the call; when it succeeds the queue of the key (the name `*`
itself, the trimmed name otherwise) is the previous queue, or an empty one,
with the single entry `(p, h)` appended (`p` is `Normal` when no priority is
given), and no other queue, no other listened name and no prototype changes. -/
theorem C18_listen (em : Manager) (name : String) (listener : Option IListener)
    (priority : List Int) :
    ((em.Listen name listener priority).panic ≠ none ↔
      (listener = none ∨ (name ≠ Wildcard ∧ ∀ N, checkName name ≠ Except.ok N))) ∧
    ((em.Listen name listener priority).panic ≠ none →
      (em.Listen name listener priority).em = em) ∧
    ((em.Listen name listener priority).panic = none →
      ∃ h, listener = some h ∧
        GoMap.get (em.Listen name listener priority).em.listeners
            (if name = Wildcard then Wildcard else TrimSpace name) =
          some { items :=
            (match GoMap.get em.listeners (if name = Wildcard then Wildcard else TrimSpace name) with
             | some q => q.items
             | none => []) ++
            [{ Priority := (match priority with
                            | [] => Normal
                            | p :: _ => p),
               Listener := some h }] } ∧
        (∀ k, k ≠ (if name = Wildcard then Wildcard else TrimSpace name) →
          GoMap.get (em.Listen name listener priority).em.listeners k = GoMap.get em.listeners k) ∧
        (∀ k, k ≠ (if name = Wildcard then Wildcard else TrimSpace name) →
          (em.Listen name listener priority).em.HasListeners k = em.HasListeners k) ∧
        (em.Listen name listener priority).em.events = em.events) := by
  unfold Manager.Listen
  simp only
  generalize hli : ({ Priority := (match priority with
                                   | [] => Normal
                                   | p :: _ => p),
                      Listener := listener } : ListenerItem) = li
  have hL : li.Listener = listener := by rw [← hli]
  rcases addListenerItem_cases em name li with ⟨⟨msg, hp⟩, hem, hwhy⟩ | ⟨hp, hnn, hval, key, hkey, h1, h2, h3, h4⟩
  · rw [hL] at hwhy
    refine ⟨⟨fun _ => hwhy, fun _ => by rw [hp]; simp⟩, fun _ => hem, ?_⟩
    intro hnone
    rw [hp] at hnone
    cases hnone
  · rw [hL] at hnn
    refine ⟨⟨fun h => absurd hp h, ?_⟩, fun h => absurd hp h, ?_⟩
    · rintro (h | ⟨hw, hno⟩)
      · exact absurd h hnn
      · rcases hval with hv | ⟨N, hN⟩
        · exact absurd hv hw
        · exact absurd hN (hno N)
    · intro _
      obtain ⟨h, hh⟩ := Option.ne_none_iff_exists'.mp hnn
      refine ⟨h, hh, ?_, ?_, ?_, h4⟩
      · rw [← hkey, h1, ← hli, hh]
      · rw [← hkey]
        exact h2
      · rw [← hkey]
        exact h3

theorem C18_witness :
    ((NewManager "test").Listen "evt" none []).panic ≠ none ∧
    ((NewManager "test").Listen "evt" none []).em = NewManager "test" ∧
    ((NewManager "test").Listen "evt" (some (emptyListener 1)) []).em.events =
      (NewManager "test").events :=
  ⟨(C18_listen (NewManager "test") "evt" none []).1.mpr (Or.inl rfl),
   (C18_listen (NewManager "test") "evt" none []).2.1
     ((C18_listen (NewManager "test") "evt" none []).1.mpr (Or.inl rfl)),
   by
     obtain ⟨_, _, _, _, _, hev⟩ :=
       (C18_listen (NewManager "test") "evt" (some (emptyListener 1)) []).2.2 rfl
     exact hev⟩

/-- C19: after `Reset` the maps `listeners`, `listenedNames` and `events` are
empty and `HasListeners` is false for every key; `Publish` of a valid name on
the reset registry invokes no listener, returns a nil error and leaves the
registry as it is, so the same holds of every later `Publish`. -/
theorem C19_reset (S : GoSort) (em : Manager) :
    em.Reset.listeners = [] ∧ em.Reset.listenedNames = [] ∧ em.Reset.events = [] ∧
    (∀ k, em.Reset.HasListeners k = false) ∧
    (∀ raw N params, checkName raw = Except.ok N →
      (em.Reset.Publish S raw params).err = none ∧
      (em.Reset.Publish S raw params).trace = [] ∧
      (em.Reset.Publish S raw params).panic = none ∧
      (em.Reset.Publish S raw params).em = em.Reset) := by
  refine ⟨rfl, rfl, rfl, fun k => rfl, ?_⟩
  intro raw N params hN
  have hnf : em.Reset.notFound N = true := notFound_of em.Reset N rfl rfl (fun _ _ => rfl)
  rw [Publish_not_found S em.Reset raw N params hN hnf]
  exact ⟨rfl, rfl, rfl, rfl⟩

theorem C19_witness :
    (twoOnEvt1.Reset.Publish goInsertionSort "evt1" none).err = none ∧
    (twoOnEvt1.Reset.Publish goInsertionSort "evt1" none).trace = [] ∧
    (twoOnEvt1.Reset.Publish goInsertionSort "evt1" none).panic = none ∧
    (twoOnEvt1.Reset.Publish goInsertionSort "evt1" none).em = twoOnEvt1.Reset :=
  (C19_reset goInsertionSort twoOnEvt1).2.2.2.2 "evt1" "evt1" none (by decide)

/-- C20, as stated, fails: the event `Publish` manufactures for a name without
prototype when no data is supplied has a nil bag. -/
theorem C20_counterexample :
    checkName "evt1" = Except.ok "evt1" ∧
    GoMap.get twoOnEvt1.events "evt1" = none ∧
    (twoOnEvt1.Publish goInsertionSort "evt1" none).trace.map (fun c => c.arg.Data) =
      [none, none] ∧
    (twoOnEvt1.Publish goInsertionSort "evt1" none).e =
      some { name := "evt1", data := none, aborted := false } ∧
    ((NewManager "test").copyBasicEvent "evt1" none).Data = none := by
  decide

/-- C20, amended: the bag of an event made by `NewBasicEvent` is never nil: it
is the empty mapping when no data is supplied and the supplied mapping
otherwise; the event `Publish` manufactures for a name without prototype
carries the supplied mapping when one is supplied. -/
theorem C20_data (S : GoSort) (em : Manager) (name raw N : String) (d : GoMap Val) :
    (NewBasicEvent name none).Data = some [] ∧
    (NewBasicEvent name (some d)).Data = some d ∧
    (∀ data, (NewBasicEvent name data).Data ≠ none) ∧
    (em.copyBasicEvent name (some d)).Data = some d ∧
    (checkName raw = Except.ok N → GoMap.get em.events N = none →
      ∀ c, (em.Publish S raw (some d)).trace.head? = some c → c.arg.Data = some d) := by
  refine ⟨rfl, rfl, ?_, rfl, ?_⟩
  · intro data
    cases data <;> simp [NewBasicEvent, BasicEvent.Data]
  · intro hN hproto c hc
    have := Publish_head S em raw N (some d) hN c hc
    rw [this]
    unfold resolved
    rw [hproto]
    rfl

theorem C20_witness :
    ∀ c, (twoOnEvt1.Publish goInsertionSort "evt1" (some [("k", "v")])).trace.head? = some c →
      c.arg.Data = some [("k", "v")] :=
  (C20_data goInsertionSort twoOnEvt1 "evt1" "evt1" "evt1" [("k", "v")]).2.2.2.2
    (by decide) (by decide)

/-- C22 fails on the code.  The name `ab.` is valid and its last `.` is its
final character.  The pre-check of `Publish` finds no possible group pattern
for it: with a listener under `ab.*` only, `Publish("ab.")` invokes nothing.
The group phase of `publish` tests `pos > 0 && pos < len(name)`, which holds of
`ab.`, and runs the queue under `ab.*`: a dispatch of an event named `ab.`
invokes the listener of `ab.*`, and so does `Publish("ab.")` once a listener on
`*` makes the pre-check pass. -/
theorem C22_trailing_dot_runs_group :
    checkName "ab." = Except.ok "ab." ∧
    lastIndexByte "ab." '.' = (("ab.".length : Nat) : Int) - 1 ∧
    groupAb.notFound "ab." = true ∧
    (groupAb.Publish goInsertionSort "ab." none).trace.length = 0 ∧
    (groupAb.publish goInsertionSort (NewBasicEvent "ab." none)).trace.map
        (fun c => (c.li.Listener.map IListener.ptr, c.arg.Name)) = [(some 1, "ab.")] ∧
    groupAbAndAll.HasListeners "ab." = false ∧
    groupAbAndAll.HasListeners "ab.*" = true ∧
    groupAbAndAll.HasListeners "*" = true ∧
    groupAbAndAll.notFound "ab." = false ∧
    (groupAbAndAll.Publish goInsertionSort "ab." none).trace.map
        (fun c => (c.li.Listener.map IListener.ptr, c.arg.Name)) =
      [(some 1, "ab."), (some 2, "ab.")] := by
  decide

/-- C23 fails on the code.  The variable `err` of `BatchPublish` is declared
before the loop and keeps its value through an item that is neither a string
nor an event, so the error of the last publish is appended once more.  With a
failing listener on `e2`, `BatchPublish(NewBasicEvent("e2", nil), v)` for such
a `v` makes one publish, which fails, and returns two errors; with the two
items in the other order it returns one. -/
theorem C23_stale_error :
    (batchSample.BatchPublish goInsertionSort (fun _ : Fin 1 => NewBasicEvent "e2" none)
      [BatchItem.inst 0, BatchItem.other]).published = [some "oops"] ∧
    (batchSample.BatchPublish goInsertionSort (fun _ : Fin 1 => NewBasicEvent "e2" none)
      [BatchItem.inst 0, BatchItem.other]).ers = ["oops", "oops"] ∧
    (batchSample.BatchPublish goInsertionSort (fun _ : Fin 1 => NewBasicEvent "e2" none)
      [BatchItem.inst 0, BatchItem.other]).trace.length = 1 ∧
    (batchSample.BatchPublish goInsertionSort (fun _ : Fin 1 => NewBasicEvent "e2" none)
      [BatchItem.inst 0, BatchItem.other]).panic = none ∧
    (batchSample.BatchPublish goInsertionSort (fun _ : Fin 1 => NewBasicEvent "e2" none)
      [BatchItem.other, BatchItem.inst 0]).ers = ["oops"] := by
  decide

end Event
